import Mathlib

/-!
# Verification of the n-Queens repository (nqueens.cpp, mpi_nqueens.cpp)

This development shallowly embeds the level-bounded backtracking enumerator
`nqueens_by_level` from `nqueens.cpp` and the master/worker coordination
protocol from `mpi_nqueens.cpp`, and proves (or refutes) the specification
claims about them.

Modelling conventions, stated once here:
* C `int` and `unsigned int` values are modelled as `ℤ`; the one place where
  the C code compares an `int` against `unsigned` arithmetic that can wrap
  (the cursor-initialisation loop condition `k <= max_level-1`) is modelled
  with an explicit `% 2^32`.
* `nqueens_by_level` declares `int i,j,k,…,size` and assigns
  `size = pos.size()` (a `size_t` narrowed to `int`), so for board lengths
  or `max_level` values of `2^31` and above the C program wraps `size`
  negative and overflows the `int` counter of the initialisation loop.  The
  embedding keeps these quantities as exact integers, so it is faithful only
  below `2^31` (`I32`); every theorem that asserts behaviour of the source
  for a range of board sizes is therefore quantified over lengths `< I32`.
* The cursor array `index` (allocated with `new int[max_level]`) is modelled
  as a `List ℤ` of length `max_level`; its cells start at the value `0`
  (a fixed convention for the indeterminate contents of a fresh allocation).
  A read outside `[0, max_level)` is undefined behaviour in the C program;
  the model returns `0` for such reads (a fixed convention), and a write
  outside the range is dropped.  Every read or write of the cursor array
  records the *attempted* index in an access trace, so out-of-range accesses
  are visible in the trace even though the model gives them a conventional
  value.
* Loops are run on fuel; a run that exhausts its fuel returns `none` in its
  `final` field together with the solutions emitted and accesses performed
  so far.  A `final = some s` result means the loop exited normally, in the
  state `s`.
-/

namespace NQueens

/-- `2^32`, the modulus of C `unsigned int` arithmetic. -/
def U32 : ℤ := 4294967296

/-- `2^31`: from this board length (or `max_level`) upwards the source's
`int size = pos.size()` narrowing wraps negative and the `int` counter of
the cursor-initialisation loop overflows, so the exact-integer embedding
is faithful to the C program only below this bound.  The range-quantified
claims quantify below it. -/
def I32 : ℤ := 2147483648

theorem I32_lt_U32 : I32 < U32 := by norm_num [I32, U32]

/-- Read `index[k]` from the cursor array: in-range reads return the cell,
out-of-range reads (undefined behaviour in the C program) return `0` by
convention. -/
def readIdx (idx : List ℤ) (k : ℤ) : ℤ :=
  if 0 ≤ k then idx.getD k.toNat 0 else 0

/-- Write `index[k] := v`: out-of-range writes (undefined behaviour in the C
program) are dropped by convention (`List.set` out of range is the identity). -/
def writeIdx (idx : List ℤ) (k v : ℤ) : List ℤ :=
  if 0 ≤ k then idx.set k.toNat v else idx

/-- Read `pos[i]` from the board vector (out-of-range reads return `0` by
convention, mirroring `readIdx`). -/
def readPos (pos : List ℤ) (i : ℤ) : ℤ :=
  if 0 ≤ i then pos.getD i.toNat 0 else 0

/-- Write `pos[k] := v` (out-of-range writes are dropped by convention). -/
def writePos (pos : List ℤ) (k v : ℤ) : List ℤ :=
  if 0 ≤ k then pos.set k.toNat v else pos

/-- The local variables of `nqueens_by_level` that live across iterations of
its outer `while` loop: the board `pos`, the cursor array `index`, and the
C `int` variables `k`, `i`, `j`, `flag`. -/
structure St where
  pos : List ℤ
  idx : List ℤ
  k : ℤ
  i : ℤ
  j : ℤ
  flag : ℤ
  deriving Repr, DecidableEq

/-- The rejection test of `nqueens_by_level`, verbatim from the source:
`((i==k)||(j==index[k])||(abs(i-k)==abs(j-index[k])))&&(i<=k-1)`. -/
def badCond (s : St) : Bool :=
  (s.i == s.k || s.j == readIdx s.idx s.k ||
    (s.i - s.k).natAbs == (s.j - readIdx s.idx s.k).natAbs) && (s.i ≤ s.k - 1)

/-- The cursor-array cells `badCond` touches: the `i==k` disjunct
short-circuits, so `index[k]` is read only when `i ≠ k`. -/
def badCondTrace (s : St) : List ℤ :=
  if s.i == s.k then [] else [s.k]

/-- The back-tracking inner loop
`while(index[k]>=size-1){ k=k-1; if(k<=stop_sign){flag=1;} }` of
`nqueens_by_level`.  Returns the cursor cells read, and on normal exit the
final value of `k` (`none` = fuel exhausted).  The `flag=1` assignment is
recovered from the result: the loop body has set `flag` exactly when the
returned `k` is `≤ stop_sign`, since `k` only decreases. -/
def ascend (idx : List ℤ) (size : ℤ) : ℤ → ℕ → List ℤ × Option ℤ
  | _, 0 => ([], none)
  | k, fuel + 1 =>
    if readIdx idx k ≥ size - 1 then
      let r := ascend idx size (k - 1) fuel
      (k :: r.1, r.2)
    else ([k], some k)

/-- The solution vector handed to the callback: `vec_out[t] = pos[t]` for
`t = 0, …, max_level-1`. -/
def emitSol (pos : List ℤ) (maxL : ℤ) : List ℤ :=
  (List.range maxL.toNat).map fun t => pos.getD t 0

/-- The result of one iteration of the outer `while` loop: an emitted
solution (if the callback was invoked), the cursor cells accessed, the row
written by `pos[k]=index[k]` (if any), and the successor state (`none` =
the inner loop ran out of fuel). -/
structure StepOut where
  em : Option (List ℤ)
  tr : List ℤ
  pl : Option ℤ
  next : Option St
  deriving Repr

/-- Shared tail of the two occurrences of the back-tracking sequence
(`while(…){…} if(flag!=1){index[k]=index[k]+1;} i=0; j=pos[i];`):
given the `ascend` outcome, produce the successor state. -/
def afterAscend (stop : ℤ) (pos : List ℤ) (idx : List ℤ)
    (em : Option (List ℤ)) (pl : Option ℤ) (tr0 : List ℤ) :
    List ℤ × Option ℤ → StepOut
  | (tr, none) => ⟨em, tr0 ++ tr, pl, none⟩
  | (tr, some k') =>
    let flag' : ℤ := if k' ≤ stop then 1 else 0
    if flag' ≠ 1 then
      ⟨em, tr0 ++ tr ++ [k'],  pl,
        some ⟨pos, writeIdx idx k' (readIdx idx k' + 1), k', 0, readPos pos 0, flag'⟩⟩
    else
      ⟨em, tr0 ++ tr, pl, some ⟨pos, idx, k', 0, readPos pos 0, flag'⟩⟩

/-- One iteration of the outer `while(flag==0)` loop of `nqueens_by_level`,
translated branch by branch from the source.  `fuel` bounds the inner
back-tracking loop. -/
def step (size maxL stop : ℤ) (s : St) (fuel : ℕ) : StepOut :=
  if badCond s then
    -- "solution is bad": back-track, advance the cursor, restart the scan
    afterAscend stop s.pos s.idx none none (badCondTrace s)
      (ascend s.idx size s.k fuel)
  else if s.i ≥ s.k - 1 then
    -- all rows [0,k) checked: place the queen, `pos[k]=index[k]`
    let pos' := writePos s.pos s.k (readIdx s.idx s.k)
    if s.k = maxL - 1 then
      -- last row: report the solution, then back-track as above
      afterAscend stop pos' s.idx (some (emitSol pos' maxL)) (some s.k)
        (badCondTrace s ++ [s.k])
        (ascend s.idx size s.k fuel)
    else
      -- descend one row, restarting its cursor at 0
      ⟨none, badCondTrace s ++ [s.k, s.k + 1], some s.k,
        some ⟨pos', writeIdx s.idx (s.k + 1) 0, s.k + 1, 0, readPos pos' 0, s.flag⟩⟩
  else
    -- check the next already-placed row
    ⟨none, badCondTrace s, none, some ⟨s.pos, s.idx, s.k, s.i + 1, readPos s.pos (s.i + 1), s.flag⟩⟩

/-- The observable outcome of a run: emitted solutions in order, the cursor
access trace, the rows written by `pos[k]=index[k]`, and the final state
(`none` = fuel exhausted before the loop terminated). -/
structure Out where
  em : List (List ℤ)
  tr : List ℤ
  pl : List ℤ
  final : Option St
  deriving Repr

/-- The outer `while(flag==0)` loop, on fuel. -/
def run (size maxL stop : ℤ) : St → ℕ → Out
  | _, 0 => ⟨[], [], [], none⟩
  | s, fuel + 1 =>
    if s.flag ≠ 0 then ⟨[], [], [], some s⟩
    else
      match step size maxL stop s (fuel + 1) with
      | ⟨em, tr, pl, none⟩ => ⟨em.toList, tr, pl.toList, none⟩
      | ⟨em, tr, pl, some s'⟩ =>
        let o := run size maxL stop s' fuel
        ⟨em.toList ++ o.em, tr ++ o.tr, pl.toList ++ o.pl, o.final⟩

/-- The cursor-initialisation loop
`for(k=start_level;k<=max_level-1;k++){index[k]=0;}`.  `k` is a C `int`
compared against the `unsigned` value `max_level-1`, so the comparison is
performed modulo `2^32`; when `max_level = 0` the bound is `2^32 - 1` and
the loop never exits.  Returns the cells written and, on normal exit, the
initialised cursor array.  The counter `k` is kept exact here, while an
exiting run of the C loop increments the `int` `k` up to `max_level`:
faithful only for `max_level < 2^31` (`I32`), below the signed-overflow
point — the bound under which the claims quantify. -/
def initLoop (maxL : ℤ) : List ℤ → ℤ → ℕ → List ℤ × Option (List ℤ)
  | _, _, 0 => ([], none)
  | idx, k, fuel + 1 =>
    if k % U32 ≤ (maxL - 1) % U32 then
      let r := initLoop maxL (writeIdx idx k 0) (k + 1) fuel
      (k :: r.1, r.2)
    else ([], some idx)

/-- Prepend the initialisation-loop writes to a run outcome. -/
def withInit (tr : List ℤ) (o : Out) : Out := ⟨o.em, tr ++ o.tr, o.pl, o.final⟩

/-- `nqueens_by_level(pos, start_level, max_level, callback)`: allocate the
cursor array, initialise cells `[start_level, max_level)`, and run the outer
loop from `k = start_level`, `i = 0`, `j = pos[0]`, `flag = 0`, with
`stop_sign = start_level - 1` and `size = pos.size()`.  The source narrows
the `size_t` length to `int size`, which wraps negative for boards of
length `≥ 2^31`; `size` is exact here, so this embedding is faithful only
for `pos.length < 2^31` (`I32`) — the bound under which the claims
quantify. -/
def nqueensByLevel (pos : List ℤ) (start maxL : ℤ) (fuel : ℕ) : Out :=
  match initLoop maxL (List.replicate maxL.toNat 0) start fuel with
  | (tr, none) => ⟨[], tr, [], none⟩
  | (tr, some idx) =>
    withInit tr (run (pos.length : ℤ) maxL (start - 1) ⟨pos, idx, start, 0, readPos pos 0, 0⟩ fuel)

/-- The all-zero board `std::vector<unsigned int> zero(n, 0)`. -/
def zeros (n : ℕ) : List ℤ := List.replicate n 0

/-- `nqueens(n)`: run the enumerator over the full range `[0, n)` on the
all-zero board. -/
def nqueens (n : ℕ) (fuel : ℕ) : Out := nqueensByLevel (zeros n) 0 n fuel

/-- One call of `nqueens(n)` together with the `SolutionStore` state it
manipulates: the callback appends every emitted solution to the static
store, `SolutionStore::solutions()` is copied into the return value, and
`clear_solutions()` empties the store.  Returns
`some (returned flat sequence, store contents after the call)`, or `none`
if `nqueens_by_level` does not terminate (so the call never returns). -/
def nqueensCall (n : ℕ) (store : List ℤ) (fuel : ℕ) : Option (List ℤ × List ℤ) :=
  let o := nqueens n fuel
  match o.final with
  | some _ => some (store ++ o.em.flatten, [])
  | none => none

/-! ## The candidate test of the enumerator (claim C3)

The inner scan of the outer loop checks the candidate column `index[k]`
at row `k` against the already placed rows `i = 0, 1, …` via `badCond`,
one row per loop iteration, until either the test fires (the candidate is
rejected) or `i >= k-1` (the candidate is accepted and placed).  During
the scan `j` always holds `pos[i]` and the candidate `index[k]` is fixed,
so the scan is the following loop over `i` alone. -/

/-- The rejection test at scan position `i` for candidate column `c` at row
`k`: `((i==k)||(pos[i]==c)||(abs(i-k)==abs(pos[i]-c)))&&(i<=k-1)`. -/
def badAt (pos : List ℤ) (k c i : ℤ) : Bool :=
  (i == k || readPos pos i == c ||
    (i - k).natAbs == (readPos pos i - c).natAbs) && (i ≤ k - 1)

/-- `badAt` with the structurally dead `i==k` clause removed. -/
def badAtNoRow (pos : List ℤ) (k c i : ℤ) : Bool :=
  (readPos pos i == c ||
    (i - k).natAbs == (readPos pos i - c).natAbs) && (i ≤ k - 1)

/-- The scan loop: starting from row `i`, reject as soon as `badAt` fires,
accept when `i >= k-1` is reached with the test never having fired. -/
def scanLoop (bad : ℤ → Bool) (k : ℤ) : ℤ → ℕ → Bool
  | _, 0 => false
  | i, fuel + 1 =>
    if bad i then false
    else if i ≥ k - 1 then true
    else scanLoop bad k (i + 1) fuel

/-- Acceptance of candidate column `c` at row `k`: the scan starting at
`i = 0` (the fuel `k.toNat + 1` is enough for the at most `k` scan steps). -/
def accept (pos : List ℤ) (k c : ℤ) : Bool :=
  scanLoop (badAt pos k c) k 0 (k.toNat + 1)

/-- Acceptance computed with the dead `i==k` clause removed. -/
def acceptNoRow (pos : List ℤ) (k c : ℤ) : Bool :=
  scanLoop (badAtNoRow pos k c) k 0 (k.toNat + 1)

/-- The specification's per-pair non-attacking test: no column conflict and
no diagonal conflict against any placed row `i < k`. -/
def noClash (pos : List ℤ) (k c : ℤ) : Bool :=
  (List.range k.toNat).all fun t =>
    !(readPos pos t == c) && !(((t : ℤ) - k).natAbs == (readPos pos t - c).natAbs)

/-! ## Reference recursion

`dfsAux` is the plain recursive form of the search: at each row try the
columns `0 … size-1` in increasing order, keep the non-clashing ones,
recurse one row deeper, and report `pos[0..maxL)` when all rows of the
range are placed.  The main simulation theorem below identifies the
emissions of the iterative machine with this recursion. -/

/-- `[c, c+1, …, c+m-1]` as integers. -/
def intsFrom (c : ℤ) (m : ℕ) : List ℤ := (List.range m).map fun (t : ℕ) => c + (t : ℤ)

def dfsAux (size maxL : ℤ) : ℕ → List ℤ → ℤ → List (List ℤ)
  | 0, pos, _ => [emitSol pos maxL]
  | d + 1, pos, k =>
    (intsFrom 0 size.toNat).flatMap fun c =>
      if noClash pos k c then dfsAux size maxL d (writePos pos k c) (k + 1) else []

/-- The recursive reference search over rows `[start, maxL)` on a board of
`pos.length` columns. -/
def dfs (pos : List ℤ) (start maxL : ℤ) : List (List ℤ) :=
  dfsAux (pos.length : ℤ) maxL (maxL - start).toNat pos start

/-- The solutions below the candidate `(r, c)`: none if `c` clashes with
the placed rows, otherwise all solutions extending the board with `c`
placed at row `r`. -/
def subtree (size maxL : ℤ) (pos : List ℤ) (r c : ℤ) : List (List ℤ) :=
  if noClash pos r c then
    dfsAux size maxL (maxL - 1 - r).toNat (writePos pos r c) (r + 1)
  else []

/-- The solutions of the candidates `c, c+1, …, size-1` at row `r`. -/
def rowTail (size maxL : ℤ) (pos : List ℤ) (r c : ℤ) : List (List ℤ) :=
  (intsFrom c (size - c).toNat).flatMap (subtree size maxL pos r)

/-- The solutions still to be found in the rows below the current one:
for `u` rows `r, r-1, …, r-u+1`, the candidates strictly after each row's
current cursor value. -/
def below (size maxL : ℤ) (pos idx : List ℤ) : ℕ → ℤ → List (List ℤ)
  | 0, _ => []
  | u + 1, r =>
    rowTail size maxL pos r (readIdx idx r + 1) ++ below size maxL pos idx u (r - 1)

/-- Every solution the machine will still emit from the loop-top state at
row `k`: the current row from its cursor on, then the rows below. -/
def rem (size maxL start : ℤ) (pos idx : List ℤ) (k : ℤ) : List (List ℤ) :=
  rowTail size maxL pos k (readIdx idx k) ++
    below size maxL pos idx (k - start).toNat (k - 1)

/-- Strict lexicographic order on column sequences (used for claim C6). -/
def lexLT : List ℤ → List ℤ → Prop := List.Lex (· < ·)

/-! ## The master/worker protocol (mpi_nqueens.cpp)

The protocol is modelled functionally.  Workers are deterministic: worker
`w`'s stream of messages to the master is `initial_ready` followed by one
report per Work Unit dispatched to it, in dispatch order (the channel is
FIFO per sender).  The master's only nondeterminism is which worker each
`MPI_Recv(…, MPI_ANY_SOURCE, work_request_tag, …)` matches; a schedule
(a list of worker ranks) resolves those choices.  A receive from a worker
whose next message does not exist (the worker never sends it, e.g. its
enumerator does not terminate) blocks forever: the run returns `none`.

A worker's board buffer is `std::vector<unsigned int> pos(n)` (all zeros);
each received Work Unit overwrites `pos[0..k)` and `nqueens_by_level`
takes `pos` by value, so the board a worker enumerates for a partial
solution `p` is always `p ++ (n-k zeros)`. -/

/-- Observable master events: broadcasts of the parameters, receipts of
readiness signals (with batch where `solution_ready`), Work Unit
dispatches, and termination sends. -/
inductive MEv where
  | bcast (v : ℤ)
  | recvInit (w : ℕ)
  | recvSol (w : ℕ) (batch : List ℤ)
  | recvNoSol (w : ℕ)
  | dispatch (w : ℕ) (p : List ℤ)
  | sendTerm (r : ℕ)
  deriving Repr, DecidableEq

/-- A worker→master message: the initial readiness, or the report for one
completed Work Unit (`solution_ready` + batch, or `no_solution_ready`). -/
inductive WMsg where
  | init
  | report (batch : List ℤ)
  deriving Repr, DecidableEq

/-- The board worker `w` enumerates for the partial solution `p`. -/
def workerBoard (n k : ℕ) (p : List ℤ) : List ℤ :=
  p ++ List.replicate (n - k) (0 : ℤ)

/-- The result of `nqueens_by_level(board, k, n, &worker_solution_func)`
on a worker, with the drained local `SolutionStore` as the flat batch;
`none` when the enumerator does not terminate within `fuel` (the report
is then never sent). -/
def workerReport (n k : ℕ) (p : List ℤ) (fuel : ℕ) : Option (List ℤ) :=
  let o := nqueensByLevel (workerBoard n k p) k n fuel
  match o.final with
  | some _ => some o.em.flatten
  | none => none

/-- The `m`-th message (0-indexed) worker `w` sends to the master, given
the Work Units dispatched to it so far. -/
def workerMsg (n k : ℕ) (fuel : ℕ) (assigned : List (List ℤ)) (m : ℕ) :
    Option WMsg :=
  match m with
  | 0 => some .init
  | t + 1 =>
    match assigned.get? t with
    | none => none
    | some p => (workerReport n k p fuel).map .report

/-- The master's protocol state: Work Units dispatched to each worker (in
order), messages consumed from each worker, the `ActiveWorkers` counter,
the master's `SolutionStore`, and the event trace so far. -/
structure PState (W : ℕ) where
  assigned : Fin W → List (List ℤ)
  consumed : Fin W → ℕ
  active : ℤ
  store : List ℤ
  events : List MEv

/-- `recieve_solution()`: receive the next message of the scheduled worker
(blocking forever — `none` — if that worker never sends another message),
consume a following result batch where announced, and update
`ActiveWorkers`. -/
def receiveFrom (n k : ℕ) (fuel : ℕ) {W : ℕ} (s : PState W) (w : Fin W) :
    Option (PState W) :=
  match workerMsg n k fuel (s.assigned w) (s.consumed w) with
  | none => none
  | some .init =>
    some { s with consumed := Function.update s.consumed w (s.consumed w + 1),
                  events := s.events ++ [.recvInit w] }
  | some (.report batch) =>
    if batch.isEmpty then
      some { s with consumed := Function.update s.consumed w (s.consumed w + 1),
                    active := s.active - 1,
                    events := s.events ++ [.recvNoSol w] }
    else
      some { s with consumed := Function.update s.consumed w (s.consumed w + 1),
                    active := s.active - 1,
                    store := s.store ++ batch,
                    events := s.events ++ [.recvSol w batch] }

/-- `master_solution_func(p)` for each partial solution `p` in turn:
receive a readiness signal, send `p` to that worker, and increment
`ActiveWorkers`. -/
def dispatchPhase (n k : ℕ) (fuel : ℕ) {W : ℕ} :
    List (List ℤ) → PState W → List (Fin W) → Option (PState W × List (Fin W))
  | [], s, sched => some (s, sched)
  | _ :: _, _, [] => none
  | p :: ps, s, w :: sched' =>
    match receiveFrom n k fuel s w with
    | none => none
    | some s' =>
      dispatchPhase n k fuel ps
        { s' with assigned := Function.update s'.assigned w (s'.assigned w ++ [p]),
                  active := s'.active + 1,
                  events := s'.events ++ [.dispatch w p] }
        sched'

/-- `while(ActiveWorkers::active_workers() > 0) recieve_solution();`. -/
def drainPhase (n k : ℕ) (fuel : ℕ) {W : ℕ} :
    PState W → List (Fin W) → ℕ → Option (PState W)
  | s, _, 0 => if s.active > 0 then none else some s
  | s, [], _ + 1 => if s.active > 0 then none else some s
  | s, w :: sched', fuel2 + 1 =>
    if s.active > 0 then
      match receiveFrom n k fuel s w with
      | none => none
      | some s' => drainPhase n k fuel s' sched' fuel2
    else some s

/-- The master's protocol state after `distribute_parameters` and
`ActiveWorkers::initialize_workers()`. -/
def initPS (n k : ℕ) (W : ℕ) : PState W :=
  ⟨fun _ => [], fun _ => 0, 0, [], [.bcast (n : ℤ), .bcast (k : ℤ)]⟩

/-- The master's processing of the enumerator outcome `o`: dispatch every
partial solution, drain the outstanding reports, send the termination
signal to every worker rank `1 … W`, and return the drained global
`SolutionStore`.  The event trace is returned even if the run blocks
(`none` result). -/
def masterRun (n k W : ℕ) (sched : List (Fin W)) (fuel : ℕ) (o : Out) :
    List MEv × Option (List ℤ) :=
  match o.final with
  | none => ((initPS n k W).events, none)
  | some _ =>
    match dispatchPhase n k fuel o.em (initPS n k W) sched with
    | none => ((initPS n k W).events, none)
    | some (s1, sched') =>
      match drainPhase n k fuel s1 sched' fuel with
      | none => (s1.events, none)
      | some s2 =>
        (s2.events ++ (List.range W).map fun r => MEv.sendTerm (r + 1), some s2.store)

/-- `master_main(n, k)` with `W` workers: broadcast `(n, k)`, zero the
active-worker counter, enumerate the partial solutions of levels `[0, k)`
on the all-zero board, and hand the outcome to `masterRun`. -/
def masterMain (n k W : ℕ) (sched : List (Fin W)) (fuel : ℕ) :
    List MEv × Option (List ℤ) :=
  masterRun n k W sched fuel (nqueensByLevel (zeros n) 0 k fuel)

/-- The trace of a master run (defined even when the run blocks). -/
def masterEvents (n k W : ℕ) (sched : List (Fin W)) (fuel : ℕ) : List MEv :=
  (masterMain n k W sched fuel).1

/-- The aggregated flat solution sequence of a completed master run. -/
def masterResult (n k W : ℕ) (sched : List (Fin W)) (fuel : ℕ) : Option (List ℤ) :=
  (masterMain n k W sched fuel).2

/-! ## The worker's polling loop (claim C9)

`worker_main`'s loop reads the termination buffer `keep_working` at the
head of each iteration and only then tests the work request.  The values
successively read from `keep_working` (written behind the scenes by the
posted non-blocking termination receive) and the outcomes of the work-
request tests are modelled as input streams indexed by the iteration
counter.  `working = 1`, so the loop continues exactly while the read
value equals `1`. -/

/-- The worker loop: `termBuf t` is the value the iteration-`t` read of
`keep_working` returns; `work t = some p` means the iteration-`t`
`MPI_Test` of the work request reports the partial solution `p` received.
Returns the list of `(iteration, partial)` pairs processed and
`some t` when the loop exited (and then freed the work request) at
iteration `t`, `none` if the fuel ran out first. -/
def workerLoop (termBuf : ℕ → ℤ) (work : ℕ → Option (List ℤ)) :
    ℕ → ℕ → List (ℕ × List ℤ) × Option ℕ
  | _, 0 => ([], none)
  | t, fuel + 1 =>
    if termBuf t = 1 then
      match work t with
      | some p =>
        let r := workerLoop termBuf work (t + 1) fuel
        ((t, p) :: r.1, r.2)
      | none => workerLoop termBuf work (t + 1) fuel
    else ([], some t)

/-! ## Fuel monotonicity -/

theorem ascend_mono {idx : List ℤ} {size : ℤ} {k : ℤ} {f f' : ℕ}
    {tr : List ℤ} {k' : ℤ} (h : ascend idx size k f = (tr, some k'))
    (hf : f ≤ f') : ascend idx size k f' = (tr, some k') := by
  induction f generalizing k f' tr with
  | zero => simp [ascend] at h
  | succ f ih =>
    obtain ⟨f'', rfl⟩ : ∃ f'', f' = f'' + 1 := ⟨f' - 1, by omega⟩
    rw [ascend] at h ⊢
    by_cases hc : readIdx idx k ≥ size - 1
    · simp only [if_pos hc] at h ⊢
      cases hA : ascend idx size (k - 1) f with
      | mk a b =>
        rw [hA] at h
        simp only [Prod.mk.injEq] at h
        obtain ⟨htr, hb⟩ := h
        subst hb
        rw [ih hA (by omega)]
        simp [htr]
    · simp only [if_neg hc] at h ⊢; exact h

theorem scanLoop_mono {bad : ℤ → Bool} {k i : ℤ} {f f' : ℕ}
    (h : f ≤ f') (ht : scanLoop bad k i f = true) : scanLoop bad k i f' = true := by
  induction f generalizing i f' with
  | zero => simp [scanLoop] at ht
  | succ f ih =>
    obtain ⟨f'', rfl⟩ : ∃ f'', f' = f'' + 1 := ⟨f' - 1, by omega⟩
    rw [scanLoop] at ht ⊢
    by_cases hb : bad i
    · simp [hb] at ht
    · simp only [if_neg hb] at ht ⊢
      by_cases hk : i ≥ k - 1
      · simp [hk]
      · simp only [if_neg hk] at ht ⊢; exact ih (by omega) ht

/-! ## The scan computes the specification's non-attacking test (claim C3) -/

theorem scanLoop_eq_true_iff (bad : ℤ → Bool) (k : ℤ) : ∀ (i : ℤ) (fuel : ℕ),
    (∀ m, k - 1 < m → bad m = false) →
    (k - i).toNat < fuel →
    (scanLoop bad k i fuel = true ↔ ∀ m, i ≤ m → m ≤ k - 1 → bad m = false) := by
  intro i fuel
  induction fuel generalizing i with
  | zero => intro _ h; omega
  | succ fuel ih =>
    intro hbad hf
    rw [scanLoop]
    by_cases hb : bad i
    · simp only [if_pos hb]
      constructor
      · intro h; cases h
      · intro h
        have hik : i ≤ k - 1 := by
          by_contra hik
          rw [hbad i (by omega)] at hb; cases hb
        rw [h i le_rfl hik] at hb; cases hb
    · simp only [if_neg hb]
      by_cases hk : i ≥ k - 1
      · simp only [if_pos hk, true_iff]
        intro m him hmk
        have : m = i := by omega
        subst this
        simp [hb]
      · simp only [if_neg hk]
        rw [ih (i + 1) hbad (by omega)]
        constructor
        · intro h m him hmk
          rcases eq_or_lt_of_le him with rfl | him'
          · simp [hb]
          · exact h m (by omega) hmk
        · intro h m him hmk; exact h m (by omega) hmk

theorem badAt_large {pos : List ℤ} {k c m : ℤ} (h : k - 1 < m) :
    badAt pos k c m = false := by
  simp only [badAt, Bool.and_eq_false_iff]
  right; simpa using by omega

theorem badAtNoRow_large {pos : List ℤ} {k c m : ℤ} (h : k - 1 < m) :
    badAtNoRow pos k c m = false := by
  simp only [badAtNoRow, Bool.and_eq_false_iff]
  right; simpa using by omega

/-- The code's scan accepts a candidate exactly when the specification's
non-attacking test holds against every placed row. -/
theorem accept_eq_noClash (pos : List ℤ) (k c : ℤ) :
    accept pos k c = noClash pos k c := by
  have hs := scanLoop_eq_true_iff (badAt pos k c) k 0 (k.toNat + 1)
    (fun m hm => badAt_large hm) (by omega)
  have hn : noClash pos k c = true ↔
      ∀ m : ℤ, 0 ≤ m → m ≤ k - 1 → badAt pos k c m = false := by
    simp only [noClash, List.all_eq_true, List.mem_range]
    constructor
    · intro h m hm0 hmk
      have ht : m.toNat < k.toNat := by omega
      have := h m.toNat ht
      simp only [Bool.and_eq_true, Bool.not_eq_true'] at this
      simp only [badAt, Bool.and_eq_false_iff]
      left
      have hmz : ((m.toNat : ℤ)) = m := by omega
      rw [hmz] at this
      simp only [Bool.or_eq_false_iff]
      refine ⟨⟨?_, this.1⟩, this.2⟩
      simp only [beq_eq_false_iff_ne, ne_eq]
      omega
    · intro h t ht
      have := h t (by omega) (by omega)
      simp only [badAt, Bool.and_eq_false_iff] at this
      rcases this with this | this
      · simp only [Bool.or_eq_false_iff] at this
        simp [this.1.2, this.2]
      · simp only [decide_eq_false_iff_not, not_le] at this
        omega
  rcases hA : accept pos k c with _ | _
  · rcases hN : noClash pos k c with _ | _
    · rfl
    · exfalso
      rw [accept] at hA
      rw [hs.2 (hn.1 hN)] at hA
      cases hA
  · rw [accept] at hA
    exact (hn.2 (hs.1 hA)).symm

/-- Removing the structurally dead `i==k` clause from the rejection test
changes nothing: the clause is always evaluated under `i <= k-1`. -/
theorem acceptNoRow_eq_accept (pos : List ℤ) (k c : ℤ) :
    acceptNoRow pos k c = accept pos k c := by
  have hb : ∀ m, badAtNoRow pos k c m = badAt pos k c m := by
    intro m
    simp only [badAt, badAtNoRow]
    by_cases hm : m ≤ k - 1
    · have : (m == k) = false := by simp only [beq_eq_false_iff_ne, ne_eq]; omega
      simp [this]
    · have : decide (m ≤ k - 1) = false := by simp; omega
      simp [this]
  have : badAtNoRow pos k c = badAt pos k c := funext hb
  rw [acceptNoRow, accept, this]

/-! ## Divergence lemmas

Three ways the enumerator fails to terminate in the model: the
initialisation loop when `max_level = 0` (its unsigned bound is `2^32-1`),
the back-tracking loop when every cell it can reach satisfies
`index[k] >= size-1` (the `size = 1` exhaustion runaway), and a two-state
cycle of the outer loop (reached when `start_level = max_level`, where the
cursor cell `index[max_level]` lies outside the allocation and the model
drops the write that would advance it). -/

theorem initLoop_zero_diverges (idx : List ℤ) (k : ℤ) (fuel : ℕ) :
    (initLoop 0 idx k fuel).2 = none := by
  induction fuel generalizing idx k with
  | zero => rfl
  | succ fuel ih =>
    rw [initLoop]
    have hc : k % U32 ≤ (0 - 1 : ℤ) % U32 := by
      have h1 : ((0 : ℤ) - 1) % U32 = U32 - 1 := by decide
      have h2 : k % U32 < U32 := Int.emod_lt_of_pos k (by decide)
      omega
    simp only [if_pos hc]
    exact ih _ _

theorem ascend_diverges {idx : List ℤ} {size : ℤ}
    (h : ∀ m : ℤ, readIdx idx m ≥ size - 1) (k : ℤ) (fuel : ℕ) :
    (ascend idx size k fuel).2 = none := by
  induction fuel generalizing k with
  | zero => rfl
  | succ fuel ih => rw [ascend]; simp only [if_pos (h k)]; exact ih _

/-- If the outer loop cycles between two live states, it never terminates
and never emits a solution. -/
theorem run_cycle (size maxL stop : ℤ) (s₁ s₂ : St)
    (hf₁ : s₁.flag = 0) (hf₂ : s₂.flag = 0)
    (h₁ : ∀ f : ℕ, (step size maxL stop s₁ (f + 1)).em = none ∧
      (step size maxL stop s₁ (f + 1)).next = some s₂)
    (h₂ : ∀ f : ℕ, (step size maxL stop s₂ (f + 1)).em = none ∧
      (step size maxL stop s₂ (f + 1)).next = some s₁) :
    ∀ fuel : ℕ, ((run size maxL stop s₁ fuel).em = [] ∧
        (run size maxL stop s₁ fuel).final = none) ∧
      ((run size maxL stop s₂ fuel).em = [] ∧
        (run size maxL stop s₂ fuel).final = none) := by
  intro fuel
  induction fuel with
  | zero => exact ⟨⟨rfl, rfl⟩, ⟨rfl, rfl⟩⟩
  | succ fuel ih =>
    constructor
    · rw [run]
      rw [if_neg (show ¬s₁.flag ≠ 0 by simp [hf₁])]
      obtain ⟨he, hn⟩ := h₁ fuel
      cases hs : step size maxL stop s₁ (fuel + 1) with
      | mk em tr pl next =>
        rw [hs] at he hn
        simp only at he hn
        subst he hn
        simpa using ih.2
    · rw [run]
      rw [if_neg (show ¬s₂.flag ≠ 0 by simp [hf₂])]
      obtain ⟨he, hn⟩ := h₂ fuel
      cases hs : step size maxL stop s₂ (fuel + 1) with
      | mk em tr pl next =>
        rw [hs] at he hn
        simp only at he hn
        subst he hn
        simpa using ih.1

/-! ## The worker's polling loop stops at the first observed termination
(claim C9) -/

theorem workerLoop_stops (termBuf : ℕ → ℤ) (work : ℕ → Option (List ℤ))
    (t₀ : ℕ) (h0 : ∀ u, u < t₀ → termBuf u = 1) (h1 : termBuf t₀ ≠ 1) :
    ∀ t fuel, t ≤ t₀ → t₀ < t + fuel →
      (workerLoop termBuf work t fuel).2 = some t₀ ∧
      ∀ x ∈ (workerLoop termBuf work t fuel).1, x.1 < t₀ := by
  intro t fuel
  induction fuel generalizing t with
  | zero => omega
  | succ fuel ih =>
    intro ht hfu
    rw [workerLoop]
    rcases eq_or_lt_of_le ht with rfl | ht'
    · simp [if_neg h1]
    · simp only [if_pos (h0 t ht')]
      cases hw : work t with
      | none =>
        simpa using ih (t + 1) (by omega) (by omega)
      | some p =>
        obtain ⟨ha, hb⟩ := ih (t + 1) (by omega) (by omega)
        refine ⟨ha, ?_⟩
        intro x hx
        simp only [List.mem_cons] at hx
        rcases hx with rfl | hx
        · exact ht'
        · exact hb x hx

/-! ## The master broadcasts before everything else (claim C7) -/

theorem receiveFrom_events {n k fuel : ℕ} {W : ℕ} {s s' : PState W} {w : Fin W}
    (h : receiveFrom n k fuel s w = some s') :
    ∃ t, s'.events = s.events ++ t := by
  unfold receiveFrom at h
  cases hm : workerMsg n k fuel (s.assigned w) (s.consumed w) with
  | none => rw [hm] at h; cases h
  | some m =>
    rw [hm] at h
    cases m with
    | init => cases h; exact ⟨_, rfl⟩
    | report batch =>
      by_cases hb : batch.isEmpty
      · simp only [if_pos hb] at h; cases h; exact ⟨_, rfl⟩
      · simp only [if_neg hb] at h; cases h; exact ⟨_, rfl⟩

theorem dispatchPhase_events {n k fuel : ℕ} {W : ℕ} :
    ∀ {ps : List (List ℤ)} {s s' : PState W} {sched sched' : List (Fin W)},
      dispatchPhase n k fuel ps s sched = some (s', sched') →
      ∃ t, s'.events = s.events ++ t := by
  intro ps
  induction ps with
  | nil => intro s s' sched sched' h; cases h; exact ⟨[], by simp⟩
  | cons p ps ih =>
    intro s s' sched sched' h
    cases sched with
    | nil => cases h
    | cons w sched0 =>
      rw [dispatchPhase] at h
      cases hr : receiveFrom n k fuel s w with
      | none => rw [hr] at h; cases h
      | some s1 =>
        rw [hr] at h
        obtain ⟨t1, ht1⟩ := receiveFrom_events hr
        obtain ⟨t2, ht2⟩ := ih h
        exact ⟨t1 ++ [.dispatch w p] ++ t2, by simp [ht2, ht1]⟩

theorem drainPhase_events {n k fuel : ℕ} {W : ℕ} :
    ∀ {fuel2 : ℕ} {s s' : PState W} {sched : List (Fin W)},
      drainPhase n k fuel s sched fuel2 = some s' →
      ∃ t, s'.events = s.events ++ t := by
  intro fuel2
  induction fuel2 with
  | zero =>
    intro s s' sched h
    rw [drainPhase] at h
    by_cases ha : s.active > 0
    · rw [if_pos ha] at h; cases h
    · rw [if_neg ha] at h; cases h; exact ⟨[], by simp⟩
  | succ fuel2 ih =>
    intro s s' sched h
    cases sched with
    | nil =>
      rw [drainPhase] at h
      by_cases ha : s.active > 0
      · rw [if_pos ha] at h; cases h
      · rw [if_neg ha] at h; cases h; exact ⟨[], by simp⟩
    | cons w sched0 =>
      rw [drainPhase] at h
      by_cases ha : s.active > 0
      · rw [if_pos ha] at h
        cases hr : receiveFrom n k fuel s w with
        | none => rw [hr] at h; cases h
        | some s1 =>
          rw [hr] at h
          obtain ⟨t1, ht1⟩ := receiveFrom_events hr
          obtain ⟨t2, ht2⟩ := ih h
          exact ⟨t1 ++ t2, by simp [ht2, ht1]⟩
      · rw [if_neg ha] at h; cases h; exact ⟨[], by simp⟩

/-- Whatever the parameters — valid or not — the first two things the
master does are the two broadcasts of `distribute_parameters(n, k)`:
there is no validation before them. -/
theorem masterEvents_start (n k W : ℕ) (sched : List (Fin W)) (fuel : ℕ) :
    (masterEvents n k W sched fuel).take 2 = [MEv.bcast n, MEv.bcast k] := by
  unfold masterEvents masterMain masterRun
  cases ho : (nqueensByLevel (zeros n) 0 k fuel).final with
  | none => rfl
  | some s =>
    simp only
    cases hd : dispatchPhase n k fuel (nqueensByLevel (zeros n) 0 k fuel).em
        (initPS n k W) sched with
    | none => rfl
    | some r =>
      obtain ⟨s1, sched'⟩ := r
      obtain ⟨t1, ht1⟩ := dispatchPhase_events hd
      have ht1' : s1.events = [MEv.bcast (n : ℤ), MEv.bcast (k : ℤ)] ++ t1 := ht1
      dsimp only
      cases hr : drainPhase n k fuel s1 sched' fuel with
      | none => simp [ht1']
      | some s2 =>
        obtain ⟨t2, ht2⟩ := drainPhase_events hr
        simp [ht2, ht1']

/-! ## The initialisation loop on the (all-zero) fresh allocation -/

theorem set_replicate_zero (n m : ℕ) :
    (List.replicate n (0 : ℤ)).set m 0 = List.replicate n 0 := by
  induction n generalizing m with
  | zero => simp
  | succ n ih =>
    cases m with
    | zero => simp [List.replicate_succ, List.set]
    | succ m => simp [List.replicate_succ, List.set, ih]

theorem writeIdx_replicate_zero (n : ℕ) (k : ℤ) :
    writeIdx (List.replicate n (0 : ℤ)) k 0 = List.replicate n 0 := by
  unfold writeIdx
  by_cases h : 0 ≤ k
  · rw [if_pos h, set_replicate_zero]
  · rw [if_neg h]

theorem initLoop_zeros {maxL : ℤ} (h1 : 1 ≤ maxL) (h2 : maxL < U32) (m : ℕ) :
    ∀ (k : ℤ) (fuel : ℕ), 0 ≤ k → k ≤ maxL → (maxL - k).toNat < fuel →
      (initLoop maxL (List.replicate m (0 : ℤ)) k fuel).2 = some (List.replicate m 0) ∧
      ∀ x ∈ (initLoop maxL (List.replicate m (0 : ℤ)) k fuel).1, k ≤ x ∧ x < maxL := by
  intro k fuel
  induction fuel generalizing k with
  | zero => omega
  | succ fuel ih =>
    intro hk0 hkm hf
    rw [initLoop]
    by_cases hk : k ≤ maxL - 1
    · have hc : k % U32 ≤ (maxL - 1) % U32 := by
        rw [Int.emod_eq_of_lt hk0 (by omega), Int.emod_eq_of_lt (by omega) (by omega)]
        exact hk
      rw [if_pos hc, writeIdx_replicate_zero]
      obtain ⟨ha, hb⟩ := ih (k + 1) (by omega) (by omega) (by omega)
      refine ⟨ha, ?_⟩
      intro x hx
      simp only [List.mem_cons] at hx
      rcases hx with rfl | hx
      · omega
      · have := hb x hx
        omega
    · have hc : ¬ k % U32 ≤ (maxL - 1) % U32 := by
        rw [Int.emod_eq_of_lt hk0 (by omega), Int.emod_eq_of_lt (by omega) (by omega)]
        omega
      rw [if_neg hc]
      exact ⟨rfl, by simp⟩

/-- With enough fuel for the initialisation, `nqueens_by_level` is the
outer loop run from the canonical initial state, plus the initialisation
writes (all inside `[start, maxL)`) at the front of the access trace. -/
theorem nqueensByLevel_eq_run (pos : List ℤ) (start maxL : ℤ) (fuel : ℕ)
    (h1 : 1 ≤ maxL) (h2 : maxL < U32) (h0 : 0 ≤ start) (hsm : start ≤ maxL)
    (hf : (maxL - start).toNat < fuel) :
    ∃ t : List ℤ, (∀ x ∈ t, start ≤ x ∧ x < maxL) ∧
      nqueensByLevel pos start maxL fuel =
        withInit t (run (pos.length : ℤ) maxL (start - 1)
            ⟨pos, List.replicate maxL.toNat 0, start, 0, readPos pos 0, 0⟩ fuel) := by
  obtain ⟨ha, hb⟩ := initLoop_zeros h1 h2 maxL.toNat start fuel h0 hsm hf
  refine ⟨(initLoop maxL (List.replicate maxL.toNat 0) start fuel).1, hb, ?_⟩
  unfold nqueensByLevel
  cases hI : initLoop maxL (List.replicate maxL.toNat 0) start fuel with
  | mk tr r =>
    rw [hI] at ha
    simp only at ha
    subst ha
    rfl

/-! ## Divergence of `nqueens(0)` and `nqueens(1)` -/

theorem nqueens_zero_diverges (fuel : ℕ) : (nqueens 0 fuel).final = none := by
  show (nqueensByLevel (zeros 0) 0 0 fuel).final = none
  unfold nqueensByLevel
  cases hI : initLoop 0 (List.replicate (0 : ℤ).toNat 0) 0 fuel with
  | mk tr r =>
    have := initLoop_zero_diverges (List.replicate (0 : ℤ).toNat 0) 0 fuel
    rw [hI] at this
    simp only at this
    subst this
    rfl

theorem getD_replicate_zero : ∀ (n i : ℕ), (List.replicate n (0 : ℤ)).getD i 0 = 0 := by
  intro n
  induction n with
  | zero => intro i; simp
  | succ n ih =>
    intro i
    cases i with
    | zero => simp [List.replicate_succ]
    | succ i => simpa [List.replicate_succ, List.getD] using ih i

theorem readIdx_replicate_zero (n : ℕ) (k : ℤ) :
    readIdx (List.replicate n 0) k = 0 := by
  unfold readIdx
  by_cases h : 0 ≤ k
  · rw [if_pos h]; exact getD_replicate_zero n k.toNat
  · rw [if_neg h]

/-- If one more outer-loop iteration exhausts the inner loop's fuel, the
run dies there. -/
theorem run_final_none_of_step {size maxL stop : ℤ} {s : St} {fuel : ℕ}
    (hs : s.flag = 0) (hn : (step size maxL stop s (fuel + 1)).next = none) :
    (run size maxL stop s (fuel + 1)).final = none := by
  rw [run, if_neg (by simp [hs])]
  cases hstep : step size maxL stop s (fuel + 1) with
  | mk em tr pl nx =>
    rw [hstep] at hn
    simp only at hn
    subst hn
    rfl

theorem run_one_diverges (g : ℕ) :
    (run 1 1 (-1) ⟨List.replicate 1 0, List.replicate 1 0, 0, 0, 0, 0⟩ (g + 1)).final = none := by
  apply run_final_none_of_step rfl
  have hasc : (ascend (List.replicate 1 (0 : ℤ)) 1 0 (g + 1)).2 = none :=
    ascend_diverges (fun m => by rw [readIdx_replicate_zero]; norm_num) 0 (g + 1)
  unfold step
  rw [if_neg (by decide), if_pos (by decide), if_pos (by decide)]
  cases hA : ascend (List.replicate 1 (0 : ℤ)) 1 0 (g + 1) with
  | mk atr ar =>
    rw [hA] at hasc
    simp only at hasc
    subst hasc
    rfl

theorem nqueens_one_diverges (fuel : ℕ) : (nqueens 1 fuel).final = none := by
  match fuel with
  | 0 => rfl
  | 1 => rfl
  | (f + 2) =>
    show (nqueensByLevel (zeros 1) 0 1 (f + 2)).final = none
    obtain ⟨t, _, he⟩ := nqueensByLevel_eq_run (zeros 1) 0 1 (f + 2)
      (by norm_num) (by decide) le_rfl (by norm_num) (by simp)
    rw [he]
    show (run ((zeros 1).length : ℤ) 1 (0 - 1)
        ⟨zeros 1, List.replicate (1 : ℤ).toNat 0, 0, 0, readPos (zeros 1) 0, 0⟩ (f + 2)).final = none
    exact run_one_diverges (f + 1)

/-! ## The `start_level == max_level` cycle (claims C5, C2) -/

/-- The two states of the outer-loop cycle entered by the worker call
`nqueens_by_level([1,3,0,2], 4, 4, …)`: the cursor cell `index[4]` lies
outside the allocation, so (the model dropping the out-of-range write that
would advance it) the scan at `i = 1` rejects forever. -/
def c5s0 : St := ⟨[1, 3, 0, 2], [0, 0, 0, 0], 4, 0, 1, 0⟩

def c5s1 : St := ⟨[1, 3, 0, 2], [0, 0, 0, 0], 4, 1, 3, 0⟩

theorem c5_run_diverges (fuel : ℕ) :
    (run 4 4 3 c5s0 fuel).em = [] ∧ (run 4 4 3 c5s0 fuel).final = none :=
  (run_cycle 4 4 3 c5s0 c5s1 rfl rfl
    (fun _ => ⟨rfl, rfl⟩) (fun _ => ⟨rfl, rfl⟩) fuel).1

/-! ## List cell surgery -/

theorem getD_set_ne (v : ℤ) : ∀ (l : List ℤ) (i j : ℕ), i ≠ j →
    (l.set i v).getD j 0 = l.getD j 0 := by
  intro l
  induction l with
  | nil => intro i j _; simp
  | cons a l ih =>
    intro i j hij
    cases i with
    | zero =>
      cases j with
      | zero => omega
      | succ j => simp [List.set, List.getD]
    | succ i =>
      cases j with
      | zero => simp [List.set, List.getD]
      | succ j => simpa [List.set, List.getD] using ih i j (by omega)

theorem getD_set_self (v : ℤ) : ∀ (l : List ℤ) (i : ℕ), i < l.length →
    (l.set i v).getD i 0 = v := by
  intro l
  induction l with
  | nil => intro i h; simp at h
  | cons a l ih =>
    intro i h
    cases i with
    | zero => simp [List.set, List.getD]
    | succ i => simpa [List.set, List.getD] using ih i (by simpa using h)

theorem readIdx_writeIdx_ne {idx : List ℤ} {r m v : ℤ} (h : r ≠ m) :
    readIdx (writeIdx idx r v) m = readIdx idx m := by
  unfold readIdx writeIdx
  by_cases hm : 0 ≤ m
  · by_cases hr : 0 ≤ r
    · rw [if_pos hr, if_pos hm, if_pos hm, getD_set_ne _ _ _ _ (by omega)]
    · rw [if_neg hr]
  · by_cases hr : 0 ≤ r
    · rw [if_pos hr, if_neg hm, if_neg hm]
    · rw [if_neg hr]

theorem readIdx_writeIdx_self {idx : List ℤ} {r v : ℤ} (h0 : 0 ≤ r)
    (hl : r < (idx.length : ℤ)) : readIdx (writeIdx idx r v) r = v := by
  unfold readIdx writeIdx
  rw [if_pos h0, if_pos h0, getD_set_self _ _ _ (by omega)]

theorem writeIdx_length (idx : List ℤ) (r v : ℤ) :
    (writeIdx idx r v).length = idx.length := by
  unfold writeIdx
  by_cases h : 0 ≤ r
  · rw [if_pos h]; exact idx.length_set r.toNat v
  · rw [if_neg h]

theorem readPos_writePos_ne {pos : List ℤ} {r m v : ℤ} (h : r ≠ m) :
    readPos (writePos pos r v) m = readPos pos m := readIdx_writeIdx_ne h

theorem readPos_writePos_self {pos : List ℤ} {r v : ℤ} (h0 : 0 ≤ r)
    (hl : r < (pos.length : ℤ)) : readPos (writePos pos r v) r = v :=
  readIdx_writeIdx_self h0 hl

theorem writePos_length (pos : List ℤ) (r v : ℤ) :
    (writePos pos r v).length = pos.length := writeIdx_length pos r v

/-! ## Big-step semantics: `RunsTo`, `StepsTo` -/

/-- `run` from `s` stabilises on the outcome `o` once the fuel suffices. -/
def RunsTo (size maxL stop : ℤ) (s : St) (o : Out) : Prop :=
  ∃ F : ℕ, ∀ f, F ≤ f → run size maxL stop s f = o

/-- `step` at `s` stabilises on `so` once the inner fuel suffices. -/
def StepsTo (size maxL stop : ℤ) (s : St) (so : StepOut) : Prop :=
  ∃ F : ℕ, ∀ f, F ≤ f → step size maxL stop s f = so

/-- The contribution of one step to a run outcome. -/
def StepOut.cons (so : StepOut) (o : Out) : Out :=
  ⟨so.em.toList ++ o.em, so.tr ++ o.tr, so.pl.toList ++ o.pl, o.final⟩

theorem runsTo_halt {size maxL stop : ℤ} {s : St} (h : s.flag ≠ 0) :
    RunsTo size maxL stop s ⟨[], [], [], some s⟩ := by
  refine ⟨1, fun f hf => ?_⟩
  obtain ⟨f', rfl⟩ : ∃ f', f = f' + 1 := ⟨f - 1, by omega⟩
  rw [run, if_pos h]

theorem runsTo_cons {size maxL stop : ℤ} {s s' : St} {so : StepOut} {o : Out}
    (hflag : s.flag = 0) (hst : StepsTo size maxL stop s so)
    (hnx : so.next = some s') (hr : RunsTo size maxL stop s' o) :
    RunsTo size maxL stop s (so.cons o) := by
  obtain ⟨F₁, h₁⟩ := hst
  obtain ⟨F₂, h₂⟩ := hr
  refine ⟨F₁ + F₂ + 1, fun f hf => ?_⟩
  obtain ⟨f', rfl⟩ : ∃ f', f = f' + 1 := ⟨f - 1, by omega⟩
  rw [run, if_neg (by simp [hflag])]
  rw [h₁ (f' + 1) (by omega)]
  cases so with
  | mk em tr pl nx =>
    simp only at hnx
    subst hnx
    dsimp only
    rw [h₂ f' (by omega)]
    rfl

/-- The machine from `s` eventually terminates with emission list `E`. -/
def Emits (size maxL stop : ℤ) (s : St) (E : List (List ℤ)) : Prop :=
  ∃ o : Out, RunsTo size maxL stop s o ∧ o.em = E ∧ o.final.isSome = true

theorem emits_halt {size maxL stop : ℤ} {s : St} (h : s.flag ≠ 0) :
    Emits size maxL stop s [] :=
  ⟨⟨[], [], [], some s⟩, runsTo_halt h, rfl, rfl⟩

theorem emits_cons {size maxL stop : ℤ} {s s' : St} {so : StepOut}
    {E : List (List ℤ)}
    (hflag : s.flag = 0) (hst : StepsTo size maxL stop s so)
    (hnx : so.next = some s') (hr : Emits size maxL stop s' E) :
    Emits size maxL stop s (so.em.toList ++ E) := by
  obtain ⟨o, ho, hoe, hof⟩ := hr
  exact ⟨so.cons o, runsTo_cons hflag hst hnx ho, by simp [StepOut.cons, hoe],
    by simpa [StepOut.cons] using hof⟩

/-! ## Characterisation of the back-tracking loop -/

theorem ascend_result {idx : List ℤ} {size : ℤ} :
    ∀ {fuel : ℕ} {k r₀ : ℤ} {tr : List ℤ},
      ascend idx size k fuel = (tr, some r₀) →
      r₀ ≤ k ∧ readIdx idx r₀ < size - 1 ∧
        ∀ r, r₀ < r → r ≤ k → readIdx idx r ≥ size - 1 := by
  intro fuel
  induction fuel with
  | zero => intro k r₀ tr h; simp [ascend] at h
  | succ fuel ih =>
    intro k r₀ tr h
    rw [ascend] at h
    by_cases hc : readIdx idx k ≥ size - 1
    · rw [if_pos hc] at h
      simp only [Prod.mk.injEq] at h
      obtain ⟨-, h2⟩ := h
      cases hA : ascend idx size (k - 1) fuel with
      | mk a b =>
        rw [hA] at h2
        simp only at h2
        subst h2
        obtain ⟨ha, hb, hc'⟩ := ih hA
        refine ⟨by omega, hb, ?_⟩
        intro r hr1 hr2
        rcases eq_or_lt_of_le hr2 with rfl | hr3
        · exact hc
        · exact hc' r hr1 (by omega)
    · rw [if_neg hc] at h
      simp only [Prod.mk.injEq] at h
      obtain ⟨-, h2⟩ := h
      cases h2
      exact ⟨le_rfl, by omega, fun r h1 h2 => by omega⟩

theorem ascend_finds {idx : List ℤ} {size : ℤ} {r₀ : ℤ}
    (h₀ : readIdx idx r₀ < size - 1) :
    ∀ (p : ℕ) (k : ℤ), (k - r₀).toNat = p → r₀ ≤ k →
      (∀ r, r₀ < r → r ≤ k → readIdx idx r ≥ size - 1) →
      ∃ tr, ∀ f, p < f → ascend idx size k f = (tr, some r₀) := by
  intro p
  induction p with
  | zero =>
    intro k hp hk _
    have : k = r₀ := by omega
    subst this
    refine ⟨[k], fun f hf => ?_⟩
    obtain ⟨f', rfl⟩ : ∃ f', f = f' + 1 := ⟨f - 1, by omega⟩
    rw [ascend, if_neg (by omega)]
  | succ p ih =>
    intro k hp hk hab
    obtain ⟨tr, htr⟩ := ih (k - 1) (by omega) (by omega)
      (fun r h1 h2 => hab r h1 (by omega))
    refine ⟨k :: tr, fun f hf => ?_⟩
    obtain ⟨f', rfl⟩ : ∃ f', f = f' + 1 := ⟨f - 1, by omega⟩
    rw [ascend, if_pos (hab k (by omega) le_rfl)]
    rw [htr f' (by omega)]

theorem startEqMax_diverges (fuel : ℕ) :
    (nqueensByLevel [1, 3, 0, 2] 4 4 fuel).em = [] ∧
    (nqueensByLevel [1, 3, 0, 2] 4 4 fuel).final = none := by
  match fuel with
  | 0 => exact ⟨rfl, rfl⟩
  | (f + 1) =>
    show ((nqueensByLevel [1, 3, 0, 2] 4 4 (f + 1)).em = [] ∧ _)
    unfold nqueensByLevel
    rw [show initLoop 4 (List.replicate (4 : ℤ).toNat 0) 4 (f + 1) =
        ([], some (List.replicate (4 : ℤ).toNat 0)) from by rw [initLoop]; rfl]
    simp only
    have h := c5_run_diverges (f + 1)
    exact ⟨h.1, h.2⟩

/-! ## Structure of the search frontier -/

theorem intsFrom_succ (c : ℤ) (m : ℕ) :
    intsFrom c (m + 1) = c :: intsFrom (c + 1) m := by
  unfold intsFrom
  rw [List.range_succ_eq_map]
  simp only [List.map_cons, List.map_map]
  congr 1
  · simp
  · apply List.map_congr_left
    intro t _
    simp only [Function.comp_apply]
    push_cast
    ring

theorem dfsAux_eq_rowTail {size maxL : ℤ} {pos : List ℤ} {k : ℤ}
    (h : k ≤ maxL - 1) :
    dfsAux size maxL (maxL - k).toNat pos k = rowTail size maxL pos k 0 := by
  have h2 : (maxL - k).toNat = (maxL - 1 - k).toNat + 1 := by omega
  rw [h2, dfsAux]
  unfold rowTail subtree
  rw [show size - 0 = size from by ring]

theorem rowTail_cons {size maxL : ℤ} {pos : List ℤ} {r c : ℤ} (h : c < size) :
    rowTail size maxL pos r c =
      subtree size maxL pos r c ++ rowTail size maxL pos r (c + 1) := by
  unfold rowTail
  have h2 : (size - c).toNat = (size - (c + 1)).toNat + 1 := by omega
  rw [h2, intsFrom_succ, List.flatMap_cons]

theorem rowTail_empty {size maxL : ℤ} {pos : List ℤ} {r c : ℤ} (h : size ≤ c) :
    rowTail size maxL pos r c = [] := by
  unfold rowTail
  have h2 : (size - c).toNat = 0 := by omega
  rw [h2]
  rfl

theorem noClash_congr {pos pos' : List ℤ} {k c : ℤ}
    (hag : ∀ m, 0 ≤ m → m < k → readPos pos m = readPos pos' m) :
    noClash pos k c = noClash pos' k c := by
  apply Bool.eq_iff_iff.mpr
  simp only [noClash, List.all_eq_true, List.mem_range]
  constructor
  · intro h t ht
    have := h t ht
    rwa [hag t (by omega) (by omega)] at this
  · intro h t ht
    have := h t ht
    rwa [← hag t (by omega) (by omega)] at this

theorem dfsAux_congr {size maxL : ℤ} : ∀ (d : ℕ) (pos pos' : List ℤ) (k : ℤ),
    0 ≤ k → k + (d : ℤ) = maxL → maxL ≤ (pos.length : ℤ) →
    pos.length = pos'.length →
    (∀ m, 0 ≤ m → m < k → readPos pos m = readPos pos' m) →
    dfsAux size maxL d pos k = dfsAux size maxL d pos' k := by
  intro d
  induction d with
  | zero =>
    intro pos pos' k hk hd hml hlen hag
    unfold dfsAux emitSol
    have hmap : List.map (fun t => pos.getD t 0) (List.range maxL.toNat) =
        List.map (fun t => pos'.getD t 0) (List.range maxL.toNat) := by
      apply List.map_congr_left
      intro t ht
      simp only [List.mem_range] at ht
      have h1 := hag t (by omega) (by omega)
      unfold readPos at h1
      rw [if_pos (by omega)] at h1
      simpa using h1
    rw [hmap]
  | succ d ih =>
    intro pos pos' k hk hd hml hlen hag
    unfold dfsAux
    congr 1
    funext c
    rw [noClash_congr hag]
    by_cases hnc : noClash pos' k c
    · rw [if_pos hnc, if_pos hnc]
      apply ih
      · omega
      · push_cast at hd ⊢; omega
      · rwa [writePos_length]
      · rw [writePos_length, writePos_length]; exact hlen
      · intro m hm0 hmk
        rcases eq_or_lt_of_le (show m ≤ k by omega) with rfl | hmk'
        · rw [readPos_writePos_self hk (by omega), readPos_writePos_self hk (by omega)]
        · rw [readPos_writePos_ne (by omega), readPos_writePos_ne (by omega)]
          exact hag m hm0 (by omega)
    · rw [if_neg hnc, if_neg hnc]

theorem subtree_congr {size maxL : ℤ} {pos pos' : List ℤ} {r c : ℤ}
    (hr0 : 0 ≤ r) (hr : r ≤ maxL - 1) (hml : maxL ≤ (pos.length : ℤ))
    (hlen : pos.length = pos'.length)
    (hag : ∀ m, 0 ≤ m → m < r → readPos pos m = readPos pos' m) :
    subtree size maxL pos r c = subtree size maxL pos' r c := by
  unfold subtree
  rw [noClash_congr hag]
  by_cases hnc : noClash pos' r c
  · rw [if_pos hnc, if_pos hnc]
    apply dfsAux_congr
    · omega
    · push_cast; omega
    · rwa [writePos_length]
    · rw [writePos_length, writePos_length]; exact hlen
    · intro m hm0 hmr
      rcases eq_or_lt_of_le (show m ≤ r by omega) with rfl | hmr'
      · rw [readPos_writePos_self hr0 (by omega), readPos_writePos_self hr0 (by omega)]
      · rw [readPos_writePos_ne (by omega), readPos_writePos_ne (by omega)]
        exact hag m hm0 (by omega)
  · rw [if_neg hnc, if_neg hnc]

theorem rowTail_congr {size maxL : ℤ} {pos pos' : List ℤ} {r c : ℤ}
    (hr0 : 0 ≤ r) (hr : r ≤ maxL - 1) (hml : maxL ≤ (pos.length : ℤ))
    (hlen : pos.length = pos'.length)
    (hag : ∀ m, 0 ≤ m → m < r → readPos pos m = readPos pos' m) :
    rowTail size maxL pos r c = rowTail size maxL pos' r c := by
  unfold rowTail
  congr 1
  funext c'
  exact subtree_congr hr0 hr hml hlen hag

theorem below_congr {size maxL : ℤ} {pos pos' idx idx' : List ℤ} :
    ∀ (u : ℕ) (r : ℤ),
    0 ≤ r - (u : ℤ) + 1 → r ≤ maxL - 1 → maxL ≤ (pos.length : ℤ) →
    pos.length = pos'.length →
    (∀ m, 0 ≤ m → m < r → readPos pos m = readPos pos' m) →
    (∀ q, r - (u : ℤ) < q → q ≤ r → readIdx idx q = readIdx idx' q) →
    below size maxL pos idx u r = below size maxL pos' idx' u r := by
  intro u
  induction u with
  | zero => intro r _ _ _ _ _ _; rfl
  | succ u ih =>
    intro r h0 hr hml hlen hag hidx
    unfold below
    rw [hidx r (by push_cast; omega) le_rfl]
    rw [rowTail_congr (by push_cast at h0 ⊢; omega) hr hml hlen hag]
    rw [ih (r - 1) (by push_cast at h0 ⊢; omega) (by omega) hml hlen
      (fun m hm0 hmr => hag m hm0 (by omega))
      (fun q hq1 hq2 => hidx q (by push_cast at hq1 ⊢; omega) (by omega))]

theorem below_pop_one {size maxL : ℤ} {pos idx : List ℤ} {u : ℕ} {r : ℤ}
    (h : readIdx idx r = size - 1) :
    below size maxL pos idx (u + 1) r = below size maxL pos idx u (r - 1) := by
  conv_lhs => rw [below]
  rw [h, rowTail_empty (by omega)]
  simp

theorem below_pop {size maxL : ℤ} {pos idx : List ℤ} :
    ∀ (p u : ℕ) (r : ℤ), p ≤ u →
    (∀ q, r - (p : ℤ) < q → q ≤ r → readIdx idx q = size - 1) →
    below size maxL pos idx u r = below size maxL pos idx (u - p) (r - p) := by
  intro p
  induction p with
  | zero => intro u r _ _; norm_num
  | succ p ih =>
    intro u r hpu hq
    obtain ⟨u', rfl⟩ : ∃ u', u = u' + 1 := ⟨u - 1, by omega⟩
    rw [below_pop_one (hq r (by push_cast; omega) le_rfl)]
    rw [ih u' (r - 1) (by omega) (fun q h1 h2 => hq q (by push_cast at h1 ⊢; omega) (by omega))]
    congr 1
    · omega
    · push_cast; ring

/-! ## The termination measure

Each unprocessed candidate cell at row `r` is charged the weight
`bw (maxL-1-r)`, an upper bound for the number of cells in its subtree:
processing any cell strictly decreases the total charge. -/

def bw (size : ℤ) : ℕ → ℕ
  | 0 => 1
  | d + 1 => 1 + size.toNat * bw size d

theorem bw_pos (size : ℤ) : ∀ d, 0 < bw size d
  | 0 => Nat.one_pos
  | d + 1 => by unfold bw; omega

/-- Total charge of the rows `r, r-1, …, r-u+1` strictly after their
cursors. -/
def mu (size maxL : ℤ) (idx : List ℤ) : ℕ → ℤ → ℕ
  | 0, _ => 0
  | u + 1, r =>
    (size - 1 - readIdx idx r).toNat * bw size (maxL - 1 - r).toNat +
      mu size maxL idx u (r - 1)

/-- Total charge of a loop-top state at row `k` (the current candidate
included). -/
def muTot (size maxL start : ℤ) (idx : List ℤ) (k : ℤ) : ℕ :=
  (size - readIdx idx k).toNat * bw size (maxL - 1 - k).toNat +
    mu size maxL idx (k - start).toNat (k - 1)

theorem mu_congr {size maxL : ℤ} {idx idx' : List ℤ} :
    ∀ (u : ℕ) (r : ℤ),
    (∀ q, r - (u : ℤ) < q → q ≤ r → readIdx idx q = readIdx idx' q) →
    mu size maxL idx u r = mu size maxL idx' u r := by
  intro u
  induction u with
  | zero => intro r _; rfl
  | succ u ih =>
    intro r h
    unfold mu
    rw [h r (by push_cast; omega) le_rfl,
      ih (r - 1) (fun q h1 h2 => h q (by push_cast at h1 ⊢; omega) (by omega))]

theorem mu_pop {size maxL : ℤ} {idx : List ℤ} :
    ∀ (p u : ℕ) (r : ℤ), p ≤ u →
    (∀ q, r - (p : ℤ) < q → q ≤ r → readIdx idx q = size - 1) →
    mu size maxL idx u r = mu size maxL idx (u - p) (r - p) := by
  intro p
  induction p with
  | zero => intro u r _ _; norm_num
  | succ p ih =>
    intro u r hpu hq
    obtain ⟨u', rfl⟩ : ∃ u', u = u' + 1 := ⟨u - 1, by omega⟩
    conv_lhs => rw [mu]
    rw [hq r (by push_cast; omega) le_rfl]
    rw [show (size - 1 - (size - 1)).toNat = 0 from by omega]
    rw [ih u' (r - 1) (by omega)
      (fun q h1 h2 => hq q (by push_cast at h1 ⊢; omega) (by omega))]
    rw [show r - (((p + 1 : ℕ) : ℤ)) = r - 1 - (p : ℤ) from by push_cast; ring]
    rw [show u' + 1 - (p + 1) = u' - p from by omega]
    simp

/-- Descending to a fresh row consumes exactly one unit of charge. -/
theorem mu_descend {size maxL start : ℤ} {idx : List ℤ} {k : ℤ}
    (h0s : 0 ≤ start) (hsk : start ≤ k) (hkm : k ≤ maxL - 2)
    (hlen : k + 1 < (idx.length : ℤ))
    (hc0 : 0 ≤ readIdx idx k) (hcs : readIdx idx k ≤ size - 1) :
    muTot size maxL start (writeIdx idx (k + 1) 0) (k + 1) + 1 =
      muTot size maxL start idx k := by
  unfold muTot
  have hnew : readIdx (writeIdx idx (k + 1) 0) (k + 1) = 0 :=
    readIdx_writeIdx_self (by omega) hlen
  have hkeep : readIdx (writeIdx idx (k + 1) 0) k = readIdx idx k :=
    readIdx_writeIdx_ne (by omega)
  have hu : (k + 1 - start).toNat = (k - start).toNat + 1 := by omega
  rw [hnew, hu, show k + 1 - 1 = k from by ring]
  conv_lhs => rw [mu]
  rw [hkeep]
  rw [mu_congr (k - start).toNat (k - 1)
    (fun q h1 h2 => readIdx_writeIdx_ne (show k + 1 ≠ q from by omega))]
  have hD : (maxL - 1 - k).toNat = (maxL - 1 - (k + 1)).toNat + 1 := by omega
  have ha : (size - readIdx idx k).toNat = (size - 1 - readIdx idx k).toNat + 1 := by
    omega
  have hb : (size - 0).toNat = size.toNat := by omega
  rw [hD, ha, hb]
  rw [show bw size ((maxL - 1 - (k + 1)).toNat + 1) =
    1 + size.toNat * bw size (maxL - 1 - (k + 1)).toNat from rfl]
  ring

/-- Backtracking to the stop row and advancing its cursor strictly
decreases the charge. -/
theorem mu_backtrack {size maxL start : ℤ} {idx : List ℤ} {k r₀ : ℤ}
    (h0s : 0 ≤ start) (hsk : start ≤ k)
    (hr1 : start ≤ r₀) (hr2 : r₀ ≤ k)
    (hlen : r₀ < (idx.length : ℤ))
    (hstop : readIdx idx r₀ < size - 1)
    (hstop0 : 0 ≤ readIdx idx r₀)
    (hab : ∀ r, r₀ < r → r ≤ k → readIdx idx r = size - 1)
    (hc0 : 0 ≤ readIdx idx k) (hcs : readIdx idx k ≤ size - 1) :
    muTot size maxL start (writeIdx idx r₀ (readIdx idx r₀ + 1)) r₀ <
      muTot size maxL start idx k := by
  unfold muTot
  have hnew : readIdx (writeIdx idx r₀ (readIdx idx r₀ + 1)) r₀ =
      readIdx idx r₀ + 1 := readIdx_writeIdx_self (by omega) hlen
  rw [hnew]
  rw [mu_congr (r₀ - start).toNat (r₀ - 1)
    (fun q h1 h2 => readIdx_writeIdx_ne (show r₀ ≠ q from by omega))]
  have hhead : 1 ≤ (size - readIdx idx k).toNat * bw size (maxL - 1 - k).toNat :=
    Nat.one_le_iff_ne_zero.mpr (Nat.mul_ne_zero (by omega)
      (Nat.pos_iff_ne_zero.mp (bw_pos size _)))
  rcases eq_or_lt_of_le hr2 with rfl | hr2'
  · exact Nat.add_lt_add_right
      ((Nat.mul_lt_mul_right (bw_pos size _)).mpr (by omega)) _
  · have hck : readIdx idx k = size - 1 := hab k hr2' le_rfl
    rw [mu_pop (k - 1 - r₀).toNat (k - start).toNat (k - 1) (by omega)
      (fun q h1 h2 => hab q (by omega) (by omega))]
    rw [show (k - start).toNat - (k - 1 - r₀).toNat = (r₀ - start).toNat + 1 from by
      omega]
    rw [show k - 1 - (((k - 1 - r₀).toNat : ℕ) : ℤ) = r₀ from by omega]
    conv_rhs => rw [mu]
    rw [show (size - (readIdx idx r₀ + 1)).toNat =
      (size - 1 - readIdx idx r₀).toNat from by omega]
    omega

/-! ## The scan and the three resolutions of a candidate -/

/-- The outer-loop state scanning row `i` against the candidate at row `k`
(the code maintains `j = pos[i]` and `flag = 0` throughout the scan). -/
def sP (pos idx : List ℤ) (k i : ℤ) : St := ⟨pos, idx, k, i, readPos pos i, 0⟩

theorem badCond_sP (pos idx : List ℤ) (k i : ℤ) :
    badCond (sP pos idx k i) = badAt pos k (readIdx idx k) i := rfl

/-- `noClash` is exactly "the rejection test never fires". -/
theorem noClash_true_iff (pos : List ℤ) (k c : ℤ) :
    noClash pos k c = true ↔
      ∀ m : ℤ, 0 ≤ m → m ≤ k - 1 → badAt pos k c m = false := by
  simp only [noClash, List.all_eq_true, List.mem_range]
  constructor
  · intro h m hm0 hmk
    have ht : m.toNat < k.toNat := by omega
    have := h m.toNat ht
    simp only [Bool.and_eq_true, Bool.not_eq_true'] at this
    simp only [badAt, Bool.and_eq_false_iff]
    left
    have hmz : ((m.toNat : ℤ)) = m := by omega
    rw [hmz] at this
    simp only [Bool.or_eq_false_iff]
    refine ⟨⟨?_, this.1⟩, this.2⟩
    simp only [beq_eq_false_iff_ne, ne_eq]
    omega
  · intro h t ht
    have := h t (by omega) (by omega)
    simp only [badAt, Bool.and_eq_false_iff] at this
    rcases this with this | this
    · simp only [Bool.or_eq_false_iff] at this
      simp [this.1.2, this.2]
    · simp only [decide_eq_false_iff_not, not_le] at this
      omega

theorem badAt_true_le {pos : List ℤ} {k c m : ℤ} (h : badAt pos k c m = true) :
    m ≤ k - 1 := by
  by_contra hm
  rw [badAt_large (by omega)] at h
  cases h

/-- Scanning forward: while the test stays quiet and the scan is not yet
at `k-1`, the machine just advances `i`. -/
theorem emits_scan {size maxL stop : ℤ} {pos idx : List ℤ} {k : ℤ}
    {E : List (List ℤ)} :
    ∀ (d : ℕ) (i i' : ℤ), 0 ≤ i → (i' - i).toNat = d → i ≤ i' →
    (∀ m, i ≤ m → m < i' → badAt pos k (readIdx idx k) m = false ∧ m < k - 1) →
    Emits size maxL stop (sP pos idx k i') E →
    Emits size maxL stop (sP pos idx k i) E := by
  intro d
  induction d with
  | zero =>
    intro i i' h0 hd hle _ hE
    have : i = i' := by omega
    subst this
    exact hE
  | succ d ih =>
    intro i i' h0 hd hle hcl hE
    have hi : i < i' := by omega
    obtain ⟨hbad, hik⟩ := hcl i le_rfl hi
    have hstep : StepsTo size maxL stop (sP pos idx k i)
        ⟨none, badCondTrace (sP pos idx k i), none, some (sP pos idx k (i + 1))⟩ := by
      refine ⟨0, fun f _ => ?_⟩
      unfold step
      rw [if_neg (by rw [badCond_sP, hbad]; simp)]
      rw [if_neg (by show ¬ i ≥ k - 1; omega)]
      rfl
    have := emits_cons rfl hstep rfl
      (ih (i + 1) i' (by omega) (by omega) (by omega)
        (fun m hm1 hm2 => hcl m (by omega) hm2) hE)
    simpa using this

/-- Resolution when the candidate is accepted and `k` is not the last row:
place the queen and descend. -/
theorem stepsTo_descend {size maxL stop : ℤ} {pos idx : List ℤ} {k m : ℤ}
    (hbad : badAt pos k (readIdx idx k) m = false) (hm : m ≥ k - 1)
    (hk : ¬ k = maxL - 1) :
    StepsTo size maxL stop (sP pos idx k m)
      ⟨none, badCondTrace (sP pos idx k m) ++ [k, k + 1], some k,
        some (sP (writePos pos k (readIdx idx k)) (writeIdx idx (k + 1) 0) (k + 1) 0)⟩ := by
  refine ⟨0, fun f _ => ?_⟩
  unfold step
  rw [if_neg (by rw [badCond_sP, hbad]; simp)]
  rw [if_pos (show (sP pos idx k m).i ≥ (sP pos idx k m).k - 1 from hm)]
  rw [if_neg (show ¬ (sP pos idx k m).k = maxL - 1 from hk)]
  rfl

/-- Resolution when the candidate is accepted at the last row: report the
solution, then run the back-tracking sequence. -/
theorem stepsTo_emit {size maxL stop : ℤ} {pos idx : List ℤ} {k m r₀ : ℤ}
    {p : ℕ} {atr : List ℤ}
    (hbad : badAt pos k (readIdx idx k) m = false) (hm : m ≥ k - 1)
    (hk : k = maxL - 1)
    (hA : ∀ f, p < f → ascend idx size k f = (atr, some r₀)) :
    StepsTo size maxL stop (sP pos idx k m)
      (afterAscend stop (writePos pos k (readIdx idx k)) idx
        (some (emitSol (writePos pos k (readIdx idx k)) maxL)) (some k)
        (badCondTrace (sP pos idx k m) ++ [k]) (atr, some r₀)) := by
  refine ⟨p + 1, fun f hf => ?_⟩
  unfold step
  rw [if_neg (by rw [badCond_sP, hbad]; simp)]
  rw [if_pos (show (sP pos idx k m).i ≥ (sP pos idx k m).k - 1 from hm)]
  rw [if_pos (show (sP pos idx k m).k = maxL - 1 from hk)]
  rw [show ascend (sP pos idx k m).idx size (sP pos idx k m).k f = (atr, some r₀)
    from hA f (by omega)]
  rfl

/-- Resolution when the test fires: back-track at once. -/
theorem stepsTo_reject {size maxL stop : ℤ} {pos idx : List ℤ} {k m r₀ : ℤ}
    {p : ℕ} {atr : List ℤ}
    (hbad : badAt pos k (readIdx idx k) m = true)
    (hA : ∀ f, p < f → ascend idx size k f = (atr, some r₀)) :
    StepsTo size maxL stop (sP pos idx k m)
      (afterAscend stop pos idx none none
        (badCondTrace (sP pos idx k m)) (atr, some r₀)) := by
  refine ⟨p + 1, fun f hf => ?_⟩
  unfold step
  rw [if_pos (by rw [badCond_sP]; exact hbad)]
  rw [show ascend (sP pos idx k m).idx size (sP pos idx k m).k f = (atr, some r₀)
    from hA f (by omega)]
  rfl

theorem afterAscend_cont {stop : ℤ} {pos idx : List ℤ}
    {em : Option (List ℤ)} {pl : Option ℤ} {tr0 atr : List ℤ} {r₀ : ℤ}
    (h : ¬ r₀ ≤ stop) :
    afterAscend stop pos idx em pl tr0 (atr, some r₀) =
      ⟨em, tr0 ++ atr ++ [r₀], pl,
        some (sP pos (writeIdx idx r₀ (readIdx idx r₀ + 1)) r₀ 0)⟩ := by
  unfold afterAscend
  dsimp only
  rw [if_neg h]
  rw [if_pos (show (0 : ℤ) ≠ 1 from by decide)]
  rfl

theorem afterAscend_halt {stop : ℤ} {pos idx : List ℤ}
    {em : Option (List ℤ)} {pl : Option ℤ} {tr0 atr : List ℤ} {r₀ : ℤ}
    (h : r₀ ≤ stop) :
    afterAscend stop pos idx em pl tr0 (atr, some r₀) =
      ⟨em, tr0 ++ atr, pl, some ⟨pos, idx, r₀, 0, readPos pos 0, 1⟩⟩ := by
  unfold afterAscend
  dsimp only
  rw [if_pos h]
  rw [if_neg (show ¬ (1 : ℤ) ≠ 1 from by decide)]

/-- The row the back-tracking loop stops at: the topmost row at or below
`k` whose cursor has not reached `size-1` (row `start-1` always qualifies,
its cell never having been written). -/
theorem exists_stop {size start : ℤ} {idx : List ℤ} {k : ℤ}
    (h2s : 2 ≤ size) (hsk : start - 1 ≤ k)
    (hlow : ∀ r, r < start → readIdx idx r = 0) :
    ∃ r₀, start - 1 ≤ r₀ ∧ r₀ ≤ k ∧ readIdx idx r₀ < size - 1 ∧
      ∀ r, r₀ < r → r ≤ k → readIdx idx r ≥ size - 1 := by
  classical
  set P : ℕ → Prop := fun t => readIdx idx (start - 1 + (t : ℤ)) < size - 1 with hP
  have hP0 : P 0 := by
    simp only [hP]
    rw [show start - 1 + ((0 : ℕ) : ℤ) = start - 1 from by push_cast; ring]
    rw [hlow (start - 1) (by omega)]
    omega
  set n : ℕ := (k - (start - 1)).toNat with hn
  refine ⟨start - 1 + (Nat.findGreatest P n : ℤ), by omega, ?_, ?_, ?_⟩
  · have := Nat.findGreatest_le (P := P) n
    omega
  · exact Nat.findGreatest_spec (Nat.zero_le n) hP0
  · intro r hr1 hr2
    have hrt : (r - (start - 1)).toNat ≤ n := by omega
    have hgt : Nat.findGreatest P n < (r - (start - 1)).toNat := by omega
    have := Nat.findGreatest_is_greatest hgt hrt
    simp only [hP] at this
    rw [show start - 1 + (((r - (start - 1)).toNat : ℕ) : ℤ) = r from by omega] at this
    omega

/-! ## How the frontier moves -/

/-- Descending after an accepted candidate leaves the frontier unchanged:
the candidate's subtree unfolds into the fresh row. -/
theorem rem_descend {size maxL start : ℤ} {pos idx : List ℤ} {k : ℤ}
    (hsz : size = (pos.length : ℤ)) (hml : maxL ≤ size)
    (hil : maxL ≤ (idx.length : ℤ)) (h0s : 0 ≤ start)
    (hsk : start ≤ k) (hkm : k ≤ maxL - 2)
    (hacc : noClash pos k (readIdx idx k) = true)
    (hc : readIdx idx k < size) :
    rem size maxL start pos idx k =
      rem size maxL start (writePos pos k (readIdx idx k))
        (writeIdx idx (k + 1) 0) (k + 1) := by
  unfold rem
  rw [rowTail_cons hc]
  rw [show subtree size maxL pos k (readIdx idx k) =
      dfsAux size maxL (maxL - 1 - k).toNat (writePos pos k (readIdx idx k)) (k + 1) from by
    unfold subtree; rw [if_pos hacc]]
  rw [show (maxL - 1 - k).toNat = (maxL - (k + 1)).toNat from by omega]
  rw [dfsAux_eq_rowTail (by omega)]
  rw [show readIdx (writeIdx idx (k + 1) 0) (k + 1) = 0 from
    readIdx_writeIdx_self (by omega) (by omega)]
  rw [show (k + 1 - start).toNat = (k - start).toNat + 1 from by omega]
  conv_rhs => rw [below]
  rw [show k + 1 - 1 = k from by ring]
  rw [show readIdx (writeIdx idx (k + 1) 0) k = readIdx idx k from
    readIdx_writeIdx_ne (by omega)]
  have h1 : rowTail size maxL pos k (readIdx idx k + 1) =
      rowTail size maxL (writePos pos k (readIdx idx k)) k (readIdx idx k + 1) :=
    rowTail_congr (by omega) (by omega) (by omega) (by rw [writePos_length])
      (fun m hm0 hmk => (readPos_writePos_ne (by omega)).symm)
  have h2 : below size maxL pos idx (k - start).toNat (k - 1) =
      below size maxL (writePos pos k (readIdx idx k))
        (writeIdx idx (k + 1) 0) (k - start).toNat (k - 1) :=
    below_congr (k - start).toNat (k - 1) (by push_cast; omega) (by omega)
      (by omega) (by rw [writePos_length])
      (fun m hm0 hmk => (readPos_writePos_ne (by omega)).symm)
      (fun q hq1 hq2 => (readIdx_writeIdx_ne (show k + 1 ≠ q from by omega)).symm)
  rw [h1, h2, List.append_assoc]

/-- Backtracking to the stop row `r₀ ≥ start` leaves the rest of the
frontier unchanged: every popped row was exhausted. -/
theorem tail_backtrack {size maxL start : ℤ} {pos posN idx : List ℤ} {k r₀ : ℤ}
    (hsz : size = (pos.length : ℤ)) (hml : maxL ≤ size)
    (hil : maxL ≤ (idx.length : ℤ)) (h0s : 0 ≤ start)
    (hsk : start ≤ k) (hkm : k ≤ maxL - 1)
    (hbb : ∀ r, start ≤ r → r ≤ k → 0 ≤ readIdx idx r ∧ readIdx idx r ≤ size - 1)
    (hr1 : start ≤ r₀) (hr2 : r₀ ≤ k)
    (hstop : readIdx idx r₀ < size - 1)
    (hab : ∀ r, r₀ < r → r ≤ k → readIdx idx r ≥ size - 1)
    (hlenN : pos.length = posN.length)
    (hagN : ∀ m, 0 ≤ m → m < k → readPos pos m = readPos posN m) :
    rowTail size maxL pos k (readIdx idx k + 1) ++
        below size maxL pos idx (k - start).toNat (k - 1) =
      rem size maxL start posN (writeIdx idx r₀ (readIdx idx r₀ + 1)) r₀ := by
  rcases eq_or_lt_of_le hr2 with rfl | hlt
  · unfold rem
    rw [show readIdx (writeIdx idx r₀ (readIdx idx r₀ + 1)) r₀ = readIdx idx r₀ + 1 from
      readIdx_writeIdx_self (by omega) (by omega)]
    have h1 : rowTail size maxL pos r₀ (readIdx idx r₀ + 1) =
        rowTail size maxL posN r₀ (readIdx idx r₀ + 1) :=
      rowTail_congr (by omega) (by omega) (by omega) hlenN
        (fun m hm0 hmk => hagN m hm0 (by omega))
    have h2 : below size maxL pos idx (r₀ - start).toNat (r₀ - 1) =
        below size maxL posN (writeIdx idx r₀ (readIdx idx r₀ + 1))
          (r₀ - start).toNat (r₀ - 1) :=
      below_congr (r₀ - start).toNat (r₀ - 1) (by push_cast; omega) (by omega)
        (by omega) hlenN
        (fun m hm0 hmk => hagN m hm0 (by omega))
        (fun q hq1 hq2 => (readIdx_writeIdx_ne (show r₀ ≠ q from by omega)).symm)
    rw [h1, h2]
  · have hck : readIdx idx k = size - 1 :=
      le_antisymm (hbb k hsk le_rfl).2 (hab k hlt le_rfl)
    rw [show readIdx idx k + 1 = size from by omega]
    rw [rowTail_empty le_rfl, List.nil_append]
    rw [below_pop (k - 1 - r₀).toNat (k - start).toNat (k - 1) (by omega)
      (fun q hq1 hq2 => le_antisymm (hbb q (by omega) (by omega)).2
        (hab q (by omega) (by omega)))]
    rw [show (k - start).toNat - (k - 1 - r₀).toNat = (r₀ - start).toNat + 1 from by
      omega]
    rw [show k - 1 - (((k - 1 - r₀).toNat : ℕ) : ℤ) = r₀ from by omega]
    conv_lhs => rw [below]
    unfold rem
    rw [show readIdx (writeIdx idx r₀ (readIdx idx r₀ + 1)) r₀ = readIdx idx r₀ + 1 from
      readIdx_writeIdx_self (by omega) (by omega)]
    have h1 : rowTail size maxL pos r₀ (readIdx idx r₀ + 1) =
        rowTail size maxL posN r₀ (readIdx idx r₀ + 1) :=
      rowTail_congr (by omega) (by omega) (by omega) hlenN
        (fun m hm0 hmk => hagN m hm0 (by omega))
    have h2 : below size maxL pos idx (r₀ - start).toNat (r₀ - 1) =
        below size maxL posN (writeIdx idx r₀ (readIdx idx r₀ + 1))
          (r₀ - start).toNat (r₀ - 1) :=
      below_congr (r₀ - start).toNat (r₀ - 1) (by push_cast; omega) (by omega)
        (by omega) hlenN
        (fun m hm0 hmk => hagN m hm0 (by omega))
        (fun q hq1 hq2 => (readIdx_writeIdx_ne (show r₀ ≠ q from by omega)).symm)
    rw [h1, h2]

/-- When the back-tracking loop reaches `start-1`, nothing is left. -/
theorem tail_exhaust {size maxL start : ℤ} {pos idx : List ℤ} {k : ℤ}
    (hsk : start ≤ k)
    (hbb : ∀ r, start ≤ r → r ≤ k → 0 ≤ readIdx idx r ∧ readIdx idx r ≤ size - 1)
    (hab : ∀ r, start - 1 < r → r ≤ k → readIdx idx r ≥ size - 1) :
    rowTail size maxL pos k (readIdx idx k + 1) ++
        below size maxL pos idx (k - start).toNat (k - 1) = [] := by
  have hck : readIdx idx k = size - 1 :=
    le_antisymm (hbb k hsk le_rfl).2 (hab k (by omega) le_rfl)
  rw [show readIdx idx k + 1 = size from by omega]
  rw [rowTail_empty le_rfl, List.nil_append]
  rw [below_pop (k - start).toNat (k - start).toNat (k - 1) le_rfl
    (fun q hq1 hq2 => le_antisymm (hbb q (by omega) (by omega)).2
      (hab q (by omega) (by omega)))]
  rw [Nat.sub_self]
  rfl

/-! ## The simulation: the machine emits exactly the recursive search -/

theorem muTot_pos (size maxL start : ℤ) (idx : List ℤ) (k : ℤ)
    (hc : readIdx idx k ≤ size - 1) : 0 < muTot size maxL start idx k := by
  unfold muTot
  exact Nat.lt_of_lt_of_le
    (Nat.mul_pos (by omega) (bw_pos size (maxL - 1 - k).toNat))
    (Nat.le_add_right _ _)

/-- For an accepted candidate the scan runs clear all the way to its
resolution position `m` (`k-1`, or `0` when `k = 0`). -/
theorem scan_target {pos : List ℤ} {k c : ℤ} (hk : 0 ≤ k)
    (hacc : noClash pos k c = true) :
    ∃ m, 0 ≤ m ∧ k - 1 ≤ m ∧ m ≤ k ∧ badAt pos k c m = false ∧
      ∀ mm, 0 ≤ mm → mm < m → (badAt pos k c mm = false ∧ mm < k - 1) := by
  rcases eq_or_lt_of_le hk with rfl | hk1
  · exact ⟨0, le_rfl, by omega, by omega, badAt_large (by omega),
      fun mm h1 h2 => absurd h1 (by omega)⟩
  · exact ⟨k - 1, by omega, le_rfl, by omega,
      (noClash_true_iff pos k c).mp hacc (k - 1) (by omega) le_rfl,
      fun mm h1 h2 => ⟨(noClash_true_iff pos k c).mp hacc mm h1 (by omega), h2⟩⟩

/-- For a rejected candidate the scan runs clear up to the first position
where the test fires. -/
theorem reject_first {pos : List ℤ} {k c : ℤ}
    (hacc : noClash pos k c = false) :
    ∃ m, 0 ≤ m ∧ m ≤ k - 1 ∧ badAt pos k c m = true ∧
      ∀ mm, 0 ≤ mm → mm < m → (badAt pos k c mm = false ∧ mm < k - 1) := by
  classical
  have hex : ∃ t : ℕ, badAt pos k c ((t : ℤ)) = true := by
    by_contra hno
    push_neg at hno
    have hT : noClash pos k c = true := by
      rw [noClash_true_iff]
      intro m hm0 hmk
      have h := hno m.toNat
      rw [show ((m.toNat : ℕ) : ℤ) = m from by omega] at h
      simpa using h
    rw [hT] at hacc
    cases hacc
  have hbad : badAt pos k c ((Nat.find hex : ℕ) : ℤ) = true := Nat.find_spec hex
  refine ⟨((Nat.find hex : ℕ) : ℤ), by omega, badAt_true_le hbad, hbad, ?_⟩
  intro mm h1 h2
  have h := Nat.find_min hex (show mm.toNat < Nat.find hex from by omega)
  rw [show ((mm.toNat : ℕ) : ℤ) = mm from by omega] at h
  have hle := badAt_true_le hbad
  exact ⟨by simpa using h, by omega⟩

/-- The heart of the development: from any loop-top state whose cursors
are admissible, the machine terminates and emits exactly the frontier
`rem` — the solutions of the recursive search not yet produced. -/
theorem machine_emits {size maxL start : ℤ}
    (h2s : 2 ≤ size) (h0s : 0 ≤ start) (hml : maxL ≤ size) :
    ∀ (N : ℕ) (pos idx : List ℤ) (k : ℤ),
      muTot size maxL start idx k ≤ N →
      size = (pos.length : ℤ) → maxL ≤ (idx.length : ℤ) →
      start ≤ k → k ≤ maxL - 1 →
      (∀ r, r < start → readIdx idx r = 0) →
      (∀ r, start ≤ r → r ≤ k → 0 ≤ readIdx idx r ∧ readIdx idx r ≤ size - 1) →
      Emits size maxL (start - 1) (sP pos idx k 0)
        (rem size maxL start pos idx k) := by
  intro N
  induction N with
  | zero =>
    intro pos idx k hμ hsz hidxl hsk hkml hlow hbb
    have := muTot_pos size maxL start idx k (hbb k hsk le_rfl).2
    omega
  | succ N ih =>
    intro pos idx k hμ hsz hidxl hsk hkml hlow hbb
    have hc0 := (hbb k hsk le_rfl).1
    have hcs := (hbb k hsk le_rfl).2
    by_cases hacc : noClash pos k (readIdx idx k) = true
    · obtain ⟨m, hm0, hmge, hmle, hbadm, hsc⟩ := scan_target (by omega) hacc
      refine emits_scan m.toNat 0 m le_rfl (by omega) hm0 hsc ?_
      by_cases hkeq : k = maxL - 1
      · -- last row: the candidate is a solution; emit it and back-track
        obtain ⟨r₀, hr0a, hr0b, hr0c, hr0d⟩ :=
          @exists_stop size start idx k h2s (by omega) hlow
        obtain ⟨atr, hA⟩ := ascend_finds hr0c (k - r₀).toNat k rfl hr0b hr0d
        have hstep : StepsTo size maxL (start - 1) (sP pos idx k m)
            (afterAscend (start - 1) (writePos pos k (readIdx idx k)) idx
              (some (emitSol (writePos pos k (readIdx idx k)) maxL)) (some k)
              (badCondTrace (sP pos idx k m) ++ [k]) (atr, some r₀)) :=
          stepsTo_emit hbadm hmge hkeq hA
        have hsub : subtree size maxL pos k (readIdx idx k) =
            [emitSol (writePos pos k (readIdx idx k)) maxL] := by
          unfold subtree
          rw [if_pos hacc, show (maxL - 1 - k).toNat = 0 from by omega]
          rfl
        by_cases hhalt : r₀ ≤ start - 1
        · rw [afterAscend_halt hhalt] at hstep
          have hE' : Emits size maxL (start - 1)
              ⟨writePos pos k (readIdx idx k), idx, r₀, 0,
                readPos (writePos pos k (readIdx idx k)) 0, 1⟩ [] :=
            emits_halt (show (1 : ℤ) ≠ 0 from one_ne_zero)
          have hrem : rem size maxL start pos idx k =
              [emitSol (writePos pos k (readIdx idx k)) maxL] := by
            rw [show rem size maxL start pos idx k =
              rowTail size maxL pos k (readIdx idx k) ++
                below size maxL pos idx (k - start).toNat (k - 1) from rfl]
            rw [rowTail_cons (show readIdx idx k < size from by omega)]
            rw [hsub, List.append_assoc]
            rw [tail_exhaust hsk hbb (fun r h1 h2 => hr0d r (by omega) h2)]
            simp
          rw [hrem]
          simpa using emits_cons rfl hstep rfl hE'
        · rw [afterAscend_cont hhalt] at hstep
          have hr₀s : start ≤ r₀ := by omega
          have hμ' : muTot size maxL start
                (writeIdx idx r₀ (readIdx idx r₀ + 1)) r₀ <
              muTot size maxL start idx k :=
            mu_backtrack h0s hsk hr₀s hr0b (by omega) hr0c
              ((hbb r₀ hr₀s hr0b).1)
              (fun r h1 h2 => le_antisymm (hbb r (by omega) h2).2 (hr0d r h1 h2))
              hc0 hcs
          have hlow' : ∀ r, r < start →
              readIdx (writeIdx idx r₀ (readIdx idx r₀ + 1)) r = 0 := by
            intro r hr
            rw [readIdx_writeIdx_ne (show r₀ ≠ r from by omega)]
            exact hlow r hr
          have hbb' : ∀ r, start ≤ r → r ≤ r₀ →
              0 ≤ readIdx (writeIdx idx r₀ (readIdx idx r₀ + 1)) r ∧
              readIdx (writeIdx idx r₀ (readIdx idx r₀ + 1)) r ≤ size - 1 := by
            intro r hr1 hr2
            by_cases heq : r = r₀
            · subst heq
              rw [readIdx_writeIdx_self (by omega) (by omega)]
              have h1 := (hbb r hr1 (by omega)).1
              exact ⟨by omega, by omega⟩
            · rw [readIdx_writeIdx_ne (show r₀ ≠ r from by omega)]
              exact hbb r hr1 (by omega)
          have hE' := ih (writePos pos k (readIdx idx k))
            (writeIdx idx r₀ (readIdx idx r₀ + 1)) r₀ (by omega)
            (by rw [writePos_length]; exact hsz)
            (by rw [writeIdx_length]; exact hidxl)
            hr₀s (by omega) hlow' hbb'
          have hrem : rem size maxL start pos idx k =
              emitSol (writePos pos k (readIdx idx k)) maxL ::
                rem size maxL start (writePos pos k (readIdx idx k))
                  (writeIdx idx r₀ (readIdx idx r₀ + 1)) r₀ := by
            rw [show rem size maxL start pos idx k =
              rowTail size maxL pos k (readIdx idx k) ++
                below size maxL pos idx (k - start).toNat (k - 1) from rfl]
            rw [rowTail_cons (show readIdx idx k < size from by omega)]
            rw [hsub, List.append_assoc]
            rw [tail_backtrack hsz hml hidxl h0s hsk hkml hbb hr₀s hr0b hr0c hr0d
              (writePos_length pos k (readIdx idx k)).symm
              (fun mm h1 h2 => (readPos_writePos_ne (show k ≠ mm from by omega)).symm)]
            rfl
          rw [hrem]
          simpa using emits_cons rfl hstep rfl hE'
      · -- not the last row: place the queen and descend
        have hkm2 : k ≤ maxL - 2 := by omega
        have hstep : StepsTo size maxL (start - 1) (sP pos idx k m)
            ⟨none, badCondTrace (sP pos idx k m) ++ [k, k + 1], some k,
              some (sP (writePos pos k (readIdx idx k))
                (writeIdx idx (k + 1) 0) (k + 1) 0)⟩ :=
          stepsTo_descend hbadm hmge hkeq
        have hμ' : muTot size maxL start (writeIdx idx (k + 1) 0) (k + 1) + 1 =
            muTot size maxL start idx k :=
          mu_descend h0s hsk hkm2 (by omega) hc0 hcs
        have hlow' : ∀ r, r < start →
            readIdx (writeIdx idx (k + 1) 0) r = 0 := by
          intro r hr
          rw [readIdx_writeIdx_ne (show k + 1 ≠ r from by omega)]
          exact hlow r hr
        have hbb' : ∀ r, start ≤ r → r ≤ k + 1 →
            0 ≤ readIdx (writeIdx idx (k + 1) 0) r ∧
            readIdx (writeIdx idx (k + 1) 0) r ≤ size - 1 := by
          intro r hr1 hr2
          by_cases heq : r = k + 1
          · subst heq
            rw [readIdx_writeIdx_self (by omega) (by omega)]
            exact ⟨le_rfl, by omega⟩
          · rw [readIdx_writeIdx_ne (show k + 1 ≠ r from by omega)]
            exact hbb r hr1 (by omega)
        have hE' := ih (writePos pos k (readIdx idx k))
          (writeIdx idx (k + 1) 0) (k + 1) (by omega)
          (by rw [writePos_length]; exact hsz)
          (by rw [writeIdx_length]; exact hidxl)
          (by omega) (by omega) hlow' hbb'
        rw [rem_descend hsz hml hidxl h0s hsk hkm2 hacc (by omega)]
        simpa using emits_cons rfl hstep rfl hE'
    · -- the candidate is rejected: back-track at once
      rw [Bool.not_eq_true] at hacc
      obtain ⟨m, hm0, hmk1, hbadm, hsc⟩ := reject_first hacc
      refine emits_scan m.toNat 0 m le_rfl (by omega) hm0 hsc ?_
      obtain ⟨r₀, hr0a, hr0b, hr0c, hr0d⟩ :=
        @exists_stop size start idx k h2s (by omega) hlow
      obtain ⟨atr, hA⟩ := ascend_finds hr0c (k - r₀).toNat k rfl hr0b hr0d
      have hstep : StepsTo size maxL (start - 1) (sP pos idx k m)
          (afterAscend (start - 1) pos idx none none
            (badCondTrace (sP pos idx k m)) (atr, some r₀)) :=
        stepsTo_reject hbadm hA
      have hsub : subtree size maxL pos k (readIdx idx k) = [] := by
        unfold subtree
        rw [if_neg (by simp [hacc])]
      by_cases hhalt : r₀ ≤ start - 1
      · rw [afterAscend_halt hhalt] at hstep
        have hE' : Emits size maxL (start - 1)
            ⟨pos, idx, r₀, 0, readPos pos 0, 1⟩ [] :=
          emits_halt (show (1 : ℤ) ≠ 0 from one_ne_zero)
        have hrem : rem size maxL start pos idx k = [] := by
          rw [show rem size maxL start pos idx k =
            rowTail size maxL pos k (readIdx idx k) ++
              below size maxL pos idx (k - start).toNat (k - 1) from rfl]
          rw [rowTail_cons (show readIdx idx k < size from by omega)]
          rw [hsub, List.append_assoc]
          rw [tail_exhaust hsk hbb (fun r h1 h2 => hr0d r (by omega) h2)]
          rfl
        rw [hrem]
        simpa using emits_cons rfl hstep rfl hE'
      · rw [afterAscend_cont hhalt] at hstep
        have hr₀s : start ≤ r₀ := by omega
        have hμ' : muTot size maxL start
              (writeIdx idx r₀ (readIdx idx r₀ + 1)) r₀ <
            muTot size maxL start idx k :=
          mu_backtrack h0s hsk hr₀s hr0b (by omega) hr0c
            ((hbb r₀ hr₀s hr0b).1)
            (fun r h1 h2 => le_antisymm (hbb r (by omega) h2).2 (hr0d r h1 h2))
            hc0 hcs
        have hlow' : ∀ r, r < start →
            readIdx (writeIdx idx r₀ (readIdx idx r₀ + 1)) r = 0 := by
          intro r hr
          rw [readIdx_writeIdx_ne (show r₀ ≠ r from by omega)]
          exact hlow r hr
        have hbb' : ∀ r, start ≤ r → r ≤ r₀ →
            0 ≤ readIdx (writeIdx idx r₀ (readIdx idx r₀ + 1)) r ∧
            readIdx (writeIdx idx r₀ (readIdx idx r₀ + 1)) r ≤ size - 1 := by
          intro r hr1 hr2
          by_cases heq : r = r₀
          · subst heq
            rw [readIdx_writeIdx_self (by omega) (by omega)]
            have h1 := (hbb r hr1 (by omega)).1
            exact ⟨by omega, by omega⟩
          · rw [readIdx_writeIdx_ne (show r₀ ≠ r from by omega)]
            exact hbb r hr1 (by omega)
        have hE' := ih pos (writeIdx idx r₀ (readIdx idx r₀ + 1)) r₀ (by omega)
          hsz (by rw [writeIdx_length]; exact hidxl) hr₀s (by omega) hlow' hbb'
        have hrem : rem size maxL start pos idx k =
            rem size maxL start pos (writeIdx idx r₀ (readIdx idx r₀ + 1)) r₀ := by
          rw [show rem size maxL start pos idx k =
            rowTail size maxL pos k (readIdx idx k) ++
              below size maxL pos idx (k - start).toNat (k - 1) from rfl]
          rw [rowTail_cons (show readIdx idx k < size from by omega)]
          rw [hsub, List.append_assoc]
          rw [tail_backtrack hsz hml hidxl h0s hsk hkml hbb hr₀s hr0b hr0c hr0d
            rfl (fun mm h1 h2 => rfl)]
          rfl
        rw [hrem]
        simpa using emits_cons rfl hstep rfl hE'

/-- Top-level functional correctness of `nqueens_by_level` on admissible
parameters: with enough fuel the call terminates and its emission sequence
is exactly that of the recursive reference search `dfs`. -/
theorem nqueensByLevel_dfs (pos : List ℤ) (start maxL : ℤ)
    (h2s : 2 ≤ (pos.length : ℤ)) (h0s : 0 ≤ start) (hsm : start < maxL)
    (hml : maxL ≤ (pos.length : ℤ)) (hU : maxL < U32) :
    ∃ F : ℕ, ∀ fuel, F ≤ fuel →
      (nqueensByLevel pos start maxL fuel).em = dfs pos start maxL ∧
      (nqueensByLevel pos start maxL fuel).final.isSome = true := by
  have hidx : maxL ≤ ((List.replicate maxL.toNat (0 : ℤ)).length : ℤ) := by
    rw [List.length_replicate]; omega
  have hE := machine_emits h2s h0s hml
    (muTot (pos.length : ℤ) maxL start (List.replicate maxL.toNat 0) start)
    pos (List.replicate maxL.toNat 0) start le_rfl rfl hidx le_rfl (by omega)
    (fun r _ => readIdx_replicate_zero maxL.toNat r)
    (fun r h1 h2 => by rw [readIdx_replicate_zero]; omega)
  obtain ⟨o, ⟨F₀, hF₀⟩, hoe, hof⟩ := hE
  refine ⟨max F₀ ((maxL - start).toNat + 1), fun fuel hf => ?_⟩
  obtain ⟨t, ht, heq⟩ :=
    nqueensByLevel_eq_run pos start maxL fuel (by omega) hU h0s (by omega) (by omega)
  rw [heq]
  have hrun : run ((pos.length : ℕ) : ℤ) maxL (start - 1)
      ⟨pos, List.replicate maxL.toNat 0, start, 0, readPos pos 0, 0⟩ fuel = o :=
    hF₀ fuel (by omega)
  rw [hrun]
  constructor
  · show o.em = dfs pos start maxL
    rw [hoe]
    rw [show rem ((pos.length : ℕ) : ℤ) maxL start pos (List.replicate maxL.toNat 0)
          start =
      rowTail ((pos.length : ℕ) : ℤ) maxL pos start
          (readIdx (List.replicate maxL.toNat 0) start) ++
        below ((pos.length : ℕ) : ℤ) maxL pos (List.replicate maxL.toNat 0)
          (start - start).toNat (start - 1) from rfl]
    rw [readIdx_replicate_zero, show (start - start).toNat = 0 from by omega]
    rw [show below ((pos.length : ℕ) : ℤ) maxL pos (List.replicate maxL.toNat 0) 0
      (start - 1) = [] from rfl]
    rw [List.append_nil]
    rw [show dfs pos start maxL =
      dfsAux ((pos.length : ℕ) : ℤ) maxL (maxL - start).toNat pos start from rfl]
    rw [dfsAux_eq_rowTail (by omega)]
  · exact hof

/-! ## Filter characterisation of the reference recursion

`dfsAux` is a pruned enumeration: it produces exactly the admissible
column sequences among all column sequences in lexicographic order. -/

/-- All column sequences of length `d` over the columns `0 … size-1`, in
lexicographic order. -/
def exts (size : ℤ) : ℕ → List (List ℤ)
  | 0 => [[]]
  | d + 1 => (intsFrom 0 size.toNat).flatMap fun c => (exts size d).map (c :: ·)

/-- Write the columns `e` into the board at rows `k, k+1, …`. -/
def place : List ℤ → ℤ → List ℤ → List ℤ
  | pos, _, [] => pos
  | pos, k, c :: e => place (writePos pos k c) (k + 1) e

/-- The search's incremental admissibility test of the suffix `e` placed
at rows `k, k+1, …`: each row in turn must not clash with the rows
placed before it. -/
def suffOK : List ℤ → ℤ → List ℤ → Bool
  | _, _, [] => true
  | pos, k, c :: e => noClash pos k c && suffOK (writePos pos k c) (k + 1) e

theorem flatMap_congr {α β : Type} {l : List α} {f g : α → List β}
    (h : ∀ a ∈ l, f a = g a) : l.flatMap f = l.flatMap g := by
  induction l with
  | nil => rfl
  | cons a l ih =>
    simp only [List.flatMap_cons]
    rw [h a (by simp), ih (fun x hx => h x (by simp [hx]))]

/-- The recursion equals the filtered lexicographic enumeration. -/
theorem dfsAux_filter (size maxL : ℤ) : ∀ (d : ℕ) (pos : List ℤ) (k : ℤ),
    dfsAux size maxL d pos k =
      ((exts size d).filter (fun e => suffOK pos k e)).map
        (fun e => emitSol (place pos k e) maxL) := by
  intro d
  induction d with
  | zero => intro pos k; rfl
  | succ d ih =>
    intro pos k
    rw [show dfsAux size maxL (d + 1) pos k = (intsFrom 0 size.toNat).flatMap
      (fun c => if noClash pos k c then dfsAux size maxL d (writePos pos k c) (k + 1)
        else []) from rfl]
    rw [show exts size (d + 1) = (intsFrom 0 size.toNat).flatMap
      (fun c => (exts size d).map (c :: ·)) from rfl]
    rw [List.filter_flatMap, List.map_flatMap]
    refine flatMap_congr ?_
    intro c _
    rw [List.filter_map, List.map_map]
    by_cases hc : noClash pos k c = true
    · rw [if_pos hc]
      have hp : ((fun e => suffOK pos k e) ∘ (c :: ·)) =
          fun e => suffOK (writePos pos k c) (k + 1) e := by
        funext e
        show suffOK pos k (c :: e) = _
        rw [show suffOK pos k (c :: e) =
          (noClash pos k c && suffOK (writePos pos k c) (k + 1) e) from rfl]
        rw [hc, Bool.true_and]
      rw [hp, ih (writePos pos k c) (k + 1)]
      rfl
    · rw [if_neg hc]
      rw [Bool.not_eq_true] at hc
      have hp : ∀ e ∈ exts size d,
          ((fun e => suffOK pos k e) ∘ (c :: ·)) e = (fun _ => false) e := by
        intro e _
        show suffOK pos k (c :: e) = false
        rw [show suffOK pos k (c :: e) =
          (noClash pos k c && suffOK (writePos pos k c) (k + 1) e) from rfl]
        rw [hc, Bool.false_and]
      rw [List.filter_congr hp, List.filter_false]
      rfl

theorem mem_intsFrom {c : ℤ} {m : ℕ} {x : ℤ} :
    x ∈ intsFrom c m ↔ c ≤ x ∧ x < c + m := by
  simp only [intsFrom, List.mem_map, List.mem_range]
  constructor
  · rintro ⟨t, ht, rfl⟩; omega
  · intro h; exact ⟨(x - c).toNat, by omega, by omega⟩

theorem exts_mem (size : ℤ) : ∀ (d : ℕ) (e : List ℤ), e ∈ exts size d →
    e.length = d ∧ ∀ x ∈ e, 0 ≤ x ∧ x < size := by
  intro d
  induction d with
  | zero =>
    intro e he
    simp only [exts, List.mem_singleton] at he
    subst he
    exact ⟨rfl, by simp⟩
  | succ d ih =>
    intro e he
    simp only [exts, List.mem_flatMap, List.mem_map] at he
    obtain ⟨c, hc, e', he', rfl⟩ := he
    obtain ⟨h1, h2⟩ := mem_intsFrom.mp hc
    obtain ⟨hl, hx⟩ := ih e' he'
    refine ⟨by simp [hl], ?_⟩
    intro x hx'
    simp only [List.mem_cons] at hx'
    rcases hx' with rfl | hx'
    · omega
    · exact hx x hx'

theorem place_length : ∀ (e : List ℤ) (pos : List ℤ) (k : ℤ),
    (place pos k e).length = pos.length := by
  intro e
  induction e with
  | nil => intro pos k; rfl
  | cons c e ih =>
    intro pos k
    rw [show place pos k (c :: e) = place (writePos pos k c) (k + 1) e from rfl]
    rw [ih, writePos_length]

theorem readPos_place_lt : ∀ (e : List ℤ) (pos : List ℤ) (k m : ℤ), m < k →
    readPos (place pos k e) m = readPos pos m := by
  intro e
  induction e with
  | nil => intro pos k m _; rfl
  | cons c e ih =>
    intro pos k m hm
    rw [show place pos k (c :: e) = place (writePos pos k c) (k + 1) e from rfl]
    rw [ih _ _ _ (by omega), readPos_writePos_ne (by omega)]

theorem readPos_natCast (pos : List ℤ) (t : ℕ) :
    readPos pos ((t : ℕ) : ℤ) = pos.getD t 0 := by
  unfold readPos
  rw [if_pos (Int.natCast_nonneg t)]
  simp

theorem emitSol_eq_readPos (pos : List ℤ) (maxL : ℤ) :
    emitSol pos maxL = (List.range maxL.toNat).map fun t => readPos pos ((t : ℕ) : ℤ) := by
  unfold emitSol
  exact (List.map_congr_left fun t _ => (readPos_natCast pos t).symm)

theorem emitSol_writePos_succ {pos : List ℤ} {k c : ℤ} (h0 : 0 ≤ k)
    (hk : k < (pos.length : ℤ)) :
    emitSol (writePos pos k c) (k + 1) = emitSol pos k ++ [c] := by
  rw [emitSol_eq_readPos, emitSol_eq_readPos]
  rw [show (k + 1).toNat = k.toNat + 1 from by omega]
  rw [List.range_succ, List.map_append]
  congr 1
  · refine List.map_congr_left ?_
    intro t ht
    simp only [List.mem_range] at ht
    rw [readPos_writePos_ne (show k ≠ ((t : ℕ) : ℤ) from by omega)]
  · simp only [List.map_cons, List.map_nil]
    rw [show ((k.toNat : ℕ) : ℤ) = k from by omega]
    rw [readPos_writePos_self h0 hk]

theorem emitSol_place : ∀ (e : List ℤ) (pos : List ℤ) (k maxL : ℤ), 0 ≤ k →
    k + (e.length : ℤ) = maxL → maxL ≤ (pos.length : ℤ) →
    emitSol (place pos k e) maxL = emitSol pos k ++ e := by
  intro e
  induction e with
  | nil =>
    intro pos k maxL h0 hlen hml
    rw [show place pos k [] = pos from rfl, List.append_nil]
    simp only [List.length_nil, Nat.cast_zero, add_zero] at hlen
    rw [show maxL = k from by omega]
  | cons c e ih =>
    intro pos k maxL h0 hlen hml
    simp only [List.length_cons] at hlen
    push_cast at hlen
    rw [show place pos k (c :: e) = place (writePos pos k c) (k + 1) e from rfl]
    rw [ih (writePos pos k c) (k + 1) maxL (by omega)
      (by push_cast; omega) (by rw [writePos_length]; exact hml)]
    rw [emitSol_writePos_succ h0 (by omega)]
    simp

theorem place_append : ∀ (e₁ e₂ : List ℤ) (pos : List ℤ) (k : ℤ),
    place pos k (e₁ ++ e₂) = place (place pos k e₁) (k + (e₁.length : ℤ)) e₂ := by
  intro e₁
  induction e₁ with
  | nil => intro e₂ pos k; simp [place]
  | cons c e₁ ih =>
    intro e₂ pos k
    rw [show (c :: e₁) ++ e₂ = c :: (e₁ ++ e₂) from rfl]
    rw [show place pos k (c :: (e₁ ++ e₂)) =
      place (writePos pos k c) (k + 1) (e₁ ++ e₂) from rfl]
    rw [ih]
    rw [show place pos k (c :: e₁) = place (writePos pos k c) (k + 1) e₁ from rfl]
    rw [show k + 1 + (e₁.length : ℤ) = k + ((e₁.length + 1 : ℕ) : ℤ) from by
      push_cast; ring]
    rfl

theorem suffOK_append : ∀ (e₁ e₂ : List ℤ) (pos : List ℤ) (k : ℤ),
    suffOK pos k (e₁ ++ e₂) =
      (suffOK pos k e₁ && suffOK (place pos k e₁) (k + (e₁.length : ℤ)) e₂) := by
  intro e₁
  induction e₁ with
  | nil => intro e₂ pos k; simp [suffOK, place]
  | cons c e₁ ih =>
    intro e₂ pos k
    rw [show (c :: e₁) ++ e₂ = c :: (e₁ ++ e₂) from rfl]
    rw [show suffOK pos k (c :: (e₁ ++ e₂)) =
      (noClash pos k c && suffOK (writePos pos k c) (k + 1) (e₁ ++ e₂)) from rfl]
    rw [ih]
    rw [show suffOK pos k (c :: e₁) =
      (noClash pos k c && suffOK (writePos pos k c) (k + 1) e₁) from rfl]
    rw [show place pos k (c :: e₁) = place (writePos pos k c) (k + 1) e₁ from rfl]
    rw [show k + 1 + (e₁.length : ℤ) = k + ((e₁.length + 1 : ℕ) : ℤ) from by
      push_cast; ring]
    rw [Bool.and_assoc]
    rfl

theorem exts_append (size : ℤ) : ∀ (d₁ d₂ : ℕ),
    exts size (d₁ + d₂) =
      (exts size d₁).flatMap fun e₁ => (exts size d₂).map (e₁ ++ ·) := by
  intro d₁
  induction d₁ with
  | zero =>
    intro d₂
    rw [Nat.zero_add]
    rw [show exts size 0 = [[]] from rfl]
    simp
  | succ d₁ ih =>
    intro d₂
    rw [Nat.succ_add]
    rw [show exts size (d₁ + d₂ + 1) = (intsFrom 0 size.toNat).flatMap
      (fun c => (exts size (d₁ + d₂)).map (c :: ·)) from rfl]
    rw [show exts size (d₁ + 1) = (intsFrom 0 size.toNat).flatMap
      (fun c => (exts size d₁).map (c :: ·)) from rfl]
    rw [List.flatMap_assoc]
    refine flatMap_congr ?_
    intro c _
    rw [ih, List.flatMap_map, List.map_flatMap]
    refine flatMap_congr ?_
    intro e₁ _
    rw [List.map_map]
    rfl

theorem readPos_place_get : ∀ (e : List ℤ) (pos : List ℤ) (k : ℤ) (t : ℕ),
    t < e.length → 0 ≤ k → k + (t : ℤ) < (pos.length : ℤ) →
    readPos (place pos k e) (k + (t : ℤ)) = e.getD t 0 := by
  intro e
  induction e with
  | nil => intro pos k t ht _ _; simp at ht
  | cons c e ih =>
    intro pos k t ht h0 hk
    cases t with
    | zero =>
      rw [show k + ((0 : ℕ) : ℤ) = k from by push_cast; ring]
      rw [show place pos k (c :: e) = place (writePos pos k c) (k + 1) e from rfl]
      rw [readPos_place_lt e _ _ _ (by omega)]
      rw [readPos_writePos_self h0 (by push_cast at hk; omega)]
      rfl
    | succ t =>
      rw [show place pos k (c :: e) = place (writePos pos k c) (k + 1) e from rfl]
      rw [show k + (((t + 1 : ℕ)) : ℤ) = (k + 1) + (t : ℤ) from by push_cast; ring]
      rw [ih (writePos pos k c) (k + 1) t (by simp at ht; omega) (by omega)
        (by rw [writePos_length]; push_cast at hk ⊢; omega)]
      rfl

theorem allCongr {α : Type} {l : List α} {f g : α → Bool}
    (h : ∀ x ∈ l, f x = g x) : l.all f = l.all g := by
  induction l with
  | nil => rfl
  | cons a l ih =>
    simp only [List.all_cons]
    rw [h a (by simp), ih (fun x hx => h x (by simp [hx]))]

/-- The incremental admissibility of a suffix is the per-row pair test on
the finished board, over the rows the suffix fills. -/
theorem suffOK_rows : ∀ (e : List ℤ) (pos : List ℤ) (k : ℤ), 0 ≤ k →
    k + (e.length : ℤ) ≤ (pos.length : ℤ) →
    suffOK pos k e = (List.range e.length).all fun t =>
      noClash (place pos k e) (k + (t : ℤ)) (readPos (place pos k e) (k + (t : ℤ))) := by
  intro e
  induction e with
  | nil => intro pos k _ _; rfl
  | cons c e ih =>
    intro pos k h0 hlen
    simp only [List.length_cons] at hlen
    push_cast at hlen
    rw [show suffOK pos k (c :: e) =
      (noClash pos k c && suffOK (writePos pos k c) (k + 1) e) from rfl]
    rw [ih (writePos pos k c) (k + 1) (by omega)
      (by rw [writePos_length]; push_cast; omega)]
    rw [show place pos k (c :: e) = place (writePos pos k c) (k + 1) e from rfl]
    rw [List.length_cons, List.range_succ_eq_map, List.all_cons, List.all_map]
    congr 1
    · -- the head test: row `k` of the finished board against the rows below
      rw [show k + ((0 : ℕ) : ℤ) = k from by push_cast; ring]
      rw [show readPos (place (writePos pos k c) (k + 1) e) k = c from by
        rw [readPos_place_lt e _ _ _ (by omega)]
        exact readPos_writePos_self h0 (by omega)]
      exact noClash_congr (fun m hm0 hmk => by
        rw [readPos_place_lt e _ _ _ (by omega),
          readPos_writePos_ne (show k ≠ m from by omega)])
    · exact allCongr (fun t _ => by
        show noClash (place (writePos pos k c) (k + 1) e) (k + 1 + (t : ℤ))
            (readPos (place (writePos pos k c) (k + 1) e) (k + 1 + (t : ℤ))) =
          noClash (place (writePos pos k c) (k + 1) e) (k + ((t + 1 : ℕ) : ℤ))
            (readPos (place (writePos pos k c) (k + 1) e) (k + ((t + 1 : ℕ) : ℤ)))
        rw [show k + (((t + 1 : ℕ)) : ℤ) = k + 1 + (t : ℤ) from by push_cast; ring])

/-- The specification's notion of an `N`-queens solution: a column
sequence in which every row's queen clashes with none of the rows before
it (`noClash` is the spec's per-pair non-attacking test). -/
def isSol (size : ℤ) (b : List ℤ) : Bool :=
  (List.range size.toNat).all fun j => noClash b ((j : ℕ) : ℤ) (readPos b ((j : ℕ) : ℤ))

theorem place_zeros (e : List ℤ) (n : ℕ) (hel : e.length = n) :
    place (zeros n) 0 e = e := by
  refine List.ext_getElem (by rw [place_length]; simp [zeros, hel]) ?_
  intro i h1 h2
  have hi : i < n := by
    rw [place_length] at h1
    simpa [zeros] using h1
  have h := readPos_place_get e (zeros n) 0 i (by omega) le_rfl
    (by simp [zeros]; omega)
  rw [show (0 : ℤ) + (i : ℤ) = ((i : ℕ) : ℤ) from by push_cast; ring] at h
  rw [readPos_natCast] at h
  rw [List.getD_eq_getElem _ 0 h1, List.getD_eq_getElem _ 0 h2] at h
  exact h

theorem suffOK_zeros {n : ℕ} {e : List ℤ} (hel : e.length = n) :
    suffOK (zeros n) 0 e = isSol (n : ℤ) e := by
  rw [suffOK_rows e (zeros n) 0 le_rfl (by simp [zeros, hel])]
  rw [place_zeros e n hel]
  unfold isSol
  rw [show ((n : ℤ)).toNat = n from by omega, hel]
  exact allCongr (fun j _ => by rw [show (0 : ℤ) + (j : ℤ) = ((j : ℕ) : ℤ) from by
    push_cast; ring])

theorem emitSol_self {b : List ℤ} {maxL : ℤ} (h : (b.length : ℤ) = maxL) :
    emitSol b maxL = b := by
  unfold emitSol
  refine List.ext_getElem (by simp; omega) ?_
  intro i h1 h2
  simp only [List.getElem_map, List.getElem_range]
  exact List.getD_eq_getElem b 0 h2

/-- The reference search over the whole board is the filtered
lexicographic enumeration of the solutions. -/
theorem dfs_zeros_filter (n : ℕ) :
    dfs (zeros n) 0 (n : ℤ) = (exts (n : ℤ) n).filter (fun e => isSol (n : ℤ) e) := by
  unfold dfs
  rw [show (((zeros n).length : ℕ) : ℤ) = (n : ℤ) from by simp [zeros]]
  rw [show ((n : ℤ) - 0).toNat = n from by omega]
  rw [dfsAux_filter]
  rw [List.filter_congr (fun e he => suffOK_zeros (exts_mem (n : ℤ) n e he).1)]
  rw [List.map_congr_left (fun e he => by
    have hel := (exts_mem (n : ℤ) n e (List.mem_of_mem_filter he)).1
    show emitSol (place (zeros n) 0 e) (n : ℤ) = id e
    rw [place_zeros e n hel]
    exact emitSol_self (by rw [hel]))]
  rw [List.map_id]

/-- The number of `n`-queens solutions: solutions among all column
sequences of length `n` over columns `0 … n-1`. -/
def knownCount (n : ℕ) : ℕ :=
  ((exts (n : ℤ) n).filter (fun e => isSol (n : ℤ) e)).length

theorem knownCount_eq_dfs (n : ℕ) :
    knownCount n = (dfs (zeros n) 0 (n : ℤ)).length := by
  unfold knownCount
  rw [dfs_zeros_filter]

theorem flatten_length_const {n : ℕ} : ∀ (L : List (List ℤ)),
    (∀ x ∈ L, x.length = n) → L.flatten.length = n * L.length := by
  intro L
  induction L with
  | nil => intro _; simp
  | cons a L ih =>
    intro h
    simp only [List.flatten_cons, List.length_append, List.length_cons]
    rw [h a (by simp), ih (fun x hx => h x (by simp [hx]))]
    ring

theorem dfs_mem_length (n : ℕ) : ∀ b ∈ dfs (zeros n) 0 (n : ℤ), b.length = n := by
  intro b hb
  rw [dfs_zeros_filter] at hb
  exact (exts_mem _ _ b (List.mem_of_mem_filter hb)).1

/-- `nqueens(n)` terminates for `2 ≤ n < 2^32` and the total number of
column entries it reports is `n` times the `n`-queens solution count. -/
theorem nqueens_count (n : ℕ) (h2 : 2 ≤ n) (hU : (n : ℤ) < U32) :
    ∃ F, ∀ fuel, F ≤ fuel →
      ∃ st, (nqueens n fuel).final = some st ∧
        (nqueens n fuel).em.flatten.length = n * knownCount n := by
  obtain ⟨F, hF⟩ := nqueensByLevel_dfs (zeros n) 0 (n : ℤ)
    (by simp [zeros]; omega) le_rfl (by omega) (by simp [zeros]) hU
  refine ⟨F, fun fuel hf => ?_⟩
  obtain ⟨hem, hfin⟩ := hF fuel hf
  obtain ⟨st, hst⟩ := Option.isSome_iff_exists.mp hfin
  refine ⟨st, hst, ?_⟩
  show (nqueensByLevel (zeros n) 0 (n : ℤ) fuel).em.flatten.length = n * knownCount n
  rw [hem, flatten_length_const _ (dfs_mem_length n), ← knownCount_eq_dfs]

/-! ## Fuel stability and emission monotonicity of the outer loop -/

theorem afterAscend_em_pl (stop : ℤ) (pos idx : List ℤ) (em : Option (List ℤ))
    (pl : Option ℤ) (tr0 : List ℤ) (r : List ℤ × Option ℤ) :
    (afterAscend stop pos idx em pl tr0 r).em = em ∧
    (afterAscend stop pos idx em pl tr0 r).pl = pl := by
  obtain ⟨tr, ro⟩ := r
  cases ro with
  | none => exact ⟨rfl, rfl⟩
  | some k' =>
    by_cases h : k' ≤ stop
    · rw [afterAscend_halt h]; exact ⟨rfl, rfl⟩
    · rw [afterAscend_cont h]; exact ⟨rfl, rfl⟩

theorem step_eq_bad {size maxL stop : ℤ} {s : St} (hb : badCond s = true)
    (f : ℕ) : step size maxL stop s f =
      afterAscend stop s.pos s.idx none none (badCondTrace s)
        (ascend s.idx size s.k f) := by
  unfold step
  rw [if_pos hb]

theorem step_eq_emit {size maxL stop : ℤ} {s : St} (hb : ¬ badCond s = true)
    (hi : s.i ≥ s.k - 1) (hk : s.k = maxL - 1) (f : ℕ) :
    step size maxL stop s f =
      afterAscend stop (writePos s.pos s.k (readIdx s.idx s.k)) s.idx
        (some (emitSol (writePos s.pos s.k (readIdx s.idx s.k)) maxL)) (some s.k)
        (badCondTrace s ++ [s.k]) (ascend s.idx size s.k f) := by
  unfold step
  rw [if_neg hb, if_pos hi, if_pos hk]

theorem step_eq_descend {size maxL stop : ℤ} {s : St} (hb : ¬ badCond s = true)
    (hi : s.i ≥ s.k - 1) (hk : ¬ s.k = maxL - 1) (f : ℕ) :
    step size maxL stop s f =
      ⟨none, badCondTrace s ++ [s.k, s.k + 1], some s.k,
        some ⟨writePos s.pos s.k (readIdx s.idx s.k), writeIdx s.idx (s.k + 1) 0,
          s.k + 1, 0, readPos (writePos s.pos s.k (readIdx s.idx s.k)) 0, s.flag⟩⟩ := by
  unfold step
  rw [if_neg hb, if_pos hi, if_neg hk]

theorem step_eq_scan {size maxL stop : ℤ} {s : St} (hb : ¬ badCond s = true)
    (hi : ¬ s.i ≥ s.k - 1) (f : ℕ) :
    step size maxL stop s f =
      ⟨none, badCondTrace s, none,
        some ⟨s.pos, s.idx, s.k, s.i + 1, readPos s.pos (s.i + 1), s.flag⟩⟩ := by
  unfold step
  rw [if_neg hb, if_neg hi]

theorem step_em_pl (size maxL stop : ℤ) (s : St) (f f' : ℕ) :
    (step size maxL stop s f).em = (step size maxL stop s f').em ∧
    (step size maxL stop s f).pl = (step size maxL stop s f').pl := by
  by_cases hb : badCond s = true
  · rw [step_eq_bad hb f, step_eq_bad hb f']
    rw [(afterAscend_em_pl _ _ _ _ _ _ _).1, (afterAscend_em_pl _ _ _ _ _ _ _).1]
    rw [(afterAscend_em_pl _ _ _ _ _ _ _).2, (afterAscend_em_pl _ _ _ _ _ _ _).2]
    exact ⟨rfl, rfl⟩
  · by_cases hi : s.i ≥ s.k - 1
    · by_cases hk : s.k = maxL - 1
      · rw [step_eq_emit hb hi hk f, step_eq_emit hb hi hk f']
        rw [(afterAscend_em_pl _ _ _ _ _ _ _).1, (afterAscend_em_pl _ _ _ _ _ _ _).1]
        rw [(afterAscend_em_pl _ _ _ _ _ _ _).2, (afterAscend_em_pl _ _ _ _ _ _ _).2]
        exact ⟨rfl, rfl⟩
      · rw [step_eq_descend hb hi hk f, step_eq_descend hb hi hk f']
        exact ⟨rfl, rfl⟩
    · rw [step_eq_scan hb hi f, step_eq_scan hb hi f']
      exact ⟨rfl, rfl⟩

theorem step_mono {size maxL stop : ℤ} {s : St} {f f' : ℕ} {s' : St}
    (hff : f ≤ f') (h : (step size maxL stop s f).next = some s') :
    step size maxL stop s f' = step size maxL stop s f := by
  by_cases hb : badCond s = true
  · rw [step_eq_bad hb f] at h
    rw [step_eq_bad hb f, step_eq_bad hb f']
    cases hA : ascend s.idx size s.k f with
    | mk tr ro =>
      cases ro with
      | none => rw [hA] at h; simp [afterAscend] at h
      | some r₀ => rw [ascend_mono hA hff]
  · by_cases hi : s.i ≥ s.k - 1
    · by_cases hk : s.k = maxL - 1
      · rw [step_eq_emit hb hi hk f] at h
        rw [step_eq_emit hb hi hk f, step_eq_emit hb hi hk f']
        cases hA : ascend s.idx size s.k f with
        | mk tr ro =>
          cases ro with
          | none => rw [hA] at h; simp [afterAscend] at h
          | some r₀ => rw [ascend_mono hA hff]
      · rw [step_eq_descend hb hi hk f, step_eq_descend hb hi hk f']
    · rw [step_eq_scan hb hi f, step_eq_scan hb hi f']

theorem run_succ (size maxL stop : ℤ) (s : St) (g : ℕ) :
    run size maxL stop s (g + 1) =
      if s.flag ≠ 0 then ⟨[], [], [], some s⟩
      else match step size maxL stop s (g + 1) with
      | ⟨em, tr, pl, none⟩ => ⟨em.toList, tr, pl.toList, none⟩
      | ⟨em, tr, pl, some s'⟩ =>
        ⟨em.toList ++ (run size maxL stop s' g).em,
          tr ++ (run size maxL stop s' g).tr,
          pl.toList ++ (run size maxL stop s' g).pl,
          (run size maxL stop s' g).final⟩ := rfl

/-- Once the outer loop terminates within the fuel, more fuel does not
change the outcome. -/
theorem run_final_stable {size maxL stop : ℤ} : ∀ (fuel : ℕ) (s : St),
    (run size maxL stop s fuel).final.isSome = true →
    ∀ f', fuel ≤ f' → run size maxL stop s f' = run size maxL stop s fuel := by
  intro fuel
  induction fuel with
  | zero => intro s h; simp [run] at h
  | succ fuel ih =>
    intro s h f' hf'
    obtain ⟨f'', rfl⟩ : ∃ f'', f' = f'' + 1 := ⟨f' - 1, by omega⟩
    by_cases hflag : s.flag ≠ 0
    · rw [run_succ size maxL stop s f'', run_succ size maxL stop s fuel,
        if_pos hflag, if_pos hflag]
    · rw [run_succ size maxL stop s fuel, if_neg hflag] at h
      rw [run_succ size maxL stop s f'', run_succ size maxL stop s fuel,
        if_neg hflag, if_neg hflag]
      cases hst : step size maxL stop s (fuel + 1) with
      | mk em tr pl nx =>
        rw [hst] at h
        cases nx with
        | none => simp at h
        | some s₂ =>
          dsimp only at h
          rw [step_mono (show fuel + 1 ≤ f'' + 1 from by omega)
            (show (step size maxL stop s (fuel + 1)).next = some s₂ from by
              rw [hst])]
          rw [hst]
          dsimp only
          rw [ih s₂ h f'' (by omega)]

/-- More fuel only extends the emission sequence. -/
theorem run_em_mono {size maxL stop : ℤ} : ∀ (fuel : ℕ) (fuel' : ℕ) (s : St),
    fuel ≤ fuel' →
    (run size maxL stop s fuel).em <+: (run size maxL stop s fuel').em := by
  intro fuel
  induction fuel with
  | zero => intro fuel' s _; exact List.nil_prefix
  | succ fuel ih =>
    intro fuel' s hff
    obtain ⟨f'', rfl⟩ : ∃ f'', fuel' = f'' + 1 := ⟨fuel' - 1, by omega⟩
    by_cases hflag : s.flag ≠ 0
    · rw [run_succ size maxL stop s f'', run_succ size maxL stop s fuel,
        if_pos hflag, if_pos hflag]
    · rw [run_succ size maxL stop s f'', run_succ size maxL stop s fuel,
        if_neg hflag, if_neg hflag]
      cases hst : step size maxL stop s (fuel + 1) with
      | mk em tr pl nx =>
        cases nx with
        | none =>
          have hem := (step_em_pl size maxL stop s (fuel + 1) (f'' + 1)).1
          rw [hst] at hem
          cases hst' : step size maxL stop s (f'' + 1) with
          | mk em' tr' pl' nx' =>
            rw [hst'] at hem
            simp only at hem
            subst hem
            cases nx' with
            | none => dsimp only; exact List.prefix_rfl
            | some s₂ => dsimp only; exact ⟨(run size maxL stop s₂ f'').em, rfl⟩
        | some s₂ =>
          rw [step_mono (show fuel + 1 ≤ f'' + 1 from by omega)
            (show (step size maxL stop s (fuel + 1)).next = some s₂ from by
              rw [hst])]
          rw [hst]
          dsimp only
          obtain ⟨t, ht⟩ := ih f'' s₂ (by omega)
          exact ⟨t, by rw [List.append_assoc, ht]⟩

theorem initLoop_some (maxL : ℤ) (m : ℕ) : ∀ (fuel : ℕ) (k : ℤ) (idx : List ℤ),
    (initLoop maxL (List.replicate m (0 : ℤ)) k fuel).2 = some idx →
    idx = List.replicate m 0 := by
  intro fuel
  induction fuel with
  | zero => intro k idx h; simp [initLoop] at h
  | succ fuel ih =>
    intro k idx h
    rw [initLoop] at h
    by_cases hc : k % U32 ≤ (maxL - 1) % U32
    · rw [if_pos hc, writeIdx_replicate_zero] at h
      exact ih (k + 1) idx h
    · rw [if_neg hc] at h
      exact (Option.some.inj h).symm

/-! ## The emissions are lexicographically sorted -/

theorem lex_append_left : ∀ (A l₁ l₂ : List ℤ), lexLT l₁ l₂ →
    lexLT (A ++ l₁) (A ++ l₂) := by
  intro A
  induction A with
  | nil => intro l₁ l₂ h; simpa using h
  | cons a A ih => intro l₁ l₂ h; exact List.Lex.cons (ih _ _ h)

theorem exts_sorted (size : ℤ) : ∀ d, List.Pairwise lexLT (exts size d) := by
  intro d
  induction d with
  | zero => simp [exts]
  | succ d ih =>
    rw [show exts size (d + 1) = (intsFrom 0 size.toNat).flatMap
      (fun c => (exts size d).map (c :: ·)) from rfl]
    refine List.pairwise_flatMap.mpr ⟨?_, ?_⟩
    · intro c _
      rw [List.pairwise_map]
      exact ih.imp (fun hab => List.Lex.cons hab)
    · have hmono : List.Pairwise (· < ·) (intsFrom 0 size.toNat) := by
        unfold intsFrom
        rw [List.pairwise_map]
        exact (List.pairwise_lt_range _).imp (fun hab => by omega)
      refine hmono.imp ?_
      intro c c' hcc x hx y hy
      simp only [List.mem_map] at hx hy
      obtain ⟨e1, -, rfl⟩ := hx
      obtain ⟨e2, -, rfl⟩ := hy
      exact List.Lex.rel hcc

/-- The reference search reports its solutions in strictly increasing
lexicographic order. -/
theorem dfs_sorted (pos : List ℤ) (start maxL : ℤ) (h0 : 0 ≤ start)
    (hsm : start ≤ maxL) (hml : maxL ≤ (pos.length : ℤ)) :
    List.Pairwise lexLT (dfs pos start maxL) := by
  unfold dfs
  rw [dfsAux_filter]
  rw [List.map_congr_left (fun e he => by
    have h := exts_mem _ _ e (List.mem_of_mem_filter he)
    show emitSol (place pos start e) maxL = emitSol pos start ++ e
    exact emitSol_place e pos start maxL h0 (by rw [h.1]; omega) hml)]
  rw [List.pairwise_map]
  exact (List.Pairwise.filter _ (exts_sorted _ _)).imp
    (fun hab => lex_append_left _ _ _ hab)

theorem knownCount_four : knownCount 4 = 2 := by
  rw [knownCount_eq_dfs]
  rfl

set_option maxRecDepth 100000 in
set_option maxHeartbeats 16000000 in
theorem knownCount_eight : knownCount 8 = 92 := by
  rw [knownCount_eq_dfs]
  rfl

/-- On admissible parameters every call — whatever its fuel — has its
emission sequence sorted in strictly increasing lexicographic order (a
short run produces a prefix of the full sorted sequence). -/
theorem nqueensByLevel_sorted (pos : List ℤ) (start maxL : ℤ) (fuel : ℕ)
    (h2s : 2 ≤ (pos.length : ℤ)) (h0s : 0 ≤ start) (hsm : start < maxL)
    (hml : maxL ≤ (pos.length : ℤ)) (hU : maxL < U32) :
    List.Pairwise lexLT (nqueensByLevel pos start maxL fuel).em := by
  unfold nqueensByLevel
  cases hI : initLoop maxL (List.replicate maxL.toNat 0) start fuel with
  | mk tr r =>
    cases r with
    | none => exact List.Pairwise.nil
    | some idx =>
      have hidx : idx = List.replicate maxL.toNat 0 :=
        initLoop_some maxL maxL.toNat fuel start idx (by rw [hI])
      subst hidx
      obtain ⟨F, hF⟩ := nqueensByLevel_dfs pos start maxL h2s h0s hsm hml hU
      obtain ⟨hem, -⟩ := hF (max fuel (max F ((maxL - start).toNat + 1))) (by omega)
      obtain ⟨t, -, heq⟩ := nqueensByLevel_eq_run pos start maxL
        (max fuel (max F ((maxL - start).toNat + 1))) (by omega) hU h0s
        (by omega) (by omega)
      rw [heq] at hem
      have hpre := @run_em_mono ((pos.length : ℕ) : ℤ) maxL (start - 1) fuel
        (max fuel (max F ((maxL - start).toNat + 1)))
        ⟨pos, List.replicate maxL.toNat 0, start, 0, readPos pos 0, 0⟩ (by omega)
      rw [show (withInit t (run ((pos.length : ℕ) : ℤ) maxL (start - 1)
          ⟨pos, List.replicate maxL.toNat 0, start, 0, readPos pos 0, 0⟩
          (max fuel (max F ((maxL - start).toNat + 1))))).em =
        (run ((pos.length : ℕ) : ℤ) maxL (start - 1)
          ⟨pos, List.replicate maxL.toNat 0, start, 0, readPos pos 0, 0⟩
          (max fuel (max F ((maxL - start).toNat + 1)))).em from rfl] at hem
      rw [hem] at hpre
      exact List.Pairwise.sublist hpre.sublist
        (dfs_sorted pos start maxL h0s (by omega) hml)

/-! ## Driving the protocol: a schedule that routes everything through one
worker -/

/-- The batch a worker reports for the Work Unit `p` (meaningful when the
report exists). -/
def repOf (n k fuel : ℕ) (p : List ℤ) : List ℤ := (workerReport n k p fuel).getD []

/-- The receipt event for a report with batch `b`. -/
def reportEv (w : ℕ) (b : List ℤ) : MEv :=
  if b.isEmpty then .recvNoSol w else .recvSol w b

/-- The report of the most recently dispatched Work Unit. -/
def lastRep (n k fuel : ℕ) (q : List (List ℤ)) : List ℤ :=
  match q.getLast? with
  | none => []
  | some p => repOf n k fuel p

theorem repOf_eq {n k fuel : ℕ} {p b : List ℤ}
    (hb : workerReport n k p fuel = some b) : repOf n k fuel p = b := by
  unfold repOf
  rw [hb]
  rfl

theorem lastRep_concat (n k fuel : ℕ) (q : List (List ℤ)) (pl : List ℤ) :
    lastRep n k fuel (q ++ [pl]) = repOf n k fuel pl := by
  unfold lastRep
  rw [List.getLast?_concat]

theorem receiveFrom_init {n k fuel : ℕ} {W : ℕ} {s : PState W} {w : Fin W}
    (h0 : s.consumed w = 0) :
    receiveFrom n k fuel s w = some { s with
      consumed := Function.update s.consumed w 1,
      events := s.events ++ [.recvInit w] } := by
  unfold receiveFrom
  rw [show workerMsg n k fuel (s.assigned w) (s.consumed w) = some WMsg.init from by
    rw [h0]; rfl]
  dsimp only
  rw [h0]

theorem receiveFrom_report {n k fuel : ℕ} {W : ℕ} {s : PState W} {w : Fin W}
    {q : List (List ℤ)} {p b : List ℤ}
    (ha : s.assigned w = q ++ [p]) (hc : s.consumed w = q.length + 1)
    (hr : workerReport n k p fuel = some b) :
    receiveFrom n k fuel s w = some { s with
      consumed := Function.update s.consumed w (q.length + 2),
      active := s.active - 1,
      store := s.store ++ b,
      events := s.events ++ [reportEv w b] } := by
  unfold receiveFrom
  rw [show workerMsg n k fuel (s.assigned w) (s.consumed w) =
      some (WMsg.report b) from by
    rw [ha, hc]
    show (match (q ++ [p]).get? q.length with
      | none => none
      | some p' => (workerReport n k p' fuel).map WMsg.report) = some (WMsg.report b)
    rw [List.get?_concat_length]
    dsimp only
    rw [hr]
    rfl]
  dsimp only
  by_cases hb : b.isEmpty
  · rw [if_pos hb]
    rw [List.isEmpty_iff] at hb
    subst hb
    rw [hc]
    simp [reportEv]
  · rw [if_neg hb]
    rw [hc]
    simp [reportEv, hb]

/-- Routing every receive to the single worker `w`: each Work Unit after
the first is dispatched right after consuming the report of the previous
one, so the phase succeeds and accumulates every report but the last. -/
theorem dispatch_allw {n k fuel : ℕ} {W : ℕ} (w : Fin W) :
    ∀ (ps q : List (List ℤ)) (s : PState W) (sched' : List (Fin W)),
      s.assigned w = q → s.consumed w = q.length →
      s.active = (if q.isEmpty then 0 else 1) →
      (∀ p ∈ q, (workerReport n k p fuel).isSome = true) →
      (∀ p ∈ ps, (workerReport n k p fuel).isSome = true) →
      ∃ s' : PState W,
        dispatchPhase n k fuel ps s (List.replicate ps.length w ++ sched') =
          some (s', sched') ∧
        s'.assigned w = q ++ ps ∧ s'.consumed w = (q ++ ps).length ∧
        s'.active = (if (q ++ ps).isEmpty then 0 else 1) ∧
        s'.store ++ lastRep n k fuel (q ++ ps) =
          s.store ++ lastRep n k fuel q ++ (ps.map (repOf n k fuel)).flatten := by
  intro ps
  induction ps with
  | nil =>
    intro q s sched' ha hc hact hq hps
    exact ⟨s, rfl, by simpa using ha, by simpa using hc, by simpa using hact,
      by simp⟩
  | cons p ps ih =>
    intro q s sched' ha hc hact hq hps
    have hrecv : ∃ s₁ : PState W, receiveFrom n k fuel s w = some s₁ ∧
        s₁.assigned w = q ∧ s₁.consumed w = q.length + 1 ∧
        s₁.active = 0 ∧ s₁.store = s.store ++ lastRep n k fuel q := by
      rcases List.eq_nil_or_concat q with rfl | ⟨q₀, pl, rfl⟩
      · refine ⟨_, receiveFrom_init (by simpa using hc), by simpa using ha,
          by simp, by simpa using hact, by simp [lastRep]⟩
      · simp only [List.concat_eq_append] at ha hc hact hq ⊢
        obtain ⟨b, hb⟩ := Option.isSome_iff_exists.mp (hq pl (by simp))
        refine ⟨_, receiveFrom_report ha (by rw [hc]; simp) hb, by simpa using ha,
          by simp, ?_, ?_⟩
        · show s.active - 1 = 0
          rw [hact]
          simp
        · show s.store ++ b = s.store ++ lastRep n k fuel (q₀ ++ [pl])
          rw [lastRep_concat, repOf_eq hb]
    obtain ⟨s₁, hr1, ha1, hc1, hact1, hs1⟩ := hrecv
    rw [show List.replicate (p :: ps).length w ++ sched' =
      w :: (List.replicate ps.length w ++ sched') from rfl]
    rw [show dispatchPhase n k fuel (p :: ps) s
        (w :: (List.replicate ps.length w ++ sched')) =
      (match receiveFrom n k fuel s w with
       | none => none
       | some s' => dispatchPhase n k fuel ps
          { s' with assigned := Function.update s'.assigned w (s'.assigned w ++ [p]),
                    active := s'.active + 1,
                    events := s'.events ++ [.dispatch w p] }
          (List.replicate ps.length w ++ sched')) from rfl]
    rw [hr1]
    dsimp only
    obtain ⟨s', h1, h2, h3, h4, h5⟩ := ih (q ++ [p])
      { s₁ with assigned := Function.update s₁.assigned w (s₁.assigned w ++ [p]),
                active := s₁.active + 1,
                events := s₁.events ++ [.dispatch w p] }
      sched'
      (by simp [ha1])
      (by show s₁.consumed w = (q ++ [p]).length; rw [hc1]; simp)
      (by show s₁.active + 1 = _; rw [hact1]; simp)
      (by
        intro p' hp'
        rcases List.mem_append.mp hp' with h | h
        · exact hq p' h
        · simp only [List.mem_singleton] at h
          subst h
          exact hps p' (by simp))
      (fun p' hp' => hps p' (by simp [hp']))
    refine ⟨s', h1, by rw [h2]; simp, by rw [h3]; simp, by rw [h4]; simp, ?_⟩
    rw [show q ++ p :: ps = (q ++ [p]) ++ ps from by simp]
    rw [h5]
    show s₁.store ++ lastRep n k fuel (q ++ [p]) ++ _ = _
    rw [hs1, lastRep_concat]
    simp [List.append_assoc]

theorem drainPhase_exit {n k fuel : ℕ} {W : ℕ} (s : PState W)
    (sched : List (Fin W)) (fuel2 : ℕ) (h : ¬ s.active > 0) (hf : 1 ≤ fuel2) :
    drainPhase n k fuel s sched fuel2 = some s := by
  obtain ⟨f, rfl⟩ : ∃ f, fuel2 = f + 1 := ⟨fuel2 - 1, by omega⟩
  cases sched with
  | nil =>
    rw [show drainPhase n k fuel s [] (f + 1) =
      (if s.active > 0 then none else some s) from rfl]
    rw [if_neg h]
  | cons w tail =>
    rw [show drainPhase n k fuel s (w :: tail) (f + 1) =
      (if s.active > 0 then
        match receiveFrom n k fuel s w with
        | none => none
        | some s' => drainPhase n k fuel s' tail f
       else some s) from rfl]
    rw [if_neg h]

/-- Draining after the all-`w` dispatch: one receive collects the pending
last report, then the counter is zero and the loop exits. -/
theorem drain_allw {n k fuel : ℕ} {W : ℕ} (w : Fin W) (s : PState W)
    (q : List (List ℤ)) (sched₀ : List (Fin W)) (fuel2 : ℕ)
    (ha : s.assigned w = q) (hc : s.consumed w = q.length)
    (hact : s.active = (if q.isEmpty then 0 else 1))
    (hq : ∀ p ∈ q, (workerReport n k p fuel).isSome = true)
    (hf2 : 2 ≤ fuel2) :
    ∃ s', drainPhase n k fuel s (w :: sched₀) fuel2 = some s' ∧
      s'.store = s.store ++ lastRep n k fuel q := by
  rcases List.eq_nil_or_concat q with rfl | ⟨q₀, pl, rfl⟩
  · refine ⟨s, drainPhase_exit s _ _ (by rw [hact]; simp) (by omega), ?_⟩
    simp [lastRep]
  · simp only [List.concat_eq_append] at ha hc hact hq ⊢
    obtain ⟨f1, rfl⟩ : ∃ f1, fuel2 = f1 + 1 := ⟨fuel2 - 1, by omega⟩
    obtain ⟨b, hb⟩ := Option.isSome_iff_exists.mp (hq pl (by simp))
    rw [show drainPhase n k fuel s (w :: sched₀) (f1 + 1) =
      (if s.active > 0 then
        match receiveFrom n k fuel s w with
        | none => none
        | some s' => drainPhase n k fuel s' sched₀ f1
       else some s) from rfl]
    rw [if_pos (by rw [hact]; simp)]
    rw [receiveFrom_report ha (by rw [hc]; simp) hb]
    dsimp only
    refine ⟨_, drainPhase_exit _ sched₀ f1
      (by show ¬ s.active - 1 > 0; rw [hact]; simp) (by omega), ?_⟩
    show s.store ++ b = s.store ++ lastRep n k fuel (q₀ ++ [pl])
    rw [lastRep_concat, repOf_eq hb]

/-- A complete master run under the all-`w` schedule: every Work Unit is
dispatched and reported, and the returned store is the concatenation of
the reports in dispatch order. -/
theorem masterRun_allw (n k W : ℕ) (hW : 0 < W) (fuel : ℕ) (hf : 2 ≤ fuel)
    (o : Out) (hfin : o.final.isSome = true)
    (hreps : ∀ p ∈ o.em, (workerReport n k p fuel).isSome = true) :
    (masterRun n k W
        (List.replicate o.em.length (⟨0, hW⟩ : Fin W) ++ [⟨0, hW⟩]) fuel o).2 =
      some ((o.em.map (repOf n k fuel)).flatten) := by
  unfold masterRun
  obtain ⟨st, hst⟩ := Option.isSome_iff_exists.mp hfin
  rw [hst]
  dsimp only
  obtain ⟨s₁, h1, h2, h3, h4, h5⟩ := dispatch_allw (⟨0, hW⟩ : Fin W) o.em []
    (initPS n k W) [⟨0, hW⟩] rfl rfl rfl
    (fun p hp => absurd hp (List.not_mem_nil p)) hreps
  rw [h1]
  dsimp only
  obtain ⟨s₂, hd, hs⟩ := drain_allw (⟨0, hW⟩ : Fin W) s₁ ([] ++ o.em) [] fuel
    h2 h3 h4 (by simpa using hreps) hf
  rw [hd]
  dsimp only
  rw [hs, h5]
  simp [initPS, lastRep]

/-- A worker's report on an admissible Work Unit is, for sufficient fuel,
the flat batch of the reference search over the remaining rows. -/
theorem workerReport_dfs (n k : ℕ) (h2 : 2 ≤ n) (hkn : k < n)
    (hU : (n : ℤ) < U32) (p : List ℤ) (hp : p.length = k) :
    ∃ F, ∀ fuel, F ≤ fuel →
      workerReport n k p fuel =
        some (dfs (workerBoard n k p) (k : ℤ) (n : ℤ)).flatten := by
  have hlen : (((workerBoard n k p).length : ℕ) : ℤ) = (n : ℤ) := by
    simp [workerBoard, hp]
    omega
  obtain ⟨F, hF⟩ := nqueensByLevel_dfs (workerBoard n k p) (k : ℤ) (n : ℤ)
    (by rw [hlen]; omega) (by omega) (by omega) (by rw [hlen]) hU
  refine ⟨F, fun fuel hf => ?_⟩
  obtain ⟨hem, hfin⟩ := hF fuel hf
  unfold workerReport
  dsimp only
  obtain ⟨st, hst⟩ := Option.isSome_iff_exists.mp hfin
  rw [hst]
  dsimp only
  rw [hem]

theorem workerReports_sup (n k : ℕ) (h2 : 2 ≤ n) (hkn : k < n)
    (hU : (n : ℤ) < U32) :
    ∀ (ps : List (List ℤ)), (∀ p ∈ ps, p.length = k) →
      ∃ F, ∀ fuel, F ≤ fuel → ∀ p ∈ ps,
        workerReport n k p fuel =
          some (dfs (workerBoard n k p) (k : ℤ) (n : ℤ)).flatten := by
  intro ps
  induction ps with
  | nil => intro _; exact ⟨0, fun fuel _ p hp => absurd hp (List.not_mem_nil p)⟩
  | cons p ps ih =>
    intro hlen
    obtain ⟨F₁, h₁⟩ := workerReport_dfs n k h2 hkn hU p (hlen p (by simp))
    obtain ⟨F₂, h₂⟩ := ih (fun p' hp' => hlen p' (by simp [hp']))
    refine ⟨max F₁ F₂, fun fuel hf p' hp' => ?_⟩
    rcases List.mem_cons.mp hp' with rfl | hp'
    · exact h₁ fuel (by omega)
    · exact h₂ fuel (by omega) p' hp'

theorem flatMap_filter {α β : Type} (p : α → Bool) (f : α → List β) :
    ∀ (l : List α), (∀ a ∈ l, p a = false → f a = []) →
    l.flatMap f = (l.filter p).flatMap f := by
  intro l
  induction l with
  | nil => intro _; rfl
  | cons a l ih =>
    intro h
    rw [List.flatMap_cons]
    by_cases hp : p a = true
    · rw [List.filter_cons_of_pos hp, List.flatMap_cons,
        ih (fun x hx hfx => h x (by simp [hx]) hfx)]
    · rw [Bool.not_eq_true] at hp
      rw [List.filter_cons_of_neg (by simp [hp]), h a (by simp) hp,
        List.nil_append, ih (fun x hx hfx => h x (by simp [hx]) hfx)]

theorem readPos_place_ge : ∀ (e : List ℤ) (pos : List ℤ) (k m : ℤ),
    k + (e.length : ℤ) ≤ m → readPos (place pos k e) m = readPos pos m := by
  intro e
  induction e with
  | nil => intro pos k m _; rfl
  | cons c e ih =>
    intro pos k m hm
    simp only [List.length_cons] at hm
    push_cast at hm
    rw [show place pos k (c :: e) = place (writePos pos k c) (k + 1) e from rfl]
    rw [ih _ _ _ (by push_cast; omega), readPos_writePos_ne (by omega)]

theorem workerBoard_place (n k : ℕ) (e : List ℤ) (he : e.length = k)
    (hkn : k ≤ n) : workerBoard n k e = place (zeros n) 0 e := by
  refine List.ext_getElem ?_ ?_
  · rw [place_length]
    simp [workerBoard, zeros, he]
    omega
  · intro i h1 h2
    have hi : i < n := by
      rw [place_length] at h2
      simpa [zeros] using h2
    have hrp : readPos (place (zeros n) 0 e) ((i : ℕ) : ℤ) =
        (place (zeros n) 0 e).getD i 0 := readPos_natCast _ i
    by_cases hik : i < k
    · have hie : i < e.length := by omega
      have h := readPos_place_get e (zeros n) 0 i (by omega) le_rfl
        (by simp [zeros]; omega)
      rw [show (0 : ℤ) + (i : ℤ) = ((i : ℕ) : ℤ) from by push_cast; ring] at h
      rw [hrp] at h
      rw [List.getD_eq_getElem _ 0 h2] at h
      rw [show (workerBoard n k e)[i] = e[i] from by
        unfold workerBoard
        exact List.getElem_append_left (by omega)]
      rw [← List.getD_eq_getElem e 0 hie]
      exact h.symm
    · have h := readPos_place_ge e (zeros n) 0 ((i : ℕ) : ℤ) (by rw [he]; omega)
      rw [hrp] at h
      rw [List.getD_eq_getElem _ 0 h2] at h
      rw [readPos_natCast] at h
      rw [show (zeros n).getD i 0 = 0 from by simp [zeros]] at h
      rw [show (workerBoard n k e)[i] = (0 : ℤ) from by
        unfold workerBoard
        rw [List.getElem_append_right (by omega)]
        simp]
      exact h.symm

/-- The master's enumeration to depth `k` produces exactly the admissible
partial column sequences, verbatim. -/
theorem dfs_partials (n k : ℕ) (hkn : k ≤ n) :
    dfs (zeros n) 0 (k : ℤ) =
      (exts (n : ℤ) k).filter (fun e => suffOK (zeros n) 0 e) := by
  unfold dfs
  rw [show (((zeros n).length : ℕ) : ℤ) = (n : ℤ) from by simp [zeros]]
  rw [show ((k : ℤ) - 0).toNat = k from by omega]
  rw [dfsAux_filter]
  rw [List.map_congr_left (fun e he => by
    have hel := (exts_mem (n : ℤ) k e (List.mem_of_mem_filter he)).1
    show emitSol (place (zeros n) 0 e) (k : ℤ) = id e
    rw [emitSol_place e (zeros n) 0 (k : ℤ) le_rfl (by rw [hel]; omega)
      (by simp [zeros]; omega)]
    rfl)]
  rw [List.map_id]

/-- The worker's search on the board of the Work Unit `e`, in terms of the
enumeration of the remaining rows. -/
theorem dfs_worker (n k : ℕ) (e : List ℤ) (he : e.length = k) (hkn : k ≤ n) :
    dfs (workerBoard n k e) (k : ℤ) (n : ℤ) =
      ((exts (n : ℤ) (n - k)).filter
          (fun e₂ => suffOK (place (zeros n) 0 e) (k : ℤ) e₂)).map
        (fun e₂ => emitSol (place (zeros n) 0 (e ++ e₂)) (n : ℤ)) := by
  unfold dfs
  rw [workerBoard_place n k e he hkn]
  rw [show (((place (zeros n) 0 e).length : ℕ) : ℤ) = (n : ℤ) from by
    rw [place_length]; simp [zeros]]
  rw [show ((n : ℤ) - (k : ℤ)).toNat = n - k from by omega]
  rw [dfsAux_filter]
  rw [List.map_congr_left (fun e₂ _ => by
    show emitSol (place (place (zeros n) 0 e) (k : ℤ) e₂) (n : ℤ) =
      emitSol (place (zeros n) 0 (e ++ e₂)) (n : ℤ)
    rw [place_append e e₂ (zeros n) 0, he]
    rw [zero_add])]

/-- Splitting the full search at depth `k`: the sequential enumeration is
the concatenation, over the master's Work Units in order, of the workers'
enumerations. -/
theorem dfs_split (n k : ℕ) (hkn : k ≤ n) :
    dfs (zeros n) 0 (n : ℤ) =
      (dfs (zeros n) 0 (k : ℤ)).flatMap
        (fun p => dfs (workerBoard n k p) (k : ℤ) (n : ℤ)) := by
  rw [dfs_partials n k hkn]
  rw [flatMap_congr (fun p hp =>
    dfs_worker n k p (exts_mem _ _ p (List.mem_of_mem_filter hp)).1 hkn)]
  unfold dfs
  rw [show (((zeros n).length : ℕ) : ℤ) = (n : ℤ) from by simp [zeros]]
  rw [show ((n : ℤ) - 0).toNat = n from by omega]
  rw [dfsAux_filter]
  rw [show exts ((n : ℕ) : ℤ) n = exts ((n : ℕ) : ℤ) (k + (n - k)) from by
    rw [show k + (n - k) = n from by omega]]
  rw [exts_append]
  rw [List.filter_flatMap, List.map_flatMap]
  rw [flatMap_filter (fun e => suffOK (zeros n) 0 e) _ (exts ((n : ℕ) : ℤ) k)
    (by
      intro e₁ he₁ hfail
      have hfail' : suffOK (zeros n) 0 e₁ = false := hfail
      have hel := (exts_mem _ _ e₁ he₁).1
      rw [List.filter_map, List.map_map]
      rw [List.filter_congr (fun e₂ _ => by
        show suffOK (zeros n) 0 (e₁ ++ e₂) = (fun _ => false) e₂
        rw [suffOK_append, hfail', Bool.false_and])]
      rw [List.filter_false]
      rfl)]
  refine flatMap_congr ?_
  intro e₁ he₁
  have hel := (exts_mem _ _ e₁ (List.mem_of_mem_filter he₁)).1
  have hok : suffOK (zeros n) 0 e₁ = true := List.of_mem_filter he₁
  rw [List.filter_map, List.map_map]
  rw [List.filter_congr (fun e₂ _ => by
    show suffOK (zeros n) 0 (e₁ ++ e₂) =
      suffOK (place (zeros n) 0 e₁) ((k : ℕ) : ℤ) e₂
    rw [suffOK_append, hok, Bool.true_and, hel]
    rw [zero_add])]
  rfl

theorem flatten_map_flatten (f : List ℤ → List (List ℤ)) :
    ∀ (l : List (List ℤ)),
    (l.map (fun p => (f p).flatten)).flatten = (l.flatMap f).flatten := by
  intro l
  induction l with
  | nil => rfl
  | cons a l ih =>
    simp only [List.map_cons, List.flatten_cons, List.flatMap_cons,
      List.flatten_append, ih]

/-- The positive half of the protocol claim: for admissible `1 ≤ k < n`
there is a schedule under which the whole protocol completes and returns
exactly the sequential enumeration's flat solution sequence. -/
theorem protocol_matches_sequential (n k W : ℕ) (h2 : 2 ≤ n) (hk1 : 1 ≤ k)
    (hkn : k < n) (hU : (n : ℤ) < U32) (hW : 0 < W) :
    ∃ (sched : List (Fin W)) (F : ℕ), ∀ fuel, F ≤ fuel →
      masterResult n k W sched fuel = some (dfs (zeros n) 0 (n : ℤ)).flatten := by
  obtain ⟨F₀, hF₀⟩ := nqueensByLevel_dfs (zeros n) 0 (k : ℤ)
    (by simp [zeros]; omega) le_rfl (by omega) (by simp [zeros]; omega) (by omega)
  obtain ⟨F₁, hF₁⟩ := workerReports_sup n k h2 hkn hU (dfs (zeros n) 0 (k : ℤ))
    (fun p hp => by
      rw [dfs_partials n k (by omega)] at hp
      exact (exts_mem _ _ p (List.mem_of_mem_filter hp)).1)
  refine ⟨List.replicate (dfs (zeros n) 0 (k : ℤ)).length (⟨0, hW⟩ : Fin W) ++
    [⟨0, hW⟩], max 2 (max F₀ F₁), fun fuel hf => ?_⟩
  obtain ⟨hem, hfin⟩ := hF₀ fuel (by omega)
  unfold masterResult masterMain
  rw [show List.replicate (dfs (zeros n) 0 (k : ℤ)).length (⟨0, hW⟩ : Fin W) =
    List.replicate (nqueensByLevel (zeros n) 0 ((k : ℕ) : ℤ) fuel).em.length
      (⟨0, hW⟩ : Fin W) from by rw [hem]]
  rw [masterRun_allw n k W hW fuel (by omega) _ hfin (fun p hp => by
    rw [hem] at hp
    rw [hF₁ fuel (by omega) p hp]
    rfl)]
  congr 1
  rw [hem]
  rw [List.map_congr_left (fun p hp => repOf_eq (hF₁ fuel (by omega) p hp))]
  rw [flatten_map_flatten]
  rw [← dfs_split n k (by omega)]

theorem receiveFrom_none {n k fuel : ℕ} {W : ℕ} {s : PState W} {w : Fin W}
    (h : workerMsg n k fuel (s.assigned w) (s.consumed w) = none) :
    receiveFrom n k fuel s w = none := by
  unfold receiveFrom
  rw [h]

theorem dispatchPhase_cons_none {n k fuel : ℕ} {W : ℕ} {p : List ℤ}
    {ps : List (List ℤ)} {s : PState W} {w : Fin W} {sched : List (Fin W)}
    (h : receiveFrom n k fuel s w = none) :
    dispatchPhase n k fuel (p :: ps) s (w :: sched) = none := by
  rw [show dispatchPhase n k fuel (p :: ps) s (w :: sched) =
    (match receiveFrom n k fuel s w with
     | none => none
     | some s' => dispatchPhase n k fuel ps
        { s' with assigned := Function.update s'.assigned w (s'.assigned w ++ [p]),
                  active := s'.active + 1,
                  events := s'.events ++ [.dispatch w p] } sched) from rfl]
  rw [h]

theorem dispatchPhase_cons_some {n k fuel : ℕ} {W : ℕ} {p : List ℤ}
    {ps : List (List ℤ)} {s s₁ : PState W} {w : Fin W} {sched : List (Fin W)}
    (h : receiveFrom n k fuel s w = some s₁) :
    dispatchPhase n k fuel (p :: ps) s (w :: sched) =
      dispatchPhase n k fuel ps
        { s₁ with assigned := Function.update s₁.assigned w (s₁.assigned w ++ [p]),
                  active := s₁.active + 1,
                  events := s₁.events ++ [.dispatch w p] } sched := by
  rw [show dispatchPhase n k fuel (p :: ps) s (w :: sched) =
    (match receiveFrom n k fuel s w with
     | none => none
     | some s' => dispatchPhase n k fuel ps
        { s' with assigned := Function.update s'.assigned w (s'.assigned w ++ [p]),
                  active := s'.active + 1,
                  events := s'.events ++ [.dispatch w p] } sched) from rfl]
  rw [h]

/-- With one worker whose report on the first Work Unit never arrives, the
dispatch loop blocks (or runs out of schedule) for every schedule. -/
theorem dispatch_one_stuck {n k fuel : ℕ} {p₁ p₂ : List ℤ} {ps : List (List ℤ)}
    (hrep : workerReport n k p₁ fuel = none) (s : PState 1)
    (ha : s.assigned = fun _ => []) (hc : s.consumed = fun _ => 0) :
    ∀ (sched : List (Fin 1)),
      dispatchPhase n k fuel (p₁ :: p₂ :: ps) s sched = none := by
  intro sched
  cases sched with
  | nil => rfl
  | cons w sched' =>
    rw [dispatchPhase_cons_some (receiveFrom_init (by rw [hc]))]
    cases sched' with
    | nil => rfl
    | cons w₂ sched'' =>
      have hww : w₂ = w := Subsingleton.elim w₂ w
      subst hww
      refine dispatchPhase_cons_none (receiveFrom_none ?_)
      dsimp only
      rw [Function.update_same, Function.update_same, ha]
      show workerMsg n k fuel ([] ++ [p₁]) 1 = none
      show Option.map WMsg.report (workerReport n k p₁ fuel) = none
      rw [hrep]
      rfl

theorem initLoop_stable (maxL : ℤ) : ∀ (fuel : ℕ) (idx : List ℤ) (k : ℤ),
    (initLoop maxL idx k fuel).2.isSome = true →
    ∀ f', fuel ≤ f' → initLoop maxL idx k f' = initLoop maxL idx k fuel := by
  intro fuel
  induction fuel with
  | zero => intro idx k h; simp [initLoop] at h
  | succ fuel ih =>
    intro idx k h f' hf'
    obtain ⟨f'', rfl⟩ : ∃ f'', f' = f'' + 1 := ⟨f' - 1, by omega⟩
    rw [initLoop] at h ⊢
    conv_rhs => rw [initLoop]
    by_cases hcnd : k % U32 ≤ (maxL - 1) % U32
    · rw [if_pos hcnd] at h ⊢
      conv_rhs => rw [if_pos hcnd]
      dsimp only at h ⊢
      rw [ih (writeIdx idx k 0) (k + 1) h f'' (by omega)]
    · rw [if_neg hcnd] at h ⊢
      conv_rhs => rw [if_neg hcnd]

theorem nqueensByLevel_stable (pos : List ℤ) (start maxL : ℤ) (fuel : ℕ)
    (h : (nqueensByLevel pos start maxL fuel).final.isSome = true) :
    ∀ f', fuel ≤ f' →
      (nqueensByLevel pos start maxL f').em =
        (nqueensByLevel pos start maxL fuel).em := by
  intro f' hf'
  unfold nqueensByLevel at h ⊢
  cases hI : initLoop maxL (List.replicate maxL.toNat 0) start fuel with
  | mk tr r =>
    rw [hI] at h
    cases r with
    | none => simp at h
    | some idx =>
      dsimp only at h ⊢
      have hIs : (initLoop maxL (List.replicate maxL.toNat 0) start fuel).2.isSome
          = true := by rw [hI]; rfl
      rw [initLoop_stable maxL fuel _ start hIs f' hf', hI]
      dsimp only
      rw [run_final_stable fuel _ h f' hf']

/-- At `k = N` (here `N = 4`, one worker) the protocol never completes:
each Work Unit is a full solution, the worker's enumerator is called with
`start_level = max_level` and never returns, so its report never arrives
and the master blocks — under every schedule and every fuel. -/
theorem protocol_stuck_k_eq_n (sched : List (Fin 1)) (fuel : ℕ) :
    masterResult 4 4 1 sched fuel = none := by
  have hwrep : workerReport 4 4 [1, 3, 0, 2] fuel = none := by
    unfold workerReport
    dsimp only
    rw [show (nqueensByLevel (workerBoard 4 4 [1, 3, 0, 2]) ((4 : ℕ) : ℤ)
        ((4 : ℕ) : ℤ) fuel).final = none from (startEqMax_diverges fuel).2]
  unfold masterResult masterMain masterRun
  cases hfin : (nqueensByLevel (zeros 4) 0 ((4 : ℕ) : ℤ) fuel).final with
  | none => rfl
  | some st =>
    have hiso : (nqueensByLevel (zeros 4) 0 ((4 : ℕ) : ℤ) fuel).final.isSome
        = true := by rw [hfin]; rfl
    obtain ⟨F₀, hF₀⟩ := nqueensByLevel_dfs (zeros 4) 0 ((4 : ℕ) : ℤ)
      (by simp [zeros]) le_rfl (by norm_num) (by simp [zeros]) (by decide)
    have hstab := nqueensByLevel_stable (zeros 4) 0 ((4 : ℕ) : ℤ) fuel hiso
      (max fuel F₀) (by omega)
    obtain ⟨hemG, -⟩ := hF₀ (max fuel F₀) (by omega)
    have hem : (nqueensByLevel (zeros 4) 0 ((4 : ℕ) : ℤ) fuel).em =
        [[1, 3, 0, 2], [2, 0, 3, 1]] := by
      rw [← hstab, hemG]
      rfl
    dsimp only
    rw [hem]
    rw [dispatch_one_stuck hwrep (initPS 4 4 1) rfl rfl sched]

/-! ## The `ActiveWorkers` counter (claim C8)

The counter's movement is read off the event trace: `+1` on a Work Unit
dispatch, `-1` on a report receipt (with or without solutions), `0` on a
broadcast, an initial readiness receipt, or a termination send. -/

def actDelta : MEv → ℤ
  | .dispatch _ _ => 1
  | .recvSol _ _ => -1
  | .recvNoSol _ => -1
  | _ => 0

/-- The value of `ActiveWorkers::active_workers()` after the events `evs`. -/
def actCount (evs : List MEv) : ℤ := (evs.map actDelta).sum

theorem actCount_append (a b : List MEv) :
    actCount (a ++ b) = actCount a + actCount b := by
  simp [actCount]

/-- The master-state invariant tying the counter to the per-worker
outstanding Work Units. -/
def PInv {W : ℕ} (s : PState W) : Prop :=
  (∀ w : Fin W, s.consumed w ≤ (s.assigned w).length + 1) ∧
  s.active = ∑ w : Fin W,
    (((s.assigned w).length : ℤ) - max ((s.consumed w : ℤ) - 1) 0) ∧
  actCount s.events = s.active ∧
  (∀ pre, pre <+: s.events → 0 ≤ actCount pre) ∧
  (∀ r, MEv.sendTerm r ∉ s.events)

theorem active_nonneg {W : ℕ} {s : PState W} (h : PInv s) : 0 ≤ s.active := by
  rw [h.2.1]
  refine Finset.sum_nonneg ?_
  intro w _
  have := h.1 w
  omega

theorem prefix_snoc {α : Type} {pre l : List α} {a : α}
    (h : pre <+: l ++ [a]) : pre <+: l ∨ pre = l ++ [a] :=
  (List.prefix_concat_iff.mp h).symm

theorem workerMsg_init_inv {n k fuel : ℕ} {q : List (List ℤ)} {m : ℕ}
    (h : workerMsg n k fuel q m = some WMsg.init) : m = 0 := by
  cases m with
  | zero => rfl
  | succ t =>
    unfold workerMsg at h
    dsimp only at h
    cases hg : q.get? t with
    | none => rw [hg] at h; cases h
    | some p =>
      rw [hg] at h
      dsimp only at h
      cases hr : workerReport n k p fuel with
      | none => rw [hr] at h; cases h
      | some b => rw [hr] at h; cases h

theorem workerMsg_report_inv {n k fuel : ℕ} {q : List (List ℤ)} {m : ℕ}
    {b : List ℤ} (h : workerMsg n k fuel q m = some (WMsg.report b)) :
    ∃ t, m = t + 1 ∧ t < q.length := by
  cases m with
  | zero => cases h
  | succ t =>
    refine ⟨t, rfl, ?_⟩
    unfold workerMsg at h
    dsimp only at h
    cases hg : q.get? t with
    | none => rw [hg] at h; cases h
    | some p =>
      obtain ⟨hlt, -⟩ := List.get?_eq_some.mp hg
      exact hlt

theorem sum_update_summand {W : ℕ} (A : Fin W → List (List ℤ)) (C : Fin W → ℕ)
    (w : Fin W) (A' : Fin W → List (List ℤ)) (C' : Fin W → ℕ)
    (hA : ∀ x, x ≠ w → A' x = A x) (hC : ∀ x, x ≠ w → C' x = C x) :
    ∑ x : Fin W, (((A' x).length : ℤ) - max ((C' x : ℤ) - 1) 0) =
      (∑ x : Fin W, (((A x).length : ℤ) - max ((C x : ℤ) - 1) 0))
        - (((A w).length : ℤ) - max ((C w : ℤ) - 1) 0)
        + (((A' w).length : ℤ) - max ((C' w : ℤ) - 1) 0) := by
  classical
  have hfun : (fun x : Fin W => (((A' x).length : ℤ) - max ((C' x : ℤ) - 1) 0)) =
      Function.update (fun x => (((A x).length : ℤ) - max ((C x : ℤ) - 1) 0)) w
        (((A' w).length : ℤ) - max ((C' w : ℤ) - 1) 0) := by
    funext x
    by_cases hx : x = w
    · subst hx; rw [Function.update_same]
    · rw [Function.update_noteq hx, hA x hx, hC x hx]
  calc ∑ x : Fin W, (((A' x).length : ℤ) - max ((C' x : ℤ) - 1) 0)
      = ∑ x : Fin W, Function.update
          (fun x => (((A x).length : ℤ) - max ((C x : ℤ) - 1) 0)) w
          (((A' w).length : ℤ) - max ((C' w : ℤ) - 1) 0) x := by rw [hfun]
    _ = (((A' w).length : ℤ) - max ((C' w : ℤ) - 1) 0) +
          ∑ x ∈ Finset.univ \ {w},
            (((A x).length : ℤ) - max ((C x : ℤ) - 1) 0) :=
        Finset.sum_update_of_mem (Finset.mem_univ w) _ _
    _ = _ := by
        rw [show (∑ x : Fin W, (((A x).length : ℤ) - max ((C x : ℤ) - 1) 0)) =
          (∑ x ∈ Finset.univ \ {w},
            (((A x).length : ℤ) - max ((C x : ℤ) - 1) 0)) +
          (((A w).length : ℤ) - max ((C w : ℤ) - 1) 0) from
          Finset.sum_eq_sum_diff_singleton_add (Finset.mem_univ w) _]
        ring

theorem receiveFrom_inv {n k fuel : ℕ} {W : ℕ} {s s' : PState W} {w : Fin W}
    (hI : PInv s) (h : receiveFrom n k fuel s w = some s') : PInv s' := by
  obtain ⟨h1, h2, h3, h4, h5⟩ := hI
  unfold receiveFrom at h
  cases hm : workerMsg n k fuel (s.assigned w) (s.consumed w) with
  | none => rw [hm] at h; cases h
  | some msg =>
    rw [hm] at h
    cases msg with
    | init =>
      dsimp only at h
      cases h
      have hc0 : s.consumed w = 0 := workerMsg_init_inv hm
      refine ⟨?_, ?_, ?_, ?_, ?_⟩
      · intro x
        dsimp only
        by_cases hx : x = w
        · subst hx
          rw [Function.update_same, hc0]
          omega
        · rw [Function.update_noteq hx]
          exact h1 x
      · dsimp only
        rw [sum_update_summand s.assigned s.consumed w s.assigned
            (Function.update s.consumed w (s.consumed w + 1))
            (fun x _ => rfl) (fun x hx => Function.update_noteq hx _ _)]
        rw [Function.update_same, hc0, h2]
        push_cast
        omega
      · dsimp only
        rw [actCount_append, h3]
        simp [actCount, actDelta]
      · intro pre hpre
        dsimp only at hpre
        rcases prefix_snoc hpre with hp | rfl
        · exact h4 pre hp
        · rw [actCount_append, h3]
          have hnn := active_nonneg ⟨h1, h2, h3, h4, h5⟩
          simp only [actCount, actDelta, List.map_cons, List.map_nil,
            List.sum_cons, List.sum_nil]
          omega
      · intro r hmem
        dsimp only at hmem
        rcases List.mem_append.mp hmem with hmem | hmem
        · exact h5 r hmem
        · simp at hmem
    | report batch =>
      obtain ⟨t, htm, htlen⟩ := workerMsg_report_inv hm
      dsimp only at h
      by_cases hb : batch.isEmpty
      · rw [if_pos hb] at h
        cases h
        refine ⟨?_, ?_, ?_, ?_, ?_⟩
        · intro x
          dsimp only
          by_cases hx : x = w
          · subst hx
            rw [Function.update_same, htm]
            omega
          · rw [Function.update_noteq hx]
            exact h1 x
        · dsimp only
          rw [sum_update_summand s.assigned s.consumed w s.assigned
              (Function.update s.consumed w (s.consumed w + 1))
              (fun x _ => rfl) (fun x hx => Function.update_noteq hx _ _)]
          rw [Function.update_same, htm, h2]
          push_cast
          omega
        · dsimp only
          rw [actCount_append, h3]
          simp only [actCount, actDelta, List.map_cons, List.map_nil,
            List.sum_cons, List.sum_nil]
          ring
        · intro pre hpre
          dsimp only at hpre
          rcases prefix_snoc hpre with hp | rfl
          · exact h4 pre hp
          · rw [actCount_append, h3]
            have hrest : (0 : ℤ) ≤ s.active - 1 := by
              rw [h2]
              rw [show (∑ x : Fin W,
                  (((s.assigned x).length : ℤ) - max ((s.consumed x : ℤ) - 1) 0)) =
                (∑ x ∈ Finset.univ \ {w},
                  (((s.assigned x).length : ℤ) - max ((s.consumed x : ℤ) - 1) 0)) +
                (((s.assigned w).length : ℤ) - max ((s.consumed w : ℤ) - 1) 0) from
                Finset.sum_eq_sum_diff_singleton_add (Finset.mem_univ w) _]
              have hpos : (0 : ℤ) ≤ ∑ x ∈ Finset.univ \ {w},
                  (((s.assigned x).length : ℤ) - max ((s.consumed x : ℤ) - 1) 0) := by
                refine Finset.sum_nonneg ?_
                intro x _
                have := h1 x
                omega
              rw [htm]
              push_cast
              omega
            simp only [actCount, actDelta, List.map_cons, List.map_nil,
              List.sum_cons, List.sum_nil]
            omega
        · intro r hmem
          dsimp only at hmem
          rcases List.mem_append.mp hmem with hmem | hmem
          · exact h5 r hmem
          · simp at hmem
      · rw [if_neg hb] at h
        cases h
        refine ⟨?_, ?_, ?_, ?_, ?_⟩
        · intro x
          dsimp only
          by_cases hx : x = w
          · subst hx
            rw [Function.update_same, htm]
            omega
          · rw [Function.update_noteq hx]
            exact h1 x
        · dsimp only
          rw [sum_update_summand s.assigned s.consumed w s.assigned
              (Function.update s.consumed w (s.consumed w + 1))
              (fun x _ => rfl) (fun x hx => Function.update_noteq hx _ _)]
          rw [Function.update_same, htm, h2]
          push_cast
          omega
        · dsimp only
          rw [actCount_append, h3]
          simp only [actCount, actDelta, List.map_cons, List.map_nil,
            List.sum_cons, List.sum_nil]
          ring
        · intro pre hpre
          dsimp only at hpre
          rcases prefix_snoc hpre with hp | rfl
          · exact h4 pre hp
          · rw [actCount_append, h3]
            have hrest : (0 : ℤ) ≤ s.active - 1 := by
              rw [h2]
              rw [show (∑ x : Fin W,
                  (((s.assigned x).length : ℤ) - max ((s.consumed x : ℤ) - 1) 0)) =
                (∑ x ∈ Finset.univ \ {w},
                  (((s.assigned x).length : ℤ) - max ((s.consumed x : ℤ) - 1) 0)) +
                (((s.assigned w).length : ℤ) - max ((s.consumed w : ℤ) - 1) 0) from
                Finset.sum_eq_sum_diff_singleton_add (Finset.mem_univ w) _]
              have hpos : (0 : ℤ) ≤ ∑ x ∈ Finset.univ \ {w},
                  (((s.assigned x).length : ℤ) - max ((s.consumed x : ℤ) - 1) 0) := by
                refine Finset.sum_nonneg ?_
                intro x _
                have := h1 x
                omega
              rw [htm]
              push_cast
              omega
            simp only [actCount, actDelta, List.map_cons, List.map_nil,
              List.sum_cons, List.sum_nil]
            omega
        · intro r hmem
          dsimp only at hmem
          rcases List.mem_append.mp hmem with hmem | hmem
          · exact h5 r hmem
          · simp at hmem

theorem dispatch_update_inv {W : ℕ} {s : PState W} (hI : PInv s) (w : Fin W)
    (p : List ℤ) :
    PInv { s with assigned := Function.update s.assigned w (s.assigned w ++ [p]),
                  active := s.active + 1,
                  events := s.events ++ [.dispatch w p] } := by
  obtain ⟨h1, h2, h3, h4, h5⟩ := hI
  refine ⟨?_, ?_, ?_, ?_, ?_⟩
  · intro x
    dsimp only
    by_cases hx : x = w
    · subst hx
      rw [Function.update_same]
      have := h1 x
      simp only [List.length_append, List.length_cons, List.length_nil]
      omega
    · rw [Function.update_noteq hx]
      exact h1 x
  · dsimp only
    rw [sum_update_summand s.assigned s.consumed w
        (Function.update s.assigned w (s.assigned w ++ [p])) s.consumed
        (fun x hx => Function.update_noteq hx _ _) (fun x _ => rfl)]
    rw [Function.update_same, h2]
    simp only [List.length_append, List.length_cons, List.length_nil]
    push_cast
    omega
  · dsimp only
    rw [actCount_append, h3]
    simp only [actCount, actDelta, List.map_cons, List.map_nil, List.sum_cons,
      List.sum_nil]
    ring
  · intro pre hpre
    dsimp only at hpre
    rcases prefix_snoc hpre with hp | rfl
    · exact h4 pre hp
    · rw [actCount_append, h3]
      have hnn := active_nonneg ⟨h1, h2, h3, h4, h5⟩
      simp only [actCount, actDelta, List.map_cons, List.map_nil, List.sum_cons,
        List.sum_nil]
      omega
  · intro r hmem
    dsimp only at hmem
    rcases List.mem_append.mp hmem with hmem | hmem
    · exact h5 r hmem
    · simp at hmem

theorem dispatchPhase_inv {n k fuel : ℕ} {W : ℕ} :
    ∀ {ps : List (List ℤ)} {s s' : PState W} {sched sched' : List (Fin W)},
      PInv s → dispatchPhase n k fuel ps s sched = some (s', sched') → PInv s' := by
  intro ps
  induction ps with
  | nil =>
    intro s s' sched sched' hI h
    cases h
    exact hI
  | cons p ps ih =>
    intro s s' sched sched' hI h
    cases sched with
    | nil => cases h
    | cons w sched₀ =>
      rw [dispatchPhase] at h
      cases hr : receiveFrom n k fuel s w with
      | none => rw [hr] at h; cases h
      | some s₁ =>
        rw [hr] at h
        exact ih (dispatch_update_inv (receiveFrom_inv hI hr) w p) h

theorem drainPhase_inv {n k fuel : ℕ} {W : ℕ} :
    ∀ {fuel2 : ℕ} {s s' : PState W} {sched : List (Fin W)},
      PInv s → drainPhase n k fuel s sched fuel2 = some s' →
      PInv s' ∧ s'.active = 0 := by
  intro fuel2
  induction fuel2 with
  | zero =>
    intro s s' sched hI h
    rw [drainPhase] at h
    by_cases ha : s.active > 0
    · rw [if_pos ha] at h; cases h
    · rw [if_neg ha] at h
      cases h
      exact ⟨hI, by have := active_nonneg hI; omega⟩
  | succ fuel2 ih =>
    intro s s' sched hI h
    cases sched with
    | nil =>
      rw [drainPhase] at h
      by_cases ha : s.active > 0
      · rw [if_pos ha] at h; cases h
      · rw [if_neg ha] at h
        cases h
        exact ⟨hI, by have := active_nonneg hI; omega⟩
    | cons w sched₀ =>
      rw [drainPhase] at h
      by_cases ha : s.active > 0
      · rw [if_pos ha] at h
        cases hr : receiveFrom n k fuel s w with
        | none => rw [hr] at h; cases h
        | some s₁ =>
          rw [hr] at h
          exact ih (receiveFrom_inv hI hr) h
      · rw [if_neg ha] at h
        cases h
        exact ⟨hI, by have := active_nonneg hI; omega⟩

theorem actCount_nonneg_of_all {l : List MEv} (h : ∀ e ∈ l, 0 ≤ actDelta e)
    {pre : List MEv} (hp : pre <+: l) : 0 ≤ actCount pre := by
  refine List.sum_nonneg ?_
  intro y hy
  obtain ⟨e, he, rfl⟩ := List.mem_map.mp hy
  exact h e (hp.sublist.subset he)

theorem initPS_inv (n k W : ℕ) : PInv (initPS n k W) := by
  refine ⟨fun w => by simp [initPS], ?_, by simp [initPS, actCount, actDelta], ?_, ?_⟩
  · simp [initPS]
  · intro pre hpre
    refine actCount_nonneg_of_all ?_ hpre
    intro e he
    simp only [initPS, List.mem_cons, List.not_mem_nil, or_false] at he
    rcases he with rfl | rfl <;> simp [actDelta]
  · intro r hmem
    simp [initPS] at hmem

theorem prefix_append_cases {α : Type} {pre A B : List α} (h : pre <+: A ++ B) :
    pre <+: A ∨ ∃ q, pre = A ++ q ∧ q <+: B := by
  obtain ⟨t, ht⟩ := h
  by_cases hl : pre.length ≤ A.length
  · left
    exact List.prefix_of_prefix_length_le ⟨t, ht⟩ (List.prefix_append A B) hl
  · right
    have hA : A <+: pre :=
      List.prefix_of_prefix_length_le (List.prefix_append A B) ⟨t, ht⟩ (by omega)
    obtain ⟨u, hu⟩ := hA
    subst hu
    refine ⟨u, rfl, t, ?_⟩
    have := ht
    rw [List.append_assoc] at this
    exact List.append_cancel_left this

theorem actCount_sendTerm_prefix {q : List MEv} {W : ℕ}
    (h : q <+: (List.range W).map fun r => MEv.sendTerm (r + 1)) :
    actCount q = 0 := by
  have hall : ∀ e ∈ q, actDelta e = 0 := by
    intro e he
    obtain ⟨r, -, rfl⟩ := List.mem_map.mp (h.sublist.subset he)
    rfl
  unfold actCount
  rw [List.map_congr_left hall]
  simp

theorem count_sendTerm_range : ∀ (W r : ℕ),
    (((List.range W).map fun x => MEv.sendTerm (x + 1)).count (MEv.sendTerm r)) =
      if 1 ≤ r ∧ r ≤ W then 1 else 0 := by
  intro W
  induction W with
  | zero => intro r; rw [if_neg (by omega)]; rfl
  | succ W ih =>
    intro r
    rw [List.range_succ, List.map_append, List.count_append, ih]
    by_cases hr : r = W + 1
    · subst hr
      rw [if_neg (by omega), if_pos (by omega)]
      simp
    · rw [show List.map (fun x => MEv.sendTerm (x + 1)) [W] =
        [MEv.sendTerm (W + 1)] from rfl]
      rw [show (List.count (MEv.sendTerm r) [MEv.sendTerm (W + 1)]) = 0 from by
        rw [List.count_eq_zero]
        simp
        omega]
      by_cases h1 : 1 ≤ r ∧ r ≤ W
      · rw [if_pos h1, if_pos (by omega)]
      · rw [if_neg h1, if_neg (by omega)]

/-- The counter invariants of a master run, read off its event trace: the
counter never goes below zero at any point of any run; and when a run
completes, the counter has returned to zero and exactly one termination
signal has been sent to each of the `W` worker ranks. -/
theorem master_counter_invariant (n k W : ℕ) (sched : List (Fin W)) (fuel : ℕ) :
    (∀ pre, pre <+: masterEvents n k W sched fuel → 0 ≤ actCount pre) ∧
    (∀ L, masterResult n k W sched fuel = some L →
      actCount (masterEvents n k W sched fuel) = 0 ∧
      ∀ r, 1 ≤ r → r ≤ W →
        (masterEvents n k W sched fuel).count (MEv.sendTerm r) = 1) := by
  unfold masterEvents masterResult masterMain masterRun
  cases hfin : (nqueensByLevel (zeros n) 0 ((k : ℕ) : ℤ) fuel).final with
  | none =>
    dsimp only
    refine ⟨fun pre hpre => (initPS_inv n k W).2.2.2.1 pre hpre, ?_⟩
    intro L hL
    cases hL
  | some st =>
    dsimp only
    cases hd : dispatchPhase n k fuel
        (nqueensByLevel (zeros n) 0 ((k : ℕ) : ℤ) fuel).em (initPS n k W) sched with
    | none =>
      dsimp only
      refine ⟨fun pre hpre => (initPS_inv n k W).2.2.2.1 pre hpre, ?_⟩
      intro L hL
      cases hL
    | some r1 =>
      obtain ⟨s1, sched'⟩ := r1
      dsimp only
      have hI1 := dispatchPhase_inv (initPS_inv n k W) hd
      cases hr : drainPhase n k fuel s1 sched' fuel with
      | none =>
        dsimp only
        refine ⟨fun pre hpre => hI1.2.2.2.1 pre hpre, ?_⟩
        intro L hL
        cases hL
      | some s2 =>
        obtain ⟨hI2, hact0⟩ := drainPhase_inv hI1 hr
        dsimp only
        constructor
        · intro pre hpre
          rcases prefix_append_cases hpre with hp | ⟨q, rfl, hq⟩
          · exact hI2.2.2.2.1 pre hp
          · rw [actCount_append, hI2.2.2.1, hact0, actCount_sendTerm_prefix hq]
            norm_num
        · intro L hL
          refine ⟨?_, ?_⟩
          · rw [actCount_append, hI2.2.2.1, hact0,
              actCount_sendTerm_prefix List.prefix_rfl]
            norm_num
          · intro r h1r hrW
            rw [List.count_append]
            rw [List.count_eq_zero_of_not_mem (hI2.2.2.2.2 r)]
            rw [count_sendTerm_range, if_pos ⟨h1r, hrW⟩]

/-! ## Every completed master run returns the sequential solution set
(claim C2)

Whatever the schedule, a run of the master that completes has dispatched
every Work Unit to some worker and consumed every report, and its store is
the concatenation, in receipt order, of the per-Work-Unit batches.  The
receipt order is a permutation of the master's dispatch order, so the
aggregated solutions are a permutation, at solution granularity, of the
sequential enumeration. -/

/-- The Work Units whose reports the master has consumed so far (message
`0` of a worker is its initial readiness; message `t + 1` reports its
`t`-th Work Unit). -/
def consumedParts {W : ℕ} (s : PState W) : List (List ℤ) :=
  (List.finRange W).flatMap fun w => (s.assigned w).take (s.consumed w - 1)

/-- All Work Units dispatched so far, grouped by worker. -/
def assignedParts {W : ℕ} (s : PState W) : List (List ℤ) :=
  (List.finRange W).flatMap s.assigned

/-- The store invariant: the master's `SolutionStore` is the concatenation
of the reported batches in receipt order — a permutation `ps` of the
consumed Work Units, each contributing its report. -/
def SInv (n k fuel : ℕ) {W : ℕ} (s : PState W) : Prop :=
  ∃ ps : List (List ℤ), ps.Perm (consumedParts s) ∧
    (∀ p ∈ ps, (workerReport n k p fuel).isSome = true) ∧
    s.store = (ps.map (repOf n k fuel)).flatten

theorem flatMap_const_nil {α β : Type} : ∀ (l : List α),
    (l.flatMap fun _ => ([] : List β)) = [] := by
  intro l
  induction l with
  | nil => rfl
  | cons a l ih => simp only [List.flatMap_cons, List.nil_append, ih]

theorem flatMap_eq_flatten_map {α β : Type} (f : α → List β) :
    ∀ (l : List α), l.flatMap f = (l.map f).flatten := by
  intro l
  induction l with
  | nil => rfl
  | cons a l ih =>
    simp only [List.flatMap_cons, List.map_cons, List.flatten_cons, ih]

theorem perm_flatten {α : Type} {l₁ l₂ : List (List α)} (h : l₁.Perm l₂) :
    l₁.flatten.Perm l₂.flatten := by
  induction h with
  | nil => exact List.Perm.refl _
  | cons x _ ih =>
    simp only [List.flatten_cons]
    exact List.Perm.append_left x ih
  | swap x y l =>
    simp only [List.flatten_cons]
    have h1 : x ++ (y ++ l.flatten) = (x ++ y) ++ l.flatten :=
      (List.append_assoc _ _ _).symm
    have h2 : y ++ (x ++ l.flatten) = (y ++ x) ++ l.flatten :=
      (List.append_assoc _ _ _).symm
    rw [h1, h2]
    exact List.Perm.append_right l.flatten (@List.perm_append_comm _ y x)
  | trans _ _ ih₁ ih₂ => exact ih₁.trans ih₂

theorem take_append_left {α : Type} (l₁ l₂ : List α) (m : ℕ)
    (h : m ≤ l₁.length) : (l₁ ++ l₂).take m = l₁.take m := by
  rw [List.take_append_eq_append_take,
    show m - l₁.length = 0 from by omega, List.take_zero, List.append_nil]

theorem take_succ_of_get {α : Type} : ∀ (l : List α) (t : ℕ) (p : α),
    l.get? t = some p → l.take (t + 1) = l.take t ++ [p] := by
  intro l
  induction l with
  | nil =>
    intro t p h
    cases t with
    | zero => cases h
    | succ t => cases h
  | cons a l ih =>
    intro t p h
    cases t with
    | zero =>
      injection h with h
      subst h
      rfl
    | succ t =>
      have h' : l.get? t = some p := h
      rw [show (a :: l).take (t + 1 + 1) = a :: l.take (t + 1) from rfl,
        show (a :: l).take (t + 1) = a :: l.take t from rfl, ih t p h']
      rfl

/-- Appending one element to the `w` summand of a disjoint union moves it,
up to permutation, to the end. -/
theorem flatMap_snoc_perm_aux {α β : Type} :
    ∀ (l : List α) (f g : α → List β) (w : α) (p : β), l.Nodup → w ∈ l →
      (∀ x, x ≠ w → g x = f x) → g w = f w ++ [p] →
      (l.flatMap g).Perm (l.flatMap f ++ [p]) := by
  intro l
  induction l with
  | nil =>
    intro f g w p _ hw _ _
    exact absurd hw (List.not_mem_nil w)
  | cons a l ih =>
    intro f g w p hnd hw hoff hwv
    have hnd' := List.nodup_cons.mp hnd
    rcases List.mem_cons.mp hw with hb | hwl
    · subst hb
      rw [List.flatMap_cons, List.flatMap_cons,
        flatMap_congr (fun x hx => hoff x (fun hxw => hnd'.1 (hxw ▸ hx))), hwv]
      have h1 : (f w ++ [p]) ++ l.flatMap f = f w ++ ([p] ++ l.flatMap f) :=
        List.append_assoc _ _ _
      have h2 : (f w ++ l.flatMap f) ++ [p] = f w ++ (l.flatMap f ++ [p]) :=
        List.append_assoc _ _ _
      rw [h1, h2]
      exact List.Perm.append_left (f w) (@List.perm_append_comm _ [p] (l.flatMap f))
    · have haw : a ≠ w := by
        intro h
        exact hnd'.1 (h ▸ hwl)
      rw [List.flatMap_cons, List.flatMap_cons, hoff a haw]
      have h2 : (f a ++ l.flatMap f) ++ [p] = f a ++ (l.flatMap f ++ [p]) :=
        List.append_assoc _ _ _
      rw [h2]
      exact List.Perm.append_left (f a) (ih f g w p hnd'.2 hwl hoff hwv)

theorem assignedParts_update {W : ℕ} (A : Fin W → List (List ℤ)) (w : Fin W)
    (p : List ℤ) :
    ((List.finRange W).flatMap (Function.update A w (A w ++ [p]))).Perm
      ((List.finRange W).flatMap A ++ [p]) :=
  flatMap_snoc_perm_aux (List.finRange W) A (Function.update A w (A w ++ [p]))
    w p (List.nodup_finRange W) (List.mem_finRange w)
    (fun x hx => Function.update_noteq hx _ _) (Function.update_same _ _ _)

theorem workerMsg_report_elim {n k fuel : ℕ} {q : List (List ℤ)} {m : ℕ}
    {b : List ℤ} (h : workerMsg n k fuel q m = some (WMsg.report b)) :
    ∃ t p, m = t + 1 ∧ q.get? t = some p ∧ workerReport n k p fuel = some b := by
  cases m with
  | zero =>
    unfold workerMsg at h
    dsimp only at h
    injection h with h2
    cases h2
  | succ t =>
    unfold workerMsg at h
    dsimp only at h
    cases hg : q.get? t with
    | none => rw [hg] at h; cases h
    | some p =>
      rw [hg] at h
      dsimp only at h
      cases hr : workerReport n k p fuel with
      | none => rw [hr] at h; cases h
      | some b₀ =>
        rw [hr] at h
        have h' : some (WMsg.report b₀) = some (WMsg.report b) := h
        injection h' with h2
        injection h2 with h3
        refine ⟨t, p, rfl, hg, ?_⟩
        rw [hr, h3]

/-- A receive keeps the dispatch ledger and extends the store invariant:
the consumed Work Unit (if the message was a report) is appended to the
receipt order with its batch. -/
theorem receiveFrom_SInv {n k fuel : ℕ} {W : ℕ} {s s' : PState W} {w : Fin W}
    (hS : SInv n k fuel s) (h : receiveFrom n k fuel s w = some s') :
    SInv n k fuel s' ∧ s'.assigned = s.assigned := by
  obtain ⟨ps, hperm, hsome, hstore⟩ := hS
  unfold receiveFrom at h
  cases hm : workerMsg n k fuel (s.assigned w) (s.consumed w) with
  | none => rw [hm] at h; cases h
  | some msg =>
    rw [hm] at h
    cases msg with
    | init =>
      dsimp only at h
      cases h
      have hc0 : s.consumed w = 0 := workerMsg_init_inv hm
      have hcp : consumedParts { s with
          consumed := Function.update s.consumed w (s.consumed w + 1),
          events := s.events ++ [MEv.recvInit w] } = consumedParts s := by
        unfold consumedParts
        refine flatMap_congr ?_
        intro x _
        dsimp only
        by_cases hx : x = w
        · subst hx
          rw [Function.update_same, hc0]
        · rw [Function.update_noteq hx]
      exact ⟨⟨ps, by rw [hcp]; exact hperm, hsome, hstore⟩, rfl⟩
    | report batch =>
      obtain ⟨t, p, htm, hget, hwr⟩ := workerMsg_report_elim hm
      dsimp only at h
      have htake : (s.assigned w).take (t + 1) = (s.assigned w).take t ++ [p] :=
        take_succ_of_get (s.assigned w) t p hget
      have haux := flatMap_snoc_perm_aux (List.finRange W)
        (fun x => (s.assigned x).take (s.consumed x - 1))
        (fun x => (s.assigned x).take
          (Function.update s.consumed w (s.consumed w + 1) x - 1))
        w p (List.nodup_finRange W) (List.mem_finRange w)
        (fun x hx => by dsimp only; rw [Function.update_noteq hx])
        (by
          dsimp only
          rw [Function.update_same, htm, show t + 1 + 1 - 1 = t + 1 from rfl,
            show t + 1 - 1 = t from rfl, htake])
      have hsome' : ∀ p' ∈ ps ++ [p],
          (workerReport n k p' fuel).isSome = true := by
        intro p' hp'
        rcases List.mem_append.mp hp' with hp' | hp'
        · exact hsome p' hp'
        · rw [List.mem_singleton] at hp'
          subst hp'
          rw [hwr]
          rfl
      by_cases hb : batch.isEmpty
      · rw [if_pos hb] at h
        cases h
        refine ⟨⟨ps ++ [p], ?_, hsome', ?_⟩, rfl⟩
        · exact List.Perm.trans (hperm.append_right [p]) haux.symm
        · dsimp only
          rw [hstore, List.map_append, List.flatten_append]
          simp only [List.map_cons, List.map_nil, List.flatten_cons,
            List.flatten_nil, List.append_nil]
          rw [repOf_eq hwr, List.isEmpty_iff.mp hb, List.append_nil]
      · rw [if_neg hb] at h
        cases h
        refine ⟨⟨ps ++ [p], ?_, hsome', ?_⟩, rfl⟩
        · exact List.Perm.trans (hperm.append_right [p]) haux.symm
        · dsimp only
          rw [hstore, List.map_append, List.flatten_append]
          simp only [List.map_cons, List.map_nil, List.flatten_cons,
            List.flatten_nil, List.append_nil]
          rw [repOf_eq hwr]

/-- Dispatching a Work Unit leaves the consumed ledger and the store
untouched (the new Work Unit sits beyond every consumed position). -/
theorem dispatch_update_SInv {n k fuel : ℕ} {W : ℕ} {s : PState W}
    (hP : PInv s) (hS : SInv n k fuel s) (w : Fin W) (p : List ℤ) :
    SInv n k fuel { s with
      assigned := Function.update s.assigned w (s.assigned w ++ [p]),
      active := s.active + 1,
      events := s.events ++ [MEv.dispatch w p] } := by
  obtain ⟨ps, hperm, hsome, hstore⟩ := hS
  have hcp : consumedParts { s with
      assigned := Function.update s.assigned w (s.assigned w ++ [p]),
      active := s.active + 1,
      events := s.events ++ [MEv.dispatch w p] } = consumedParts s := by
    unfold consumedParts
    refine flatMap_congr ?_
    intro x _
    dsimp only
    by_cases hx : x = w
    · subst hx
      rw [Function.update_same]
      exact take_append_left (s.assigned x) [p] _ (by have := hP.1 x; omega)
    · rw [Function.update_noteq hx]
  exact ⟨ps, by rw [hcp]; exact hperm, hsome, hstore⟩

theorem dispatchPhase_SInv {n k fuel : ℕ} {W : ℕ} :
    ∀ {ps : List (List ℤ)} {s s' : PState W} {sched sched' : List (Fin W)},
      PInv s → SInv n k fuel s →
      dispatchPhase n k fuel ps s sched = some (s', sched') →
      SInv n k fuel s' ∧ (assignedParts s').Perm (assignedParts s ++ ps) := by
  intro ps
  induction ps with
  | nil =>
    intro s s' sched sched' hP hS h
    cases h
    exact ⟨hS, by rw [List.append_nil]⟩
  | cons p ps ih =>
    intro s s' sched sched' hP hS h
    cases sched with
    | nil => cases h
    | cons w sched₀ =>
      rw [dispatchPhase] at h
      cases hr : receiveFrom n k fuel s w with
      | none => rw [hr] at h; cases h
      | some s₁ =>
        rw [hr] at h
        obtain ⟨hS₁, hA₁⟩ := receiveFrom_SInv hS hr
        have hP₁ := receiveFrom_inv hP hr
        obtain ⟨hS₂, hAperm⟩ := ih (dispatch_update_inv hP₁ w p)
          (dispatch_update_SInv hP₁ hS₁ w p) h
        refine ⟨hS₂, hAperm.trans ?_⟩
        have hstep : (assignedParts { s₁ with
            assigned := Function.update s₁.assigned w (s₁.assigned w ++ [p]),
            active := s₁.active + 1,
            events := s₁.events ++ [MEv.dispatch w p] }).Perm
            (assignedParts s ++ [p]) := by
          unfold assignedParts
          dsimp only
          rw [hA₁]
          exact assignedParts_update s.assigned w p
        have h3 := hstep.append_right ps
        rw [List.append_assoc, List.singleton_append] at h3
        exact h3

theorem drainPhase_SInv {n k fuel : ℕ} {W : ℕ} :
    ∀ {fuel2 : ℕ} {s s' : PState W} {sched : List (Fin W)},
      PInv s → SInv n k fuel s → drainPhase n k fuel s sched fuel2 = some s' →
      SInv n k fuel s' ∧ assignedParts s' = assignedParts s := by
  intro fuel2
  induction fuel2 with
  | zero =>
    intro s s' sched hP hS h
    rw [drainPhase] at h
    by_cases ha : s.active > 0
    · rw [if_pos ha] at h; cases h
    · rw [if_neg ha] at h
      cases h
      exact ⟨hS, rfl⟩
  | succ fuel2 ih =>
    intro s s' sched hP hS h
    cases sched with
    | nil =>
      rw [drainPhase] at h
      by_cases ha : s.active > 0
      · rw [if_pos ha] at h; cases h
      · rw [if_neg ha] at h
        cases h
        exact ⟨hS, rfl⟩
    | cons w sched₀ =>
      rw [drainPhase] at h
      by_cases ha : s.active > 0
      · rw [if_pos ha] at h
        cases hr : receiveFrom n k fuel s w with
        | none => rw [hr] at h; cases h
        | some s₁ =>
          rw [hr] at h
          obtain ⟨hS₁, hA₁⟩ := receiveFrom_SInv hS hr
          obtain ⟨hS₂, hAeq⟩ := ih (receiveFrom_inv hP hr) hS₁ h
          refine ⟨hS₂, ?_⟩
          rw [hAeq]
          unfold assignedParts
          rw [hA₁]
      · rw [if_neg ha] at h
        cases h
        exact ⟨hS, rfl⟩

/-- When the drain loop has brought the counter to zero, every dispatched
Work Unit has had its report consumed. -/
theorem consumedParts_complete {W : ℕ} {s : PState W} (hP : PInv s)
    (hact : s.active = 0) : consumedParts s = assignedParts s := by
  have hsum : ∑ x : Fin W,
      (((s.assigned x).length : ℤ) - max ((s.consumed x : ℤ) - 1) 0) = 0 := by
    rw [← hP.2.1]
    exact hact
  have hnn : ∀ y ∈ Finset.univ, (0 : ℤ) ≤
      (((s.assigned y).length : ℤ) - max ((s.consumed y : ℤ) - 1) 0) := by
    intro y _
    have h1 := hP.1 y
    rcases max_cases ((s.consumed y : ℤ) - 1) 0 with ⟨heq, -⟩ | ⟨heq, -⟩ <;>
      rw [heq] <;> omega
  have hzero := (Finset.sum_eq_zero_iff_of_nonneg hnn).mp hsum
  unfold consumedParts assignedParts
  refine flatMap_congr ?_
  intro x _
  have hx := hzero x (Finset.mem_univ x)
  have hlen : (s.assigned x).length ≤ s.consumed x - 1 := by
    rcases max_cases ((s.consumed x : ℤ) - 1) 0 with ⟨heq, -⟩ | ⟨heq, -⟩ <;>
      rw [heq] at hx <;> omega
  exact List.take_of_length_le hlen

theorem consumedParts_initPS (n k W : ℕ) :
    consumedParts (initPS n k W) = [] :=
  flatMap_const_nil (List.finRange W)

theorem assignedParts_initPS (n k W : ℕ) :
    assignedParts (initPS n k W) = [] :=
  flatMap_const_nil (List.finRange W)

theorem initPS_SInv (n k fuel W : ℕ) : SInv n k fuel (initPS n k W) := by
  refine ⟨[], ?_, ?_, rfl⟩
  · rw [consumedParts_initPS]
  · intro p hp
    exact absurd hp (List.not_mem_nil p)

/-- A report the worker actually sent is the flat batch of the reference
search on its board: the worker's enumerator terminated within the fuel,
so its fuel-stable emission sequence equals the reference one. -/
theorem workerReport_some_eq {n k : ℕ} (h2 : 2 ≤ n) (hkn : k < n)
    (hU : (n : ℤ) < U32) {p b : List ℤ} (hp : p.length = k) {fuel : ℕ}
    (hb : workerReport n k p fuel = some b) :
    b = (dfs (workerBoard n k p) (k : ℤ) (n : ℤ)).flatten := by
  have hlen : (((workerBoard n k p).length : ℕ) : ℤ) = (n : ℤ) := by
    simp [workerBoard, hp]
    omega
  unfold workerReport at hb
  dsimp only at hb
  cases hfin : (nqueensByLevel (workerBoard n k p) ((k : ℕ) : ℤ) ((n : ℕ) : ℤ)
      fuel).final with
  | none => rw [hfin] at hb; cases hb
  | some st =>
    rw [hfin] at hb
    dsimp only at hb
    injection hb with hb
    have hiso : (nqueensByLevel (workerBoard n k p) ((k : ℕ) : ℤ) ((n : ℕ) : ℤ)
        fuel).final.isSome = true := by rw [hfin]; rfl
    obtain ⟨F, hF⟩ := nqueensByLevel_dfs (workerBoard n k p) (k : ℤ) (n : ℤ)
      (by rw [hlen]; omega) (by omega) (by omega) (by rw [hlen]) hU
    have hstab := nqueensByLevel_stable (workerBoard n k p) ((k : ℕ) : ℤ)
      ((n : ℕ) : ℤ) fuel hiso (max fuel F) (by omega)
    obtain ⟨hem, -⟩ := hF (max fuel F) (by omega)
    rw [← hb, ← hstab, hem]

/-- EVERY master run that completes — whatever the schedule — returns the
sequential enumeration at solution granularity: its store is the
flattening of a permutation of the reference solution list. -/
theorem masterResult_perm (n k W : ℕ) (h2 : 2 ≤ n) (hk1 : 1 ≤ k) (hkn : k < n)
    (hU : (n : ℤ) < U32) :
    ∀ (sched : List (Fin W)) (fuel : ℕ) (L : List ℤ),
      masterResult n k W sched fuel = some L →
      ∃ S : List (List ℤ), S.Perm (dfs (zeros n) 0 (n : ℤ)) ∧ L = S.flatten := by
  intro sched fuel L hL
  unfold masterResult masterMain masterRun at hL
  cases hfin : (nqueensByLevel (zeros n) 0 ((k : ℕ) : ℤ) fuel).final with
  | none =>
    rw [hfin] at hL
    dsimp only at hL
    cases hL
  | some st =>
    rw [hfin] at hL
    dsimp only at hL
    cases hd : dispatchPhase n k fuel
        (nqueensByLevel (zeros n) 0 ((k : ℕ) : ℤ) fuel).em (initPS n k W)
        sched with
    | none =>
      rw [hd] at hL
      dsimp only at hL
      cases hL
    | some r1 =>
      obtain ⟨s1, sched'⟩ := r1
      rw [hd] at hL
      dsimp only at hL
      cases hr : drainPhase n k fuel s1 sched' fuel with
      | none =>
        rw [hr] at hL
        dsimp only at hL
        cases hL
      | some s2 =>
        rw [hr] at hL
        dsimp only at hL
        injection hL with hL
        subst hL
        have hP1 := dispatchPhase_inv (initPS_inv n k W) hd
        obtain ⟨hS1, hA1⟩ := dispatchPhase_SInv (initPS_inv n k W)
          (initPS_SInv n k fuel W) hd
        obtain ⟨hP2, hact0⟩ := drainPhase_inv hP1 hr
        obtain ⟨hS2, hAeq⟩ := drainPhase_SInv hP1 hS1 hr
        have hcp := consumedParts_complete hP2 hact0
        obtain ⟨ps, hperm, hsome, hstore⟩ := hS2
        have hiso : (nqueensByLevel (zeros n) 0 ((k : ℕ) : ℤ) fuel).final.isSome
            = true := by rw [hfin]; rfl
        obtain ⟨F₀, hF₀⟩ := nqueensByLevel_dfs (zeros n) 0 (k : ℤ)
          (by simp [zeros]; omega) le_rfl (by omega) (by simp [zeros]; omega)
          (by omega)
        have hstab := nqueensByLevel_stable (zeros n) 0 ((k : ℕ) : ℤ) fuel hiso
          (max fuel F₀) (by omega)
        obtain ⟨hemG, -⟩ := hF₀ (max fuel F₀) (by omega)
        have hem : (nqueensByLevel (zeros n) 0 ((k : ℕ) : ℤ) fuel).em =
            dfs (zeros n) 0 (k : ℤ) := by rw [← hstab, hemG]
        have hperm2 : ps.Perm (dfs (zeros n) 0 (k : ℤ)) := by
          rw [hcp, hAeq] at hperm
          refine hperm.trans ?_
          have h3 := hA1
          rw [assignedParts_initPS, List.nil_append, hem] at h3
          exact h3
        have hplen : ∀ p ∈ ps, p.length = k := by
          intro p hp
          have hpd : p ∈ dfs (zeros n) 0 (k : ℤ) := hperm2.mem_iff.mp hp
          rw [dfs_partials n k (by omega)] at hpd
          exact (exts_mem _ _ p (List.mem_of_mem_filter hpd)).1
        have hrep : ∀ p ∈ ps, repOf n k fuel p =
            (dfs (workerBoard n k p) (k : ℤ) (n : ℤ)).flatten := by
          intro p hp
          obtain ⟨b, hb⟩ := Option.isSome_iff_exists.mp (hsome p hp)
          rw [repOf_eq hb]
          exact workerReport_some_eq h2 hkn hU (hplen p hp) hb
        refine ⟨(ps.map (fun p =>
          dfs (workerBoard n k p) (k : ℤ) (n : ℤ))).flatten, ?_, ?_⟩
        · rw [dfs_split n k (by omega), flatMap_eq_flatten_map]
          exact perm_flatten (hperm2.map _)
        · rw [hstore, List.map_congr_left hrep, flatten_map_flatten,
            flatMap_eq_flatten_map]

/-! ## The claims -/

/-- C1 (corrected): for every `N` with `2 ≤ N < 2^31`, `nqueens(N)` returns
(with the store cleared) and reports exactly the known number of `N`-queens
solutions — the flat sequence has length `N · knownCount N` — and the known
counts at the spec's examples are `knownCount 4 = 2` and `knownCount 8 = 92`.
The spec's range `N ≥ 1` is corrected at both ends: at `N = 1` the call
never returns (see the counterexample), and from `N = 2^31` upwards the
source narrows `pos.size()` into `int size` (wrapping it negative) and
overflows the `int` counter of the cursor-initialisation loop, so the
exact-integer embedding — and the enumeration property — only covers
`N < I32 = 2^31`. -/
theorem claim_C1 :
    (∀ N : ℕ, 2 ≤ N → (N : ℤ) < I32 →
      ∃ F, ∀ fuel, F ≤ fuel →
        ∃ ret, nqueensCall N [] fuel = some (ret, []) ∧
          ret.length = N * knownCount N) ∧
    knownCount 4 = 2 ∧ knownCount 8 = 92 := by
  refine ⟨?_, knownCount_four, knownCount_eight⟩
  intro N h2 hI
  obtain ⟨F, hF⟩ := nqueens_count N h2 (lt_trans hI I32_lt_U32)
  refine ⟨F, fun fuel hf => ?_⟩
  obtain ⟨st, hst, hlen⟩ := hF fuel hf
  refine ⟨[] ++ (nqueens N fuel).em.flatten, ?_, ?_⟩
  · unfold nqueensCall
    dsimp only
    rw [hst]
  · rw [List.nil_append]
    exact hlen

/-- C1, counterexample to the original range: `nqueens(1)` never returns
(the exhaustion back-track descends through rows `-1, -2, …` forever), so
no `N = 1` call produces any count. -/
theorem claim_C1_counterexample :
    ¬ ∃ (fuel : ℕ) (r : List ℤ × List ℤ), nqueensCall 1 [] fuel = some r := by
  rintro ⟨fuel, r, h⟩
  unfold nqueensCall at h
  dsimp only at h
  rw [nqueens_one_diverges fuel] at h
  cases h

theorem claim_C1_witness :
    ∃ F, ∀ fuel, F ≤ fuel →
      ∃ ret, nqueensCall 4 [] fuel = some (ret, []) ∧
        ret.length = 4 * knownCount 4 :=
  claim_C1.1 4 (by norm_num) (by decide)

/-- C2 (corrected): for `2 ≤ N < 2^31` and `1 ≤ k < N` — the spec's range
`0 ≤ k ≤ N` is corrected at both ends, and the board length is capped below
`2^31` where the source's `int` narrowing wraps — with any worker count
`W ≥ 1`: (i) EVERY run of the Master/Worker protocol that completes returns
the sequential enumeration's solutions — its flat result is the flattening
of a permutation of the reference solution list, so the aggregated set of
Complete Solutions equals the sequential one; (ii) completing runs exist:
some schedule completes and returns the sequential enumerator's flat
sequence verbatim; (iii) the reference list of (i) is the sequential
enumerator's own emission sequence. -/
theorem claim_C2 :
    ∀ n k W : ℕ, 2 ≤ n → 1 ≤ k → k < n → (n : ℤ) < I32 → 0 < W →
      (∀ (sched : List (Fin W)) (fuel : ℕ) (L : List ℤ),
        masterResult n k W sched fuel = some L →
        ∃ S : List (List ℤ), S.Perm (dfs (zeros n) 0 (n : ℤ)) ∧
          L = S.flatten) ∧
      (∃ (sched : List (Fin W)) (F : ℕ), ∀ fuel, F ≤ fuel →
        ∃ L, masterResult n k W sched fuel = some L ∧
          L = (nqueens n fuel).em.flatten) ∧
      (∃ F : ℕ, ∀ fuel, F ≤ fuel →
        (nqueens n fuel).em = dfs (zeros n) 0 (n : ℤ)) := by
  intro n k W h2 hk1 hkn hI hW
  have hU : (n : ℤ) < U32 := lt_trans hI I32_lt_U32
  refine ⟨masterResult_perm n k W h2 hk1 hkn hU, ?_, ?_⟩
  · obtain ⟨sched, F, hF⟩ := protocol_matches_sequential n k W h2 hk1 hkn hU hW
    obtain ⟨Fs, hFs⟩ := nqueensByLevel_dfs (zeros n) 0 (n : ℤ)
      (by simp [zeros]; omega) le_rfl (by omega) (by simp [zeros]) hU
    refine ⟨sched, max F Fs, fun fuel hf => ?_⟩
    refine ⟨(dfs (zeros n) 0 (n : ℤ)).flatten, hF fuel (by omega), ?_⟩
    obtain ⟨hem, -⟩ := hFs fuel (by omega)
    show _ = (nqueensByLevel (zeros n) 0 ((n : ℕ) : ℤ) fuel).em.flatten
    rw [hem]
  · obtain ⟨Fs, hFs⟩ := nqueensByLevel_dfs (zeros n) 0 (n : ℤ)
      (by simp [zeros]; omega) le_rfl (by omega) (by simp [zeros]) hU
    refine ⟨Fs, fun fuel hf => ?_⟩
    show (nqueensByLevel (zeros n) 0 ((n : ℕ) : ℤ) fuel).em = _
    exact (hFs fuel hf).1

/-- C2, counterexample to the `k = N` end of the original range: at
`N = k = 4` with one worker every Work Unit makes the worker call the
enumerator with `start_level = max_level`, which never returns; the master
never completes under any schedule. -/
theorem claim_C2_counterexample :
    ¬ ∃ (sched : List (Fin 1)) (fuel : ℕ) (L : List ℤ),
      masterResult 4 4 1 sched fuel = some L := by
  rintro ⟨sched, fuel, L, h⟩
  rw [protocol_stuck_k_eq_n sched fuel] at h
  cases h

theorem claim_C2_witness :
    (∀ (sched : List (Fin 1)) (fuel : ℕ) (L : List ℤ),
      masterResult 4 1 1 sched fuel = some L →
      ∃ S : List (List ℤ), S.Perm (dfs (zeros 4) 0 ((4 : ℕ) : ℤ)) ∧
        L = S.flatten) ∧
    (∃ (sched : List (Fin 1)) (F : ℕ), ∀ fuel, F ≤ fuel →
      ∃ L, masterResult 4 1 1 sched fuel = some L ∧
        L = (nqueens 4 fuel).em.flatten) :=
  ⟨(claim_C2 4 1 1 (by norm_num) le_rfl (by norm_num) (by decide)
      (by norm_num)).1,
   (claim_C2 4 1 1 (by norm_num) le_rfl (by norm_num) (by decide)
      (by norm_num)).2.1⟩

/-- C3 (confirmed): the enumerator's scan accepts a candidate exactly when
the spec's per-pair conditions (no column conflict, no diagonal conflict
against every placed row) hold, and deleting the structurally dead `i==k`
clause never changes acceptance. -/
theorem claim_C3 : ∀ (pos : List ℤ) (k c : ℤ),
    accept pos k c = noClash pos k c ∧ acceptNoRow pos k c = accept pos k c :=
  fun pos k c => ⟨accept_eq_noClash pos k c, acceptNoRow_eq_accept pos k c⟩

set_option maxRecDepth 100000 in
/-- C4 (corrected): on admissible parameters — boards shorter than
`2^31`, below the source's `int size = pos.size()` narrowing point —
ascending past `start_level - 1` is indeed detected as exhaustion and the
procedure returns; but the cursor-array accesses are NOT confined to
`[0, max_level)`: the exhaustion test itself reads `index[start_level-1]`,
so the correct bound — witnessed concretely on `nqueens(4)` — is
`[start_level - 1, max_level)`, one cell below the allocation when
`start_level = 0`. -/
theorem claim_C4 :
    (∀ (pos : List ℤ) (start maxL : ℤ), 2 ≤ (pos.length : ℤ) →
      (pos.length : ℤ) < I32 → 0 ≤ start →
      start < maxL → maxL ≤ (pos.length : ℤ) →
      ∃ F, ∀ fuel, F ≤ fuel →
        (nqueensByLevel pos start maxL fuel).final.isSome = true) ∧
    (∀ x ∈ (nqueens 4 300).tr, -1 ≤ x ∧ x < 4) ∧
    (nqueens 4 300).final.isSome = true := by
  refine ⟨?_, by decide, by decide⟩
  intro pos start maxL h2 hlen h0 hsm hml
  have hU : maxL < U32 := by
    have := I32_lt_U32
    omega
  obtain ⟨F, hF⟩ := nqueensByLevel_dfs pos start maxL h2 h0 hsm hml hU
  exact ⟨F, fun fuel hf => (hF fuel hf).2⟩

set_option maxRecDepth 100000 in
/-- C4, counterexample to the claimed access range: the completed run of
`nqueens(4)` reads cursor cell `-1` (when the search space is exhausted),
which is outside `[0, max_level)`. -/
theorem claim_C4_counterexample :
    ¬ ∀ x ∈ (nqueens 4 300).tr, 0 ≤ x ∧ x < 4 := by
  decide

theorem claim_C4_witness :
    ∃ F, ∀ fuel, F ≤ fuel →
      (nqueensByLevel (zeros 4) 0 4 fuel).final.isSome = true :=
  claim_C4.1 (zeros 4) 0 4 (by decide) (by decide) (by decide) (by decide)
    (by decide)


/-- C5 (code_bug): called with `start_level = max_level` (here on the
worker's board `[1,3,0,2]` with `start_level = max_level = 4`) the
procedure does NOT report the empty range as the sole solution and return:
it reads the out-of-range cursor cell `index[max_level]`, enters a
two-state loop, reports nothing and never returns. -/
theorem claim_C5 : ∀ fuel : ℕ,
    (nqueensByLevel [1, 3, 0, 2] 4 4 fuel).em = [] ∧
    (nqueensByLevel [1, 3, 0, 2] 4 4 fuel).final = none :=
  startEqMax_diverges

/-- C6 (confirmed, under the spec's own preconditions `0 ≤ startLevel <
maxLevel ≤ N = |board|`, `2 ≤ N < 2^32`): every call's solution sequence is
strictly increasing in lexicographic order — even a fuel-truncated run
emits a prefix of the full sorted sequence. -/
theorem claim_C6 : ∀ (pos : List ℤ) (start maxL : ℤ) (fuel : ℕ),
    2 ≤ (pos.length : ℤ) → 0 ≤ start → start < maxL →
    maxL ≤ (pos.length : ℤ) → maxL < U32 →
    List.Pairwise lexLT (nqueensByLevel pos start maxL fuel).em :=
  fun pos start maxL fuel h2 h0 hsm hml hU =>
    nqueensByLevel_sorted pos start maxL fuel h2 h0 hsm hml hU

theorem claim_C6_witness :
    List.Pairwise lexLT (nqueensByLevel (zeros 4) 0 4 300).em :=
  claim_C6 (zeros 4) 0 4 300 (by decide) (by decide) (by decide) (by decide)
    (by decide)

/-- C7 (code_bug): the master does NOT reject violating parameters before
broadcasting: whatever `(N, k)` — including `k > N` and `N = 0` — the
first two events of every master run are the two broadcasts of
`distribute_parameters`, with no validation before them. -/
theorem claim_C7 : ∀ (n k W : ℕ) (sched : List (Fin W)) (fuel : ℕ),
    (k > n ∨ n = 0) →
    (masterEvents n k W sched fuel).take 2 = [MEv.bcast n, MEv.bcast k] :=
  fun n k W sched fuel _ => masterEvents_start n k W sched fuel

theorem claim_C7_witness :
    (5 > 4 ∨ 4 = 0) ∧
    (masterEvents 4 5 1 [] 10).take 2 = [MEv.bcast 4, MEv.bcast 5] :=
  ⟨by norm_num, claim_C7 4 5 1 [] 10 (by norm_num)⟩

/-- C8 (confirmed): in every master run the Worker Liveness Count — read
off the event trace as `+1` per dispatch, `-1` per report, `0` otherwise —
is non-negative at every prefix; and when the run completes, the count is
zero and exactly one Termination Signal has been sent to each of the `W`
worker ranks. -/
theorem claim_C8 : ∀ (n k W : ℕ) (sched : List (Fin W)) (fuel : ℕ),
    (∀ pre, pre <+: masterEvents n k W sched fuel → 0 ≤ actCount pre) ∧
    (∀ L, masterResult n k W sched fuel = some L →
      actCount (masterEvents n k W sched fuel) = 0 ∧
      ∀ r, 1 ≤ r → r ≤ W →
        (masterEvents n k W sched fuel).count (MEv.sendTerm r) = 1) :=
  fun n k W sched fuel => master_counter_invariant n k W sched fuel

set_option maxRecDepth 40000 in
theorem claim_C8_witness :
    actCount (masterEvents 4 1 1 (List.replicate 5 (0 : Fin 1)) 300) = 0 ∧
    (masterEvents 4 1 1 (List.replicate 5 (0 : Fin 1)) 300).count
      (MEv.sendTerm 1) = 1 := by
  have h := (claim_C8 4 1 1 (List.replicate 5 (0 : Fin 1)) 300).2
    [1, 3, 0, 2, 2, 0, 3, 1] (by rfl)
  exact ⟨h.1, h.2 1 le_rfl le_rfl⟩

/-- C9 (confirmed): once the iteration-`t₀` read of the termination buffer
observes the signal (any value other than `working = 1`), the worker's
loop exits at `t₀` — freeing the outstanding work request — and every Work
Unit it processed was at an earlier iteration: none is accepted at or
after the signal is observed. -/
theorem claim_C9 : ∀ (termBuf : ℕ → ℤ) (work : ℕ → Option (List ℤ)) (t₀ : ℕ),
    (∀ u, u < t₀ → termBuf u = 1) → termBuf t₀ ≠ 1 →
    ∀ t fuel, t ≤ t₀ → t₀ < t + fuel →
      (workerLoop termBuf work t fuel).2 = some t₀ ∧
      ∀ x ∈ (workerLoop termBuf work t fuel).1, x.1 < t₀ :=
  fun termBuf work t₀ h0 h1 => workerLoop_stops termBuf work t₀ h0 h1

theorem claim_C9_witness :
    (workerLoop (fun t => if t < 3 then 1 else 0)
      (fun t => if t = 1 then some [7] else none) 0 10).2 = some 3 ∧
    ∀ x ∈ (workerLoop (fun t => if t < 3 then 1 else 0)
      (fun t => if t = 1 then some [7] else none) 0 10).1, x.1 < 3 :=
  claim_C9 (fun t => if t < 3 then 1 else 0)
    (fun t => if t = 1 then some [7] else none) 3
    (fun u hu => if_pos hu) (by decide) 0 10 (by norm_num) (by norm_num)

/-- C10 (corrected): for `2 ≤ n < 2^31` every `nqueens(n)` call empties
the static store on return, and a repeat call returns the same flat
sequence (the first call's return is the old store contents followed by
exactly the fresh sequence).  The implicit "for every n" is corrected:
at `n = 0` (and `n = 1`) the call never returns, and from `n = 2^31`
upwards the source wraps `int size = pos.size()` negative and overflows
the initialisation counter, outside the embedding's faithful range. -/
theorem claim_C10 :
    ∀ n : ℕ, 2 ≤ n → (n : ℤ) < I32 → ∀ store : List ℤ,
      ∃ F, ∀ fuel, F ≤ fuel →
        ∃ ret₁ ret₂, nqueensCall n store fuel = some (ret₁, []) ∧
          nqueensCall n [] fuel = some (ret₂, []) ∧ ret₁ = store ++ ret₂ := by
  intro n h2 hI store
  obtain ⟨F, hF⟩ := nqueens_count n h2 (lt_trans hI I32_lt_U32)
  refine ⟨F, fun fuel hf => ?_⟩
  obtain ⟨st, hst, -⟩ := hF fuel hf
  refine ⟨store ++ (nqueens n fuel).em.flatten, (nqueens n fuel).em.flatten,
    ?_, ?_, rfl⟩
  · unfold nqueensCall
    dsimp only
    rw [hst]
  · unfold nqueensCall
    dsimp only
    rw [hst]
    rw [List.nil_append]

/-- C10, counterexample to the implicit "for every n": `nqueens(0)` never
returns (the cursor-initialisation loop compares against the unsigned
`max_level - 1 = 2^32 - 1` and never exits), so no call at `n = 0` ever
reaches the store at all. -/
theorem claim_C10_counterexample :
    ¬ ∃ (fuel : ℕ) (r : List ℤ × List ℤ), nqueensCall 0 [] fuel = some r := by
  rintro ⟨fuel, r, h⟩
  unfold nqueensCall at h
  dsimp only at h
  rw [nqueens_zero_diverges fuel] at h
  cases h

theorem claim_C10_witness :
    ∃ F, ∀ fuel, F ≤ fuel →
      ∃ ret₁ ret₂, nqueensCall 4 [5] fuel = some (ret₁, []) ∧
        nqueensCall 4 [] fuel = some (ret₂, []) ∧ ret₁ = [5] ++ ret₂ :=
  claim_C10 4 (by norm_num) (by decide) [5]

end NQueens
